import Mathlib

/-!
Verification development for the streaming chat frontend
(`src/unnamed/part_000`).  The definitions below are shallow embeddings of
the JavaScript functions named in their doc comments; strings are modelled
as `List Char`, the conversation store as an explicit state record, and the
external JSON parser of the stream payloads as a function parameter.
-/

set_option autoImplicit false

namespace WpAgent

/-! ### Frame decoder (`streamCopilotChat`, lines 1451-1516)

The read loop appends each decoded delta to a carry buffer, splits the
buffer on blank lines (`buffer.split('\n\n')`), keeps the last incomplete
part as the new buffer and processes every completed frame.  Within a
frame every line starting with `data: ` carries a JSON payload. -/

/-- Fields of a parsed `data:` payload that `streamCopilotChat` inspects:
`evt.type`, `evt.message`, `evt.chunk` (present iff it is a string) and the
truthiness of `evt.done`. -/
structure SSEEvt where
  type : Option (List Char)
  message : Option (List Char)
  chunk : Option (List Char)
  done : Bool
deriving DecidableEq

/-- Callback invocations issued by the decoder: `onChunk(text, done)` and
`onProgress(evt)`. -/
inductive StreamEvent where
  | chunk (text : List Char) (done : Bool)
  | progress (evt : SSEEvt)
deriving DecidableEq

/-- Prefix test on character lists (JS `line.startsWith('data: ')`). -/
def hasPre : List Char → List Char → Bool
  | [], _ => true
  | _ :: _, [] => false
  | p :: ps, s :: ss => p == s && hasPre ps ss

/-- The body of the per-line `try` block (lines 1482-1498), before the
surrounding `catch`: parse the payload; a falsy or unparsable payload
(`parse` returns `none`) yields nothing; a payload with `type: "error"`
throws (`Except.error` carries `evt.message || 'Stream error'`); otherwise
a progress event fires when `evt.type` is set and a chunk event fires when
`evt.chunk` is a string. -/
def lineBody (parse : List Char → Option SSEEvt) (payload : List Char) :
    Except (List Char) (List StreamEvent) :=
  match parse payload with
  | none => Except.ok []
  | some evt =>
    if evt.type = some (("error").toList) then
      Except.error (evt.message.getD (("Stream error").toList))
    else
      Except.ok ((match evt.type with
        | some _ => [StreamEvent.progress evt]
        | none => []) ++
        (match evt.chunk with
        | some c => [StreamEvent.chunk c evt.done]
        | none => []))

/-- One line of a frame (lines 1479-1500): only `data: ` lines are
considered, and the `catch (e)` swallows every throw of the `try` body —
including the explicit stream-error throw — yielding no events. -/
def lineEvents (parse : List Char → Option SSEEvt) (line : List Char) :
    List StreamEvent :=
  if hasPre (("data: ").toList) line then
    match lineBody parse (line.drop 6) with
    | Except.error _ => []
    | Except.ok evs => evs
  else []

/-- JS `String.prototype.split` with a single-character separator, keeping
empty parts (`part.split('\n')`). -/
def splitChar (sep : Char) : List Char → List (List Char)
  | [] => [[]]
  | c :: rest =>
    if c = sep then [] :: splitChar sep rest
    else match splitChar sep rest with
      | [] => [[c]]
      | p :: ps => (c :: p) :: ps

/-- Prepend a character to the first part of a split result. -/
def consHead (c : Char) : List (List Char) → List (List Char)
  | [] => [[c]]
  | p :: ps => (c :: p) :: ps

/-- JS `buffer.split('\n\n')`: leftmost, non-overlapping split on the
two-character blank-line separator, keeping empty parts. -/
def splitNN : List Char → List (List Char)
  | [] => [[]]
  | [c] => [[c]]
  | c1 :: c2 :: rest =>
    if c1 = '\n' ∧ c2 = '\n' then [] :: splitNN rest
    else consHead c1 (splitNN (c2 :: rest))

/-- Events of one completed frame (lines 1477-1501): split into lines and
process each `data: ` line in order. -/
def frameEvents (parse : List Char → Option SSEEvt) (part : List Char) :
    List StreamEvent :=
  (splitChar '\n' part).flatMap (lineEvents parse)

/-- One reader iteration (lines 1472-1503): append the delta to the carry
buffer, split on blank lines, keep the last (possibly incomplete) part as
the new buffer and emit the events of every completed frame in order. -/
def feedOne (parse : List Char → Option SSEEvt) (buf delta : List Char) :
    List Char × List StreamEvent :=
  let parts := splitNN (buf ++ delta)
  (parts.getLastD [], parts.dropLast.flatMap (frameEvents parse))

/-- The whole read loop over a sequence of deltas, threading the carry
buffer and accumulating events. -/
def feedAll (parse : List Char → Option SSEEvt) :
    List Char × List StreamEvent → List (List Char) → List Char × List StreamEvent
  | st, [] => st
  | (buf, evs), d :: ds =>
    let r := feedOne parse buf d
    feedAll parse (r.1, evs ++ r.2) ds

/-- One `onChunk(text, done)` invocation with a truthy `done`. -/
def isDoneChunk : StreamEvent → Bool
  | StreamEvent.chunk _ true => true
  | _ => false

/-- `streamCopilotChat` (lines 1451-1516) as the ordered sequence of
callback invocations it performs for a given sequence of read deltas: the
events of the buffering loop, followed by the trailing `onChunk('', true)`
that fires when either no chunk arrived at all or no chunk carried a
truthy `done` flag (lines 1505-1512). -/
def streamCopilotChat (parse : List Char → Option SSEEvt)
    (deltas : List (List Char)) : List StreamEvent :=
  let evs := (feedAll parse ([], []) deltas).2
  evs ++ (if evs.any isDoneChunk then [] else [StreamEvent.chunk [] true])

/-! #### Structural lemmas about `splitNN` -/

theorem consHead_ne_nil (c : Char) (l : List (List Char)) : consHead c l ≠ [] := by
  cases l <;> simp [consHead]

theorem splitNN_eq_pos {c1 c2 : Char} (rest : List Char) (h : c1 = '\n' ∧ c2 = '\n') :
    splitNN (c1 :: c2 :: rest) = [] :: splitNN rest := by
  simp only [splitNN]
  rw [if_pos h]

theorem splitNN_eq_neg {c1 c2 : Char} (rest : List Char) (h : ¬(c1 = '\n' ∧ c2 = '\n')) :
    splitNN (c1 :: c2 :: rest) = consHead c1 (splitNN (c2 :: rest)) := by
  simp only [splitNN]
  rw [if_neg h]

theorem splitNN_ne_nil : ∀ s : List Char, splitNN s ≠ []
  | [] => by simp [splitNN]
  | [c] => by simp [splitNN]
  | c1 :: c2 :: rest => by
    by_cases h : c1 = '\n' ∧ c2 = '\n'
    · rw [splitNN_eq_pos rest h]; simp
    · rw [splitNN_eq_neg rest h]
      exact consHead_ne_nil _ _

/-- Shape of the first part of a split of a nonempty list: it is empty
(a separator sat at the front) or starts with the first character; and if
it is empty there is at least one further part. -/
theorem splitNN_cons_shape (c : Char) (rest : List Char) :
    ∃ q ps, splitNN (c :: rest) = q :: ps ∧
      (q = [] → ps ≠ []) ∧ (q ≠ [] → ∃ q2, q = c :: q2) := by
  match rest with
  | [] =>
    exact ⟨[c], [], by simp [splitNN], by simp, fun _ => ⟨[], rfl⟩⟩
  | c2 :: rest2 =>
    by_cases h : c = '\n' ∧ c2 = '\n'
    · rw [splitNN_eq_pos rest2 h]
      exact ⟨[], splitNN rest2, rfl, fun _ => splitNN_ne_nil _, by simp⟩
    · rw [splitNN_eq_neg rest2 h]
      obtain ⟨q, ps, hq⟩ : ∃ q ps, splitNN (c2 :: rest2) = q :: ps := by
        cases hs : splitNN (c2 :: rest2) with
        | nil => exact absurd hs (splitNN_ne_nil _)
        | cons q ps => exact ⟨q, ps, rfl⟩
      rw [hq]
      exact ⟨c :: q, ps, rfl, by simp, fun _ => ⟨q, rfl⟩⟩

theorem getLastD_of_ne_nil {α : Type} {l : List α} (h : l ≠ []) (a b : α) :
    l.getLastD a = l.getLastD b := by
  cases l with
  | nil => exact absurd rfl h
  | cons x xs => rw [List.getLastD_cons, List.getLastD_cons]

/-- Re-splitting after an append: the parts of `s ++ t` are the completed
parts of `s` followed by the split of the last part of `s` glued to `t`.
This is the carry-buffer correctness fact behind boundary insensitivity. -/
theorem splitNN_append : ∀ s t : List Char,
    splitNN (s ++ t) =
      (splitNN s).dropLast ++ splitNN ((splitNN s).getLastD [] ++ t)
  | [], t => by simp [splitNN]
  | [c], t => by simp [splitNN]
  | c1 :: c2 :: rest, t => by
    by_cases h : c1 = '\n' ∧ c2 = '\n'
    · have ih := splitNN_append rest t
      obtain ⟨p, ps, hps⟩ : ∃ p ps, splitNN rest = p :: ps := by
        cases hs : splitNN rest with
        | nil => exact absurd hs (splitNN_ne_nil _)
        | cons p ps => exact ⟨p, ps, rfl⟩
      show splitNN (c1 :: c2 :: (rest ++ t)) = _
      rw [splitNN_eq_pos (rest ++ t) h, splitNN_eq_pos rest h, ih, hps]
      simp [List.getLastD_cons]
    · obtain ⟨q, qs, hq, hqnil, hqcons⟩ := splitNN_cons_shape c2 rest
      have ih := splitNN_append (c2 :: rest) t
      rw [List.cons_append] at ih
      show splitNN (c1 :: c2 :: (rest ++ t)) = _
      rw [splitNN_eq_neg (rest ++ t) h, splitNN_eq_neg rest h, hq, ih, hq]
      cases qs with
      | nil =>
        -- single part: everything is re-split together with `t`
        rcases hqcons (by intro hq0; exact (hqnil hq0) rfl) with ⟨q2, rfl⟩
        show consHead c1 (splitNN ((c2 :: q2) ++ t)) = splitNN ((c1 :: c2 :: q2) ++ t)
        rw [show (c1 :: c2 :: q2) ++ t = c1 :: c2 :: (q2 ++ t) by simp,
          splitNN_eq_neg (q2 ++ t) h,
          show (c2 :: q2) ++ t = c2 :: (q2 ++ t) by simp]
      | cons q2 qs2 =>
        simp only [consHead, List.dropLast_cons₂, List.cons_append, List.getLastD_cons]

/-- Every part produced by `splitNN` contains no blank-line separator: it
splits into just itself. -/
theorem splitNN_parts : ∀ s : List Char, ∀ p ∈ splitNN s, splitNN p = [p]
  | [], p, hp => by
    simp [splitNN] at hp; simp [hp, splitNN]
  | [c], p, hp => by
    simp [splitNN] at hp; simp [hp, splitNN]
  | c1 :: c2 :: rest, p, hp => by
    by_cases h : c1 = '\n' ∧ c2 = '\n'
    · rw [splitNN_eq_pos rest h] at hp
      rcases List.mem_cons.mp hp with rfl | hmem
      · simp [splitNN]
      · exact splitNN_parts rest p hmem
    · rw [splitNN_eq_neg rest h] at hp
      obtain ⟨q, qs, hq, hqnil, hqcons⟩ := splitNN_cons_shape c2 rest
      rw [hq] at hp
      simp only [consHead] at hp
      rcases List.mem_cons.mp hp with rfl | hmem
      · -- p = c1 :: q
        by_cases hq0 : q = []
        · subst hq0; simp [splitNN]
        · rcases hqcons hq0 with ⟨q2, rfl⟩
          have hqsplit : splitNN (c2 :: q2) = [c2 :: q2] := by
            have hmm : (c2 :: q2) ∈ splitNN (c2 :: rest) := by
              rw [hq]; exact List.mem_cons_self _ _
            exact splitNN_parts (c2 :: rest) _ hmm
          rw [splitNN_eq_neg q2 h, hqsplit]
          rfl
      · exact splitNN_parts (c2 :: rest) p (by rw [hq]; exact List.mem_cons_of_mem _ hmem)

theorem getLastD_append_right {α : Type} (l1 : List α) {l2 : List α} (h : l2 ≠ [])
    (d : α) : (l1 ++ l2).getLastD d = l2.getLastD d := by
  induction l1 generalizing d with
  | nil => rfl
  | cons x xs ih =>
    rw [List.cons_append, List.getLastD_cons, ih x]
    exact getLastD_of_ne_nil h x d

theorem dropLast_append_right {α : Type} (l1 : List α) {l2 : List α} (h : l2 ≠ []) :
    (l1 ++ l2).dropLast = l1 ++ l2.dropLast := by
  induction l1 with
  | nil => rfl
  | cons x xs ih =>
    cases hx : xs ++ l2 with
    | nil =>
      rcases List.append_eq_nil.mp hx with ⟨-, h2⟩
      exact absurd h2 h
    | cons y ys =>
      rw [List.cons_append, hx, List.dropLast_cons₂, ← hx, ih]
      rfl

theorem getLastD_mem {α : Type} (l : List α) (h : l ≠ []) (d : α) : l.getLastD d ∈ l := by
  induction l generalizing d with
  | nil => exact absurd rfl h
  | cons x xs ih =>
    rw [List.getLastD_cons]
    cases hx : xs with
    | nil => simp
    | cons y ys => exact List.mem_cons_of_mem _ (by rw [← hx]; exact ih (by simp [hx]) x)

/-! #### Boundary insensitivity of the read loop -/

/-- A carry buffer is valid when it contains no blank-line separator, i.e.
it splits into just itself.  The initial empty buffer is valid and
`feedOne` always returns a valid carry. -/
def ValidBuf (buf : List Char) : Prop := splitNN buf = [buf]

theorem validBuf_nil : ValidBuf [] := rfl

theorem feedOne_carry_valid (parse : List Char → Option SSEEvt) (buf delta : List Char) :
    ValidBuf (feedOne parse buf delta).1 := by
  have hne := splitNN_ne_nil (buf ++ delta)
  exact splitNN_parts (buf ++ delta) _ (getLastD_mem _ hne [])

/-- Splitting a delta in two gives the same events and the same carry as
feeding it whole. -/
theorem feedOne_append (parse : List Char → Option SSEEvt) (buf d1 d2 : List Char) :
    feedOne parse buf (d1 ++ d2) =
      ((feedOne parse (feedOne parse buf d1).1 d2).1,
       (feedOne parse buf d1).2 ++ (feedOne parse (feedOne parse buf d1).1 d2).2) := by
  show ((splitNN (buf ++ (d1 ++ d2))).getLastD [], _) = _
  have hsp : splitNN (buf ++ (d1 ++ d2)) =
      (splitNN (buf ++ d1)).dropLast ++
        splitNN ((splitNN (buf ++ d1)).getLastD [] ++ d2) := by
    rw [← List.append_assoc]
    exact splitNN_append (buf ++ d1) d2
  have hQne : splitNN ((splitNN (buf ++ d1)).getLastD [] ++ d2) ≠ [] := splitNN_ne_nil _
  unfold feedOne
  rw [hsp, getLastD_append_right _ hQne, dropLast_append_right _ hQne,
    List.flatMap_append]

/-- Running the loop over a list of deltas from a valid buffer is the same
as feeding the concatenation of the deltas in one read. -/
theorem feedAll_eq_join (parse : List Char → Option SSEEvt) :
    ∀ (ds : List (List Char)) (buf : List Char) (evs : List StreamEvent),
      ValidBuf buf →
      feedAll parse (buf, evs) ds =
        ((feedOne parse buf ds.flatten).1, evs ++ (feedOne parse buf ds.flatten).2)
  | [], buf, evs, hv => by
    have h1 : feedOne parse buf [] = (buf, []) := by
      unfold feedOne
      rw [List.append_nil, hv]
      rfl
    simp [feedAll, h1]
  | d :: ds, buf, evs, hv => by
    have ih := feedAll_eq_join parse ds (feedOne parse buf d).1
      (evs ++ (feedOne parse buf d).2) (feedOne_carry_valid parse buf d)
    show feedAll parse ((feedOne parse buf d).1, evs ++ (feedOne parse buf d).2) ds = _
    rw [ih, show (d :: ds).flatten = d ++ ds.flatten from rfl, feedOne_append]
    simp [List.append_assoc]

/-- C3: for every frame stream and every way of splitting it into text
deltas at arbitrary boundaries, the buffering loop of `streamCopilotChat`
invokes the chunk and progress callbacks with the same ordered event
sequence as when the entire stream arrives in one single read. -/
theorem streamCopilotChat_boundary_insensitive (parse : List Char → Option SSEEvt)
    (deltas : List (List Char)) :
    streamCopilotChat parse deltas = streamCopilotChat parse [deltas.flatten] := by
  unfold streamCopilotChat
  rw [feedAll_eq_join parse deltas [] [] validBuf_nil,
    feedAll_eq_join parse [deltas.flatten] [] [] validBuf_nil]
  simp

/-- C9: if the stream ends without any chunk event carrying a truthy
`done` — including a stream that delivered zero chunk events — the decoder
still invokes the chunk callback exactly once more with the empty string
and `done = true`, so exactly one finalizing invocation happens. -/
theorem streamCopilotChat_synthesizes_done (parse : List Char → Option SSEEvt)
    (deltas : List (List Char))
    (h : ((feedAll parse ([], []) deltas).2).any isDoneChunk = false) :
    streamCopilotChat parse deltas =
      (feedAll parse ([], []) deltas).2 ++ [StreamEvent.chunk [] true] ∧
    ((streamCopilotChat parse deltas).filter isDoneChunk).length = 1 := by
  have h1 : streamCopilotChat parse deltas =
      (feedAll parse ([], []) deltas).2 ++ [StreamEvent.chunk [] true] := by
    simp [streamCopilotChat, h]
  refine ⟨h1, ?_⟩
  rw [h1, List.filter_append]
  have h2 : ((feedAll parse ([], []) deltas).2).filter isDoneChunk = [] := by
    rw [List.filter_eq_nil_iff]
    intro a ha
    have := List.any_eq_false.mp h a ha
    simpa using this
  rw [h2]
  rfl

/-- Concrete payloads for the decoder witnesses: a parser recognizing one
progressless chunk frame without a done flag. -/
def parseNoDone : List Char → Option SSEEvt := fun payload =>
  if payload = ("c1").toList then some ⟨none, none, some (("Hi").toList), false⟩
  else none

theorem streamCopilotChat_synthesizes_done_witness :
    streamCopilotChat parseNoDone [("data: c1\n\n").toList] =
      (feedAll parseNoDone ([], []) [("data: c1\n\n").toList]).2 ++
        [StreamEvent.chunk [] true] ∧
    ((streamCopilotChat parseNoDone [("data: c1\n\n").toList]).filter isDoneChunk).length = 1 :=
  streamCopilotChat_synthesizes_done parseNoDone [("data: c1\n\n").toList] (by decide)

/-- Parser for the fatal-error claim: one payload is an explicit protocol
error frame, one is a well-formed chunk frame, everything else is
malformed (JSON.parse throws). -/
def parseFatal : List Char → Option SSEEvt := fun payload =>
  if payload = ("e1").toList then
    some ⟨some (("error").toList), some (("boom").toList), none, false⟩
  else if payload = ("c1").toList then
    some ⟨none, none, some (("Hi").toList), true⟩
  else none

/-- C1 (counter-evidence): a stream whose first frame is an explicit
`type: "error"` payload.  The claim says the read loop terminates early
and the error propagates to the caller; in the code the `throw` at line
1486 is caught by the very `catch` at line 1499 that was meant to ignore
only parse errors, so the error frame is silently dropped, the loop
continues to process the following chunk frame, and a stream consisting
only of the error frame still finalizes normally with `onChunk('', true)`.
Malformed JSON is likewise dropped with streaming continuing. -/
theorem streamCopilotChat_error_frame_swallowed :
    streamCopilotChat parseFatal [("data: e1\n\ndata: c1\n\n").toList] =
      [StreamEvent.chunk (("Hi").toList) true] ∧
    streamCopilotChat parseFatal [("data: e1\n\n").toList] =
      [StreamEvent.chunk [] true] ∧
    streamCopilotChat parseFatal [("data: zz\n\ndata: c1\n\n").toList] =
      [StreamEvent.chunk (("Hi").toList) true] := by
  refine ⟨?_, ?_, ?_⟩ <;> decide

/-! ### Conversation store (lines 20-321, 459-469)

The persistence surface (three `localStorage` keys kept in sync by
`saveConversations`) is merged into the state record: the conversation
list with its histories *is* the persisted data. -/

/-- One history entry.  `pending` models the presence of the JS `pending`
property (`delete entry.pending` clears it), `elapsedMs` the optional
elapsed-time property, and `createdAt` an abstract clock value. -/
structure ChatMsg where
  role : String
  content : String
  pending : Bool
  elapsedMs : Option Nat
  createdAt : Nat
deriving DecidableEq

structure Conversation where
  id : String
  title : String
  avatarUrl : String
  history : List ChatMsg
  createdAt : Nat
deriving DecidableEq

/-- Application state: the persisted conversation list and active pointer,
the `chatHistory` projection of the active conversation's history, and the
global `isGenerating` flag. -/
structure AppState where
  conversations : List Conversation
  activeConversationId : Option String
  chatHistory : List ChatMsg
  isGenerating : Bool
deriving DecidableEq

/-- Fallback avatar (line 29-31). -/
def defaultAvatar : String := "assets/female-2.webp"

/-- JS `conversations.find(c => c.id === activeConversationId) || null`
(line 39). -/
def getActiveConv (st : AppState) : Option Conversation :=
  match st.activeConversationId with
  | none => none
  | some i => st.conversations.find? (fun c => c.id == i)

/-- Mutating the first conversation with a given id in place, as the JS
`conversations.find(...)` + field assignment does. -/
def updateConv : List Conversation → String → (Conversation → Conversation) → List Conversation
  | [], _, _ => []
  | c :: cs, id, f => if c.id == id then f c :: cs else c :: updateConv cs id f

/-- `persistConversationHistory` (lines 460-469): copy the given history
into the conversation with the given id, when it exists, and save. -/
def persistConversationHistory (st : AppState) (id : String) (history : List ChatMsg) :
    AppState :=
  let convs := updateConv st.conversations id (fun c => { c with history := history })
  { st with conversations := convs }

/-- `createNewConversation` (lines 296-321): fresh id, default title when
none (or an empty one) is given, empty history; becomes active and resets
the chat view. -/
def createNewConversation (st : AppState) (title : Option String) (freshId : String)
    (now : Nat) : AppState :=
  let t := match title with
    | none => "New Conversation"
    | some s => if s = "" then "New Conversation" else s
  let conv : Conversation :=
    { id := freshId, title := t, avatarUrl := defaultAvatar, history := [], createdAt := now }
  { st with conversations := st.conversations ++ [conv],
            activeConversationId := some freshId,
            chatHistory := [] }

/-- `deleteConversation` (lines 202-227): remove the conversation at the
found index; if the list became empty synthesize one fresh default
conversation; if the deleted conversation was active fall back to the
remaining conversation at `min idx (length - 1)` and reload its history
into the chat view. -/
def deleteConversation (st : AppState) (id : String) (freshId : String) (now : Nat) :
    AppState :=
  match st.conversations.findIdx? (fun c => c.id == id) with
  | none => st
  | some idx =>
    let wasActive := st.activeConversationId == some id
    let convs := st.conversations.eraseIdx idx
    if convs.isEmpty then
      createNewConversation { st with conversations := convs, activeConversationId := none }
        none freshId now
    else if wasActive then
      let nextIdx := min idx (convs.length - 1)
      match convs[nextIdx]? with
      | some c =>
        { st with conversations := convs, activeConversationId := some c.id,
                  chatHistory := c.history }
      | none => { st with conversations := convs }
    else
      { st with conversations := convs }

/-! ### Generation session (`sendMessage`, lines 1518-1869) -/

/-- How the awaited `streamCopilotChat` call ends: normal resolution, a
rejection whose `name`/`message` matches the abort test of line 1733, or
any other rejection with its `error.message`. -/
inductive Outcome where
  | success
  | abortError
  | failure (msg : String)
deriving DecidableEq

/-- JS `String.prototype.trim`: strip whitespace from both ends
(structurally recursive so that concrete inputs evaluate). -/
def trimJS (s : String) : String :=
  ⟨((s.data.dropWhile (fun c => c.isWhitespace)).reverse.dropWhile
      (fun c => c.isWhitespace)).reverse⟩

/-- The first four whitespace-separated words of the first line of the
message (lines 1544-1546). -/
def renameTitle (message : String) : String :=
  let firstLine := trimJS ((message.splitOn "\n").headD "")
  let words := (firstLine.split (fun c => c.isWhitespace)).filter (fun w => w ≠ "")
  " ".intercalate (words.take 4)

/-- The rename-on-first-message block (lines 1539-1554): when the active
conversation still has a default title, set it to the first four
whitespace-separated words of the message's first line. -/
def renameOnFirstMessage (st : AppState) (message : String) : AppState :=
  match getActiveConv st with
  | none => st
  | some conv =>
    let isDefault := conv.title = "" ∨ conv.title.toLower = "new conversation" ∨
      conv.title.toLower = "conversation"
    if isDefault then
      let title := renameTitle message
      if title.length > 0 then
        let convs := updateConv st.conversations conv.id (fun c => { c with title := title })
        { st with conversations := convs }
      else st
    else st

/-- History side effect of `addMessageToChat` (lines 1359-1368, with
`skipHistory` absent): push onto `chatHistory` and copy it into the active
conversation when there is one. -/
def addMessageToChat (st : AppState) (role content : String) (elapsedMs : Option Nat)
    (now : Nat) : AppState :=
  let ch := st.chatHistory ++
    [{ role := role, content := content, pending := false, elapsedMs := elapsedMs,
       createdAt := now }]
  let st1 := { st with chatHistory := ch }
  match getActiveConv st1 with
  | none => st1
  | some conv =>
    let convs := updateConv st1.conversations conv.id (fun c => { c with history := ch })
    { st1 with conversations := convs }

/-- `persistConversationHistory(generatingConvId, ...)` where the id may be
the JS `null` (no active conversation at send time). -/
def persistGen (st : AppState) (id : Option String) (history : List ChatMsg) : AppState :=
  match id with
  | none => st
  | some i => persistConversationHistory st i history

/-- Everything `sendMessage` does before the stream is consumed (lines
1524-1601), in statement order: set the generating flag, capture the
generating conversation and a snapshot of its history, rename a
default-titled conversation, add the user message to the chat and reflect
it in the captured history, then persist a pending assistant placeholder
and remember its index. -/
structure SessionSetup where
  st : AppState
  generatingConvId : Option String
  generatingHistory : List ChatMsg
  assistantPendingIndex : Nat
deriving DecidableEq

/-- The user entry pushed at line 1561. -/
def sentUserMsg (message : String) (now : Nat) : ChatMsg :=
  { role := "user", content := message, pending := false, elapsedMs := none,
    createdAt := now }

/-- The pending assistant placeholder pushed at line 1599. -/
def pendingAssistantMsg (now : Nat) : ChatMsg :=
  { role := "assistant", content := "Generating...", pending := true,
    elapsedMs := none, createdAt := now }

/-- The capture at lines 1530-1534: `conversations.find(c => c.id ===
generatingConvId)`, falling back to an empty history. -/
def capturedHistory (st : AppState) (id : Option String) : List ChatMsg :=
  match id with
  | some i =>
    match st.conversations.find? (fun c => c.id == i) with
    | some c => c.history
    | none => []
  | none => []

def sendMessagePre (st0 : AppState) (message : String) (now : Nat) : SessionSetup :=
  let st := { st0 with isGenerating := true }
  let generatingConvId := st.activeConversationId
  let generatingHistory := capturedHistory st generatingConvId
  let st := renameOnFirstMessage st message
  let st := addMessageToChat st "user" message none now
  let generatingHistory := generatingHistory ++ [sentUserMsg message now]
  let st := persistGen st generatingConvId generatingHistory
  let assistantPendingIndex := generatingHistory.length
  let generatingHistory := generatingHistory ++ [pendingAssistantMsg now]
  let st := persistGen st generatingConvId generatingHistory
  ⟨st, generatingConvId, generatingHistory, assistantPendingIndex⟩

/-- The placeholder entry used when the pending index misses (line 1623:
`generatingHistory[assistantPendingIndex] || { role: 'assistant',
content: '' }`); absent properties are modelled by their falsy defaults. -/
def fallbackEntry : ChatMsg :=
  { role := "assistant", content := "", pending := false, elapsedMs := none, createdAt := 0 }

/-- The `onChunk` callback of `sendMessage` (lines 1612-1709), restricted
to its state effects: accumulate the streamed text, update and persist the
pending entry with `pending = !done`, and on `done` finalize the persisted
entry (content, `pending` deleted) and clear the generating flag. -/
def applyChunk (convId : Option String) (pendIdx : Nat)
    (s : AppState × List ChatMsg × String) (ev : String × Bool) :
    AppState × List ChatMsg × String :=
  let st := s.1
  let gh := s.2.1
  let sc := s.2.2 ++ ev.1
  let entry := (gh[pendIdx]?).getD fallbackEntry
  let gh := gh.set pendIdx { entry with content := sc, pending := !ev.2 }
  let st := persistGen st convId gh
  if ev.2 then
    let r := match gh[pendIdx]? with
      | some e =>
        let gh2 := gh.set pendIdx { e with content := sc, pending := false }
        (persistGen st convId gh2, gh2)
      | none => (st, gh)
    ({ r.1 with isGenerating := false }, r.2, sc)
  else
    (st, gh, sc)

/-- The sequence of `onChunk` invocations delivered by the stream. -/
def runChunks (convId : Option String) (pendIdx : Nat)
    (s : AppState × List ChatMsg × String) (chunks : List (String × Bool)) :
    AppState × List ChatMsg × String :=
  chunks.foldl (applyChunk convId pendIdx) s

/-- The catch branch of `sendMessage` (lines 1724-1868), restricted to its
state effects: when some text already streamed, finalize the persisted
pending entry with the abort marker or the error suffix and the `pending`
property deleted; in every case clear the generating flag. -/
def sendMessageErrorPath (convId : Option String) (pendIdx : Nat) (wasAborted : Bool)
    (errorMsg : String) (s : AppState × List ChatMsg × String) : AppState :=
  let st := s.1
  let gh := s.2.1
  let sc := s.2.2
  let st :=
    if sc ≠ "" then
      let finalContent :=
        if wasAborted then sc ++ "\n\n[Generation stopped]" else sc ++ "\n\n" ++ errorMsg
      match gh[pendIdx]? with
      | some e =>
        persistGen st convId (gh.set pendIdx { e with content := finalContent, pending := false })
      | none => st
    else st
  { st with isGenerating := false }

/-- `sendMessage` (lines 1518-1869) as a state transformer, parameterized
by the trimmed input, the `onChunk` invocations the stream delivers, and
how the awaited call ends. -/
def sendMessage (st : AppState) (inputValue : String) (chunks : List (String × Bool))
    (outcome : Outcome) (now : Nat) : AppState :=
  if st.isGenerating then st
  else
    let message := trimJS inputValue
    if message = "" then st
    else
      let pre := sendMessagePre st message now
      let r := runChunks pre.generatingConvId pre.assistantPendingIndex
        (pre.st, pre.generatingHistory, "") chunks
      match outcome with
      | Outcome.success => r.1
      | Outcome.abortError =>
        sendMessageErrorPath pre.generatingConvId pre.assistantPendingIndex true "" r
      | Outcome.failure m =>
        sendMessageErrorPath pre.generatingConvId pre.assistantPendingIndex false
          ("Error: " ++ (if m = "" then "Unknown error" else m)) r

/-! #### Store lemmas -/

theorem findIdx?_lt_length_aux {α : Type} (p : α → Bool) :
    ∀ (l : List α) (s i : Nat), l.findIdx? p s = some i → i < s + l.length := by
  intro l
  induction l with
  | nil => intro s i h; simp [List.findIdx?] at h
  | cons a as ih =>
    intro s i h
    rw [show (a :: as).findIdx? p s = if p a then some s else as.findIdx? p (s + 1) from rfl] at h
    by_cases hp : p a
    · rw [if_pos hp] at h
      cases h
      simp only [List.length_cons]
      omega
    · rw [if_neg hp] at h
      have := ih (s + 1) i h
      simp only [List.length_cons]
      omega

theorem findIdx?_lt_length {α : Type} (p : α → Bool) (l : List α) (i : Nat)
    (h : l.findIdx? p = some i) : i < l.length := by
  have := findIdx?_lt_length_aux p l 0 i h
  omega

/-- The fresh default conversation that `createNewConversation` builds when
called with no title. -/
def freshConv (freshId : String) (now : Nat) : Conversation :=
  { id := freshId, title := "New Conversation", avatarUrl := defaultAvatar,
    history := [], createdAt := now }

/-- C5: after `deleteConversation` of an existing conversation the list is
never empty; deleting the only remaining conversation leaves exactly one
fresh default conversation; and when the deleted conversation was the
active one, the active pointer falls back to the remaining conversation at
index `min idx (newLength - 1)`. -/
theorem deleteConversation_spec (st : AppState) (id freshId : String) (now : Nat)
    (idx : Nat) (h : st.conversations.findIdx? (fun c => c.id == id) = some idx) :
    (deleteConversation st id freshId now).conversations ≠ [] ∧
    (st.conversations.length = 1 →
      (deleteConversation st id freshId now).conversations = [freshConv freshId now]) ∧
    (st.activeConversationId = some id → st.conversations.eraseIdx idx ≠ [] →
      ∃ c, (st.conversations.eraseIdx idx)[min idx ((st.conversations.eraseIdx idx).length - 1)]? =
          some c ∧
        (deleteConversation st id freshId now).activeConversationId = some c.id) := by
  have hlt := findIdx?_lt_length _ _ _ h
  simp only [deleteConversation, h]
  by_cases hemp : (st.conversations.eraseIdx idx).isEmpty
  · rw [if_pos hemp]
    rw [List.isEmpty_iff] at hemp
    refine ⟨by simp [createNewConversation], ?_, ?_⟩
    · intro _
      simp [createNewConversation, freshConv, hemp]
    · intro _ hne
      exact absurd hemp hne
  · rw [if_neg hemp]
    have hne : st.conversations.eraseIdx idx ≠ [] := fun hh => hemp (by rw [hh]; rfl)
    refine ⟨?_, ?_, ?_⟩
    · by_cases hact : (st.activeConversationId == some id) = true
      · rw [if_pos hact]
        cases hc : (st.conversations.eraseIdx idx)[min idx ((st.conversations.eraseIdx idx).length - 1)]? with
        | none => simpa using hne
        | some c => simpa using hne
      · rw [if_neg hact]
        simpa using hne
    · intro hlen
      have hidx0 : idx = 0 := by omega
      subst hidx0
      exfalso
      apply hne
      cases hc : st.conversations with
      | nil => rw [hc] at hlen; simp at hlen
      | cons a as =>
        rw [hc] at hlen
        simp only [List.length_cons] at hlen
        have has : as = [] := List.length_eq_zero.mp (by omega)
        rw [has]
        rfl
    · intro hact hne2
      have hb : (st.activeConversationId == some id) = true := by
        rw [hact]; simp
      have hlt2 : min idx ((st.conversations.eraseIdx idx).length - 1) <
          (st.conversations.eraseIdx idx).length := by
        have : 0 < (st.conversations.eraseIdx idx).length := List.length_pos.mpr hne2
        omega
      obtain ⟨c, hc⟩ : ∃ c,
          (st.conversations.eraseIdx idx)[min idx ((st.conversations.eraseIdx idx).length - 1)]? =
            some c := ⟨_, List.getElem?_eq_getElem hlt2⟩
      refine ⟨c, hc, ?_⟩
      rw [if_pos hb, hc]
      try rfl

/-- A one-conversation store used as concrete input for the delete claim. -/
def convA : Conversation :=
  { id := "a", title := "t", avatarUrl := "v", history := [], createdAt := 0 }

def stA : AppState :=
  { conversations := [convA], activeConversationId := some "a", chatHistory := [],
    isGenerating := false }

theorem deleteConversation_spec_witness :
    (deleteConversation stA "a" "f" 7).conversations = [freshConv "f" 7] :=
  (deleteConversation_spec stA "a" "f" 7 0 (by decide)).2.1 (by decide)

/-! #### Session lemmas: how each store operation moves the generating
conversation through `find?` -/

theorem eq_of_find?_conv {cs : List Conversation} {cid : String} {c : Conversation}
    (h : cs.find? (fun c => c.id == cid) = some c) : c.id = cid := by
  have hp := List.find?_some h
  exact eq_of_beq hp

theorem find?_updateConv (cs : List Conversation) (cid : String)
    (f : Conversation → Conversation) (hf : ∀ c, (f c).id = c.id) :
    (updateConv cs cid f).find? (fun c => c.id == cid) =
      (cs.find? (fun c => c.id == cid)).map f := by
  induction cs with
  | nil => rfl
  | cons c cs ih =>
    by_cases hb : (c.id == cid) = true
    · rw [show updateConv (c :: cs) cid f = f c :: cs from by simp [updateConv, hb]]
      have h1 : ((f c).id == cid) = true := by rw [hf]; exact hb
      simp only [List.find?_cons, h1, hb]
      rfl
    · rw [show updateConv (c :: cs) cid f = c :: updateConv cs cid f from by
        simp [updateConv, hb]]
      have hb2 : (c.id == cid) = false := by
        cases hcc : (c.id == cid) <;> simp_all
      simp only [List.find?_cons, hb2]
      exact ih

theorem getActiveConv_eq {st : AppState} {cid : String} {conv : Conversation}
    (hact : st.activeConversationId = some cid)
    (hfind : st.conversations.find? (fun c => c.id == cid) = some conv) :
    getActiveConv st = some conv := by
  unfold getActiveConv
  rw [hact]
  exact hfind

theorem renameOnFirstMessage_fields (st : AppState) (m : String) :
    (renameOnFirstMessage st m).activeConversationId = st.activeConversationId ∧
    (renameOnFirstMessage st m).chatHistory = st.chatHistory ∧
    (renameOnFirstMessage st m).isGenerating = st.isGenerating := by
  unfold renameOnFirstMessage
  cases getActiveConv st with
  | none => exact ⟨rfl, rfl, rfl⟩
  | some conv =>
    dsimp only
    split_ifs <;> exact ⟨rfl, rfl, rfl⟩

theorem find?_rename (st : AppState) (cid : String) (conv : Conversation) (m : String)
    (hact : st.activeConversationId = some cid)
    (hfind : st.conversations.find? (fun c => c.id == cid) = some conv) :
    ∃ t, (renameOnFirstMessage st m).conversations.find? (fun c => c.id == cid) =
      some { conv with title := t } := by
  have hid : conv.id = cid := eq_of_find?_conv hfind
  unfold renameOnFirstMessage
  rw [getActiveConv_eq hact hfind]
  dsimp only
  split_ifs with h1 h2
  · refine ⟨renameTitle m, ?_⟩
    rw [hid, find?_updateConv st.conversations cid
      (fun c => { c with title := renameTitle m }) (fun c => rfl), hfind]
    simp [hid]
  · exact ⟨conv.title, hfind⟩
  · exact ⟨conv.title, hfind⟩

theorem find?_addMessage (st : AppState) (cid : String) (conv : Conversation)
    (role content : String) (el : Option Nat) (now : Nat)
    (hact : st.activeConversationId = some cid)
    (hfind : st.conversations.find? (fun c => c.id == cid) = some conv) :
    (addMessageToChat st role content el now).conversations.find? (fun c => c.id == cid) =
      some { conv with history := st.chatHistory ++
        [{ role := role, content := content, pending := false, elapsedMs := el,
           createdAt := now }] } ∧
    (addMessageToChat st role content el now).activeConversationId =
      st.activeConversationId ∧
    (addMessageToChat st role content el now).isGenerating = st.isGenerating := by
  have hid : conv.id = cid := eq_of_find?_conv hfind
  unfold addMessageToChat
  dsimp only
  rw [show getActiveConv { st with chatHistory := st.chatHistory ++
      [{ role := role, content := content, pending := false, elapsedMs := el,
         createdAt := now }] } = some conv from getActiveConv_eq hact hfind]
  dsimp only
  rw [hid, find?_updateConv _ cid
    (fun c => { c with history := st.chatHistory ++
      [{ role := role, content := content, pending := false, elapsedMs := el,
         createdAt := now }] }) (fun c => rfl), hfind]
  exact ⟨by simp [hid], rfl, rfl⟩

theorem find?_persistGen (st : AppState) (cid : String) (h : List ChatMsg)
    (c0 : Conversation)
    (hfind : st.conversations.find? (fun c => c.id == cid) = some c0) :
    (persistGen st (some cid) h).conversations.find? (fun c => c.id == cid) =
      some { c0 with history := h } ∧
    (persistGen st (some cid) h).activeConversationId = st.activeConversationId ∧
    (persistGen st (some cid) h).chatHistory = st.chatHistory ∧
    (persistGen st (some cid) h).isGenerating = st.isGenerating := by
  unfold persistGen persistConversationHistory
  dsimp only
  rw [find?_updateConv _ cid (fun c => { c with history := h }) (fun c => rfl), hfind]
  exact ⟨rfl, rfl, rfl, rfl⟩

/-! #### Streaming lemmas -/

theorem set_append_len {α : Type} (l : List α) (x y : α) :
    (l ++ [x]).set l.length y = l ++ [y] := by
  induction l with
  | nil => rfl
  | cons a as ih =>
    simp only [List.cons_append, List.length_cons, List.set_cons_succ, ih]

theorem getElem?_append_len {α : Type} (l : List α) (x : α) :
    (l ++ [x])[l.length]? = some x := by
  induction l with
  | nil => rfl
  | cons a as ih =>
    simp only [List.cons_append, List.length_cons, List.getElem?_cons_succ]
    exact ih

theorem updateConv_hist_collapse (cs : List Conversation) (i : String)
    (h1 h2 : List ChatMsg) :
    updateConv (updateConv cs i (fun c => { c with history := h1 })) i
      (fun c => { c with history := h2 }) =
    updateConv cs i (fun c => { c with history := h2 }) := by
  induction cs with
  | nil => rfl
  | cons c cs ih =>
    by_cases hb : (c.id == i) = true
    · simp [updateConv, hb]
    · simp [updateConv, hb, ih]

/-- Writing the generating history twice in a row keeps only the last
write. -/
theorem persistGen_persistGen (st : AppState) (id : Option String)
    (h1 h2 : List ChatMsg) :
    persistGen (persistGen st id h1) id h2 = persistGen st id h2 := by
  cases id with
  | none => rfl
  | some i =>
    unfold persistGen persistConversationHistory
    dsimp only
    rw [updateConv_hist_collapse]

theorem persistGen_isGenerating (st : AppState) (id : Option String) (h : List ChatMsg) :
    (persistGen st id h).isGenerating = st.isGenerating := by
  cases id <;> rfl

theorem addMessageToChat_isGenerating (st : AppState) (r c : String) (e : Option Nat)
    (n : Nat) : (addMessageToChat st r c e n).isGenerating = st.isGenerating := by
  unfold addMessageToChat
  dsimp only
  cases getActiveConv _ <;> rfl

/-- The concatenation of the chunk texts delivered to `onChunk`. -/
def chunksText : List (String × Bool) → String
  | [] => ""
  | x :: xs => x.1 ++ chunksText xs

theorem applyChunk_no_done (convId : Option String) (base : List ChatMsg) (e : ChatMsg)
    (st : AppState) (sc c0 : String) :
    applyChunk convId base.length (st, base ++ [e], sc) (c0, false) =
      (persistGen st convId (base ++ [{ e with content := sc ++ c0, pending := true }]),
       base ++ [{ e with content := sc ++ c0, pending := true }], sc ++ c0) := by
  unfold applyChunk
  dsimp only
  rw [getElem?_append_len, set_append_len]
  rfl

/-- Chunk invocations that never carry `done` accumulate the streamed text
in the pending entry, keep it pending, and leave the generating flag
untouched: the state is the original one with the updated history
persisted. -/
theorem runChunks_no_done (convId : Option String) (base : List ChatMsg) :
    ∀ (cs : List (String × Bool)) (st : AppState) (e : ChatMsg) (sc : String),
      (∀ x ∈ cs, x.2 = false) → cs ≠ [] →
      runChunks convId base.length (st, base ++ [e], sc) cs =
        (persistGen st convId
          (base ++ [{ e with content := sc ++ chunksText cs, pending := true }]),
         base ++ [{ e with content := sc ++ chunksText cs, pending := true }],
         sc ++ chunksText cs)
  | [], _, _, _, _, hne => absurd rfl hne
  | (c0, b0) :: cs, st, e, sc, hnd, _ => by
    have hb0 : b0 = false := hnd (c0, b0) (List.mem_cons_self _ _)
    subst hb0
    rw [show runChunks convId base.length (st, base ++ [e], sc) ((c0, false) :: cs) =
        runChunks convId base.length
          (applyChunk convId base.length (st, base ++ [e], sc) (c0, false)) cs from rfl]
    rw [applyChunk_no_done]
    cases cs with
    | nil =>
      show (persistGen st convId _, _, _) = _
      simp [runChunks, chunksText]
    | cons x cs2 =>
      have ih := runChunks_no_done convId base (x :: cs2)
        (persistGen st convId (base ++ [{ e with content := sc ++ c0, pending := true }]))
        { e with content := sc ++ c0, pending := true } (sc ++ c0)
        (fun y hy => hnd y (List.mem_cons_of_mem _ hy)) (by simp)
      rw [ih, persistGen_persistGen]
      simp only [chunksText]
      rw [String.append_assoc]

/-- The state reached by `sendMessagePre` when there is an active, found
conversation: the captured history carries the user message and the
pending placeholder at index `history.length + 1`, the same list is
persisted into that conversation (whose title the rename block may have
changed), and the generating flag is up. -/
theorem sendMessagePre_spec (st : AppState) (cid : String) (conv : Conversation)
    (message : String) (now : Nat)
    (hact : st.activeConversationId = some cid)
    (hfind : st.conversations.find? (fun c => c.id == cid) = some conv) :
    (sendMessagePre st message now).generatingConvId = some cid ∧
    (sendMessagePre st message now).generatingHistory =
      conv.history ++ [sentUserMsg message now, pendingAssistantMsg now] ∧
    (sendMessagePre st message now).assistantPendingIndex = conv.history.length + 1 ∧
    (∃ t, (sendMessagePre st message now).st.conversations.find? (fun c => c.id == cid) =
      some { conv with title := t, history := conv.history ++ [sentUserMsg message now, pendingAssistantMsg now] }) ∧
    (sendMessagePre st message now).st.isGenerating = true := by
  unfold sendMessagePre
  dsimp only
  rw [hact]
  have hfindS : ({ st with activeConversationId := some cid, isGenerating := true } :
      AppState).conversations.find? (fun c => c.id == cid) = some conv := hfind
  have hcap : capturedHistory
      { st with activeConversationId := some cid, isGenerating := true } (some cid) =
      conv.history := by
    unfold capturedHistory
    dsimp only
    rw [hfindS]
  obtain ⟨t, hR⟩ := find?_rename
    { st with activeConversationId := some cid, isGenerating := true } cid conv message
    rfl hfindS
  have hfieldsR := renameOnFirstMessage_fields
    { st with activeConversationId := some cid, isGenerating := true } message
  have hactR : (renameOnFirstMessage
      { st with activeConversationId := some cid, isGenerating := true }
      message).activeConversationId = some cid := by rw [hfieldsR.1]
  have hAM := find?_addMessage
    (renameOnFirstMessage { st with activeConversationId := some cid, isGenerating := true }
      message) cid { conv with title := t } "user" message none now hactR hR
  have hP1 := find?_persistGen
    (addMessageToChat
      (renameOnFirstMessage { st with activeConversationId := some cid, isGenerating := true }
        message) "user" message none now)
    cid (conv.history ++ [sentUserMsg message now]) _ hAM.1
  have hP2 := find?_persistGen _ cid
    (conv.history ++ [sentUserMsg message now] ++ [pendingAssistantMsg now]) _ hP1.1
  refine ⟨rfl, ?_, ?_, ?_, ?_⟩
  · rw [hcap]
    simp
  · rw [hcap]
    simp
  · refine ⟨t, ?_⟩
    rw [hcap, hP2.1]
    simp
  · rw [hcap, persistGen_isGenerating, persistGen_isGenerating,
      addMessageToChat_isGenerating, hfieldsR.2.2]

/-- C6: invoking `sendMessage` while a session is active (the global
`isGenerating` flag is true) is a no-op: the state — conversation list,
histories, active pointer, chat view, flag — is returned unchanged. -/
theorem sendMessage_noop_when_generating (st : AppState) (v : String)
    (chunks : List (String × Bool)) (outcome : Outcome) (now : Nat)
    (h : st.isGenerating = true) :
    sendMessage st v chunks outcome now = st := by
  unfold sendMessage
  rw [if_pos h]

/-- A store with one conversation and a running session. -/
def stBusy : AppState :=
  { conversations := [convA], activeConversationId := some "a", chatHistory := [],
    isGenerating := true }

theorem sendMessage_noop_when_generating_witness :
    sendMessage stBusy "Hi" [] Outcome.success 0 = stBusy :=
  sendMessage_noop_when_generating stBusy "Hi" [] Outcome.success 0 rfl

/-- C2: cancelling after exactly `"Hello wor"` has streamed (every chunk
delivered without a done flag, the awaited call rejecting with the abort
error) persists, in the owning conversation, a final assistant message
`"Hello wor\n\n[Generation stopped]"` with the pending flag cleared, and
leaves the global generating flag false. -/
theorem sendMessage_cancel_partial (st : AppState) (cid : String) (conv : Conversation)
    (v : String) (cs : List (String × Bool)) (now : Nat)
    (hgen : st.isGenerating = false)
    (hact : st.activeConversationId = some cid)
    (hfind : st.conversations.find? (fun c => c.id == cid) = some conv)
    (hv : (trimJS v) ≠ "")
    (hcs : chunksText cs = "Hello wor")
    (hnd : ∀ x ∈ cs, x.2 = false) :
    ∃ conv2,
      (sendMessage st v cs Outcome.abortError now).conversations.find?
        (fun c => c.id == cid) = some conv2 ∧
      conv2.history = conv.history ++ [sentUserMsg (trimJS v) now,
        { role := "assistant", content := "Hello wor\n\n[Generation stopped]",
          pending := false, elapsedMs := none, createdAt := now }] ∧
      (sendMessage st v cs Outcome.abortError now).isGenerating = false := by
  obtain ⟨hcid, hgh, hidx, ⟨t, hfindPre⟩, hgen1⟩ :=
    sendMessagePre_spec st cid conv (trimJS v) now hact hfind
  have hstep : sendMessage st v cs Outcome.abortError now =
      sendMessageErrorPath (sendMessagePre st (trimJS v) now).generatingConvId
        (sendMessagePre st (trimJS v) now).assistantPendingIndex true ""
        (runChunks (sendMessagePre st (trimJS v) now).generatingConvId
          (sendMessagePre st (trimJS v) now).assistantPendingIndex
          ((sendMessagePre st (trimJS v) now).st,
            (sendMessagePre st (trimJS v) now).generatingHistory, "") cs) := by
    unfold sendMessage
    rw [if_neg (by simp [hgen]), if_neg hv]
  have hsplit : conv.history ++ [sentUserMsg (trimJS v) now, pendingAssistantMsg now] =
      (conv.history ++ [sentUserMsg (trimJS v) now]) ++ [pendingAssistantMsg now] := by simp
  have hlen : conv.history.length + 1 =
      (conv.history ++ [sentUserMsg (trimJS v) now]).length := by simp
  have hcsne : cs ≠ [] := fun h0 => by
    rw [h0] at hcs
    exact absurd hcs (by decide)
  rw [hstep, hcid, hidx, hgh, hsplit, hlen,
    runChunks_no_done (some cid) (conv.history ++ [sentUserMsg (trimJS v) now]) cs _ _ "" hnd hcsne,
    hcs]
  unfold sendMessageErrorPath
  dsimp only
  rw [if_pos (show ("" ++ "Hello wor" : String) ≠ "" from by decide)]
  rw [getElem?_append_len]
  dsimp only
  rw [set_append_len, persistGen_persistGen]
  have hfinal := find?_persistGen (sendMessagePre st (trimJS v) now).st cid
    ((conv.history ++ [sentUserMsg (trimJS v) now]) ++
      [{ role := "assistant", content := ("" ++ "Hello wor") ++ "\n\n[Generation stopped]",
         pending := false, elapsedMs := none, createdAt := now }]) _ hfindPre
  refine ⟨_, hfinal.1, ?_, rfl⟩
  simp only []
  rw [show (("" ++ "Hello wor" : String) ++ "\n\n[Generation stopped]") =
    "Hello wor\n\n[Generation stopped]" from by decide]
  simp [sentUserMsg]

/-- A fresh default conversation store used as concrete session input. -/
def convB : Conversation :=
  { id := "c", title := "New Conversation", avatarUrl := "v", history := [], createdAt := 0 }

def stIdle : AppState :=
  { conversations := [convB], activeConversationId := some "c", chatHistory := [],
    isGenerating := false }

theorem sendMessage_cancel_partial_witness :
    ∃ conv2,
      (sendMessage stIdle "Hi" [("Hello ", false), ("wor", false)]
          Outcome.abortError 3).conversations.find? (fun c => c.id == "c") = some conv2 ∧
      conv2.history = convB.history ++ [sentUserMsg (trimJS "Hi") 3,
        { role := "assistant", content := "Hello wor\n\n[Generation stopped]",
          pending := false, elapsedMs := none, createdAt := 3 }] ∧
      (sendMessage stIdle "Hi" [("Hello ", false), ("wor", false)]
          Outcome.abortError 3).isGenerating = false :=
  sendMessage_cancel_partial stIdle "c" convB "Hi" [("Hello ", false), ("wor", false)] 3
    rfl rfl (by decide) (by decide) (by decide) (by decide)

/-- C10: when the awaited call ends in cancellation or failure before any
chunk callback ran, the pending assistant entry persisted at session start
is not finalized — its content is still the placeholder and its pending
flag still set — while the generating flag is cleared. -/
theorem sendMessage_early_end_keeps_placeholder (st : AppState) (cid : String)
    (conv : Conversation) (v : String) (outcome : Outcome) (now : Nat)
    (hgen : st.isGenerating = false)
    (hact : st.activeConversationId = some cid)
    (hfind : st.conversations.find? (fun c => c.id == cid) = some conv)
    (hv : (trimJS v) ≠ "")
    (hout : outcome = Outcome.abortError ∨ ∃ m, outcome = Outcome.failure m) :
    ∃ conv2,
      (sendMessage st v [] outcome now).conversations.find? (fun c => c.id == cid) =
        some conv2 ∧
      conv2.history = conv.history ++ [sentUserMsg (trimJS v) now, pendingAssistantMsg now] ∧
      (sendMessage st v [] outcome now).isGenerating = false := by
  obtain ⟨hcid, hgh, hidx, ⟨t, hfindPre⟩, hgen1⟩ :=
    sendMessagePre_spec st cid conv (trimJS v) now hact hfind
  have herr : ∀ (wa : Bool) (em : String),
      sendMessageErrorPath (some cid) (conv.history.length + 1) wa em
        ((sendMessagePre st (trimJS v) now).st,
          conv.history ++ [sentUserMsg (trimJS v) now, pendingAssistantMsg now], "") =
      { (sendMessagePre st (trimJS v) now).st with isGenerating := false } := by
    intro wa em
    unfold sendMessageErrorPath
    dsimp only
    rw [if_neg (by simp)]
  rcases hout with rfl | ⟨m, rfl⟩
  · have hstep : sendMessage st v [] Outcome.abortError now =
        sendMessageErrorPath (sendMessagePre st (trimJS v) now).generatingConvId
          (sendMessagePre st (trimJS v) now).assistantPendingIndex true ""
          ((sendMessagePre st (trimJS v) now).st,
            (sendMessagePre st (trimJS v) now).generatingHistory, "") := by
      unfold sendMessage
      rw [if_neg (by simp [hgen]), if_neg hv]
      rfl
    rw [hstep, hcid, hidx, hgh, herr]
    exact ⟨_, hfindPre, rfl, rfl⟩
  · have hstep : sendMessage st v [] (Outcome.failure m) now =
        sendMessageErrorPath (sendMessagePre st (trimJS v) now).generatingConvId
          (sendMessagePre st (trimJS v) now).assistantPendingIndex false
          ("Error: " ++ (if m = "" then "Unknown error" else m))
          ((sendMessagePre st (trimJS v) now).st,
            (sendMessagePre st (trimJS v) now).generatingHistory, "") := by
      unfold sendMessage
      rw [if_neg (by simp [hgen]), if_neg hv]
      rfl
    rw [hstep, hcid, hidx, hgh, herr]
    exact ⟨_, hfindPre, rfl, rfl⟩

theorem sendMessage_early_end_keeps_placeholder_witness :
    ∃ conv2,
      (sendMessage stIdle "Hey" [] Outcome.abortError 4).conversations.find?
        (fun c => c.id == "c") = some conv2 ∧
      conv2.history = convB.history ++ [sentUserMsg (trimJS "Hey") 4, pendingAssistantMsg 4] ∧
      (sendMessage stIdle "Hey" [] Outcome.abortError 4).isGenerating = false :=
  sendMessage_early_end_keeps_placeholder stIdle "c" convB "Hey" Outcome.abortError 4
    rfl rfl (by decide) (by decide) (Or.inl rfl)

/-! #### Statement order of `sendMessage` (claim C4) -/

/-- The state-relevant statements of `sendMessage`'s body, one constructor
per statement, in source order: the guard (line 1519), `isGenerating =
true` (line 1525), the history capture (lines 1529-1534), the rename block
(lines 1539-1554), `addMessageToChat('user', ...)` (line 1558), the push
and persist of the user message into the generating history (lines
1561-1562), the pending assistant push and persist (lines 1596-1601) and
the network call awaited through `streamCopilotChat` (line 1610, `fetch`
at line 1453). -/
inductive SendStep where
  | guardCheck
  | setGenerating
  | captureHistory
  | renameDefaultTitle
  | addUserToChat
  | persistUserMessage
  | persistPendingAssistant
  | networkFetch
deriving DecidableEq

/-- The order in which `sendMessage` executes the statements above. -/
def sendMessageOrder : List SendStep :=
  [SendStep.guardCheck, SendStep.setGenerating, SendStep.captureHistory,
   SendStep.renameDefaultTitle, SendStep.addUserToChat, SendStep.persistUserMessage,
   SendStep.persistPendingAssistant, SendStep.networkFetch]

/-- C4 (counter-evidence): the claim also asserts the user message is
persisted before the `isGenerating` flag is set, but `isGenerating = true`
(line 1525) precedes the user-message persist (lines 1561-1562). -/
theorem sendMessage_order_counterexample :
    ¬ (sendMessageOrder.indexOf SendStep.persistUserMessage <
        sendMessageOrder.indexOf SendStep.setGenerating) := by decide

theorem getElem?_set_ne_aux {α : Type} (l : List α) (i j : Nat) (a : α) (h : i ≠ j) :
    (l.set i a)[j]? = l[j]? := by
  rw [List.getElem?_set_ne h]

/-- One chunk callback never touches history entries below the pending
index, and keeps the generating conversation present with that entry. -/
theorem applyChunk_preserves (cid : String) (pendIdx k : Nat) (hk : k ≠ pendIdx)
    (u : ChatMsg) (s : AppState × List ChatMsg × String) (ev : String × Bool)
    (hInv : (∃ c1, s.1.conversations.find? (fun c => c.id == cid) = some c1 ∧
        c1.history[k]? = some u) ∧ s.2.1[k]? = some u) :
    (∃ c1, (applyChunk (some cid) pendIdx s ev).1.conversations.find?
        (fun c => c.id == cid) = some c1 ∧ c1.history[k]? = some u) ∧
      (applyChunk (some cid) pendIdx s ev).2.1[k]? = some u := by
  obtain ⟨⟨c1, hc1, hl1⟩, hghk⟩ := hInv
  unfold applyChunk
  dsimp only
  have hgh1 : (s.2.1.set pendIdx { (s.2.1[pendIdx]?).getD fallbackEntry with content := s.2.2 ++ ev.1, pending := !ev.2 })[k]? = some u := by
    rw [getElem?_set_ne_aux _ _ _ _ (fun hh => hk hh.symm)]
    exact hghk
  have hp1 := find?_persistGen s.1 cid (s.2.1.set pendIdx { (s.2.1[pendIdx]?).getD fallbackEntry with content := s.2.2 ++ ev.1, pending := !ev.2 }) c1 hc1
  by_cases hev : ev.2 = true
  case neg =>
    rw [if_neg hev]
    exact ⟨⟨_, hp1.1, hgh1⟩, hgh1⟩
  case pos =>
    rw [if_pos hev]
    cases hpe : (s.2.1.set pendIdx { (s.2.1[pendIdx]?).getD fallbackEntry with content := s.2.2 ++ ev.1, pending := !ev.2 })[pendIdx]? with
    | none =>
      dsimp only
      exact ⟨⟨_, hp1.1, hgh1⟩, hgh1⟩
    | some e =>
      dsimp only
      have hgh2 : ((s.2.1.set pendIdx { (s.2.1[pendIdx]?).getD fallbackEntry with content := s.2.2 ++ ev.1, pending := !ev.2 }).set pendIdx { e with content := s.2.2 ++ ev.1, pending := false })[k]? = some u := by
        rw [getElem?_set_ne_aux _ _ _ _ (fun hh => hk hh.symm)]
        exact hgh1
      have hp2 := find?_persistGen _ cid ((s.2.1.set pendIdx { (s.2.1[pendIdx]?).getD fallbackEntry with content := s.2.2 ++ ev.1, pending := !ev.2 }).set pendIdx { e with content := s.2.2 ++ ev.1, pending := false }) _ hp1.1
      exact ⟨⟨_, hp2.1, hgh2⟩, hgh2⟩

theorem runChunks_preserves (cid : String) (pendIdx k : Nat) (hk : k ≠ pendIdx)
    (u : ChatMsg) :
    ∀ (cs : List (String × Bool)) (s : AppState × List ChatMsg × String),
      (∃ c1, s.1.conversations.find? (fun c => c.id == cid) = some c1 ∧
          c1.history[k]? = some u) ∧ s.2.1[k]? = some u →
      (∃ c1, (runChunks (some cid) pendIdx s cs).1.conversations.find?
          (fun c => c.id == cid) = some c1 ∧ c1.history[k]? = some u) ∧
        (runChunks (some cid) pendIdx s cs).2.1[k]? = some u
  | [], _, h => h
  | ev :: cs, s, h =>
    runChunks_preserves cid pendIdx k hk u cs
      (applyChunk (some cid) pendIdx s ev)
      (applyChunk_preserves cid pendIdx k hk u s ev h)

/-- The stored user entry survives the persisted finalization of the
catch branch. -/
theorem errorPath_entry (cid : String) (pendIdx k : Nat) (hk : k ≠ pendIdx) (u : ChatMsg)
    (wa : Bool) (em : String) (s : AppState × List ChatMsg × String)
    (hInv : (∃ c1, s.1.conversations.find? (fun c => c.id == cid) = some c1 ∧
        c1.history[k]? = some u) ∧ s.2.1[k]? = some u) :
    ∃ c2, (sendMessageErrorPath (some cid) pendIdx wa em s).conversations.find?
        (fun c => c.id == cid) = some c2 ∧ c2.history[k]? = some u := by
  obtain ⟨⟨c1, hc1, hl1⟩, hghk⟩ := hInv
  unfold sendMessageErrorPath
  dsimp only
  by_cases hsc : s.2.2 ≠ ""
  · rw [if_pos hsc]
    cases hpe : s.2.1[pendIdx]? with
    | none =>
      dsimp only
      exact ⟨c1, hc1, hl1⟩
    | some e =>
      dsimp only
      have hp := find?_persistGen s.1 cid (s.2.1.set pendIdx { e with content := if wa then s.2.2 ++ "\n\n[Generation stopped]" else s.2.2 ++ "\n\n" ++ em, pending := false }) c1 hc1
      refine ⟨_, hp.1, ?_⟩
      show (s.2.1.set pendIdx _)[k]? = some u
      rw [getElem?_set_ne_aux _ _ _ _ (fun hh => hk hh.symm)]
      exact hghk
  · rw [if_neg hsc]
    exact ⟨c1, hc1, hl1⟩

/-- C4 (amended): the user message is appended and persisted into the
generating conversation synchronously before any network I/O begins —
though after the `isGenerating` flag is set — and therefore remains in
that conversation's history at its original index whatever the stream
delivers and however the request ends. -/
theorem sendMessage_user_message_durable :
    (sendMessageOrder.indexOf SendStep.setGenerating <
       sendMessageOrder.indexOf SendStep.persistUserMessage ∧
     sendMessageOrder.indexOf SendStep.persistUserMessage <
       sendMessageOrder.indexOf SendStep.networkFetch) ∧
    ∀ (st : AppState) (cid : String) (conv : Conversation) (v : String)
      (cs : List (String × Bool)) (outcome : Outcome) (now : Nat),
      st.isGenerating = false →
      st.activeConversationId = some cid →
      st.conversations.find? (fun c => c.id == cid) = some conv →
      trimJS v ≠ "" →
      ∃ conv2,
        (sendMessage st v cs outcome now).conversations.find? (fun c => c.id == cid) =
          some conv2 ∧
        conv2.history[conv.history.length]? = some (sentUserMsg (trimJS v) now) := by
  refine ⟨by decide, ?_⟩
  intro st cid conv v cs outcome now hgen hact hfind hv
  obtain ⟨hcid, hgh, hidx, ⟨t, hfindPre⟩, hgen1⟩ :=
    sendMessagePre_spec st cid conv (trimJS v) now hact hfind
  have hk : conv.history.length ≠ conv.history.length + 1 := by omega
  have hu0 : ((sendMessagePre st (trimJS v) now).generatingHistory)[conv.history.length]? =
      some (sentUserMsg (trimJS v) now) := by
    rw [hgh,
      show conv.history ++ [sentUserMsg (trimJS v) now, pendingAssistantMsg now] =
        (conv.history ++ [sentUserMsg (trimJS v) now]) ++ [pendingAssistantMsg now] by simp,
      List.getElem?_append, if_pos (by simp)]
    exact getElem?_append_len _ _
  have hu1 : (conv.history ++ [sentUserMsg (trimJS v) now,
      pendingAssistantMsg now])[conv.history.length]? =
      some (sentUserMsg (trimJS v) now) := by
    rw [← hgh]
    exact hu0
  have hrun := runChunks_preserves cid (conv.history.length + 1) conv.history.length hk
    (sentUserMsg (trimJS v) now) cs
    ((sendMessagePre st (trimJS v) now).st, (sendMessagePre st (trimJS v) now).generatingHistory, "")
    ⟨⟨_, hfindPre, hu1⟩, hu0⟩
  rcases outcome with _ | _ | m
  · have hstep : sendMessage st v cs Outcome.success now =
        (runChunks (sendMessagePre st (trimJS v) now).generatingConvId
          (sendMessagePre st (trimJS v) now).assistantPendingIndex
          ((sendMessagePre st (trimJS v) now).st,
            (sendMessagePre st (trimJS v) now).generatingHistory, "") cs).1 := by
      unfold sendMessage
      rw [if_neg (by simp [hgen]), if_neg hv]
    rw [hstep, hcid, hidx]
    obtain ⟨⟨c1, hc1, hl⟩, -⟩ := hrun
    exact ⟨c1, hc1, hl⟩
  · have hstep : sendMessage st v cs Outcome.abortError now =
        sendMessageErrorPath (sendMessagePre st (trimJS v) now).generatingConvId
          (sendMessagePre st (trimJS v) now).assistantPendingIndex true ""
          (runChunks (sendMessagePre st (trimJS v) now).generatingConvId
            (sendMessagePre st (trimJS v) now).assistantPendingIndex
            ((sendMessagePre st (trimJS v) now).st,
              (sendMessagePre st (trimJS v) now).generatingHistory, "") cs) := by
      unfold sendMessage
      rw [if_neg (by simp [hgen]), if_neg hv]
    rw [hstep, hcid, hidx]
    exact errorPath_entry cid (conv.history.length + 1) conv.history.length hk
      (sentUserMsg (trimJS v) now) true "" _ hrun
  · have hstep : sendMessage st v cs (Outcome.failure m) now =
        sendMessageErrorPath (sendMessagePre st (trimJS v) now).generatingConvId
          (sendMessagePre st (trimJS v) now).assistantPendingIndex false
          ("Error: " ++ (if m = "" then "Unknown error" else m))
          (runChunks (sendMessagePre st (trimJS v) now).generatingConvId
            (sendMessagePre st (trimJS v) now).assistantPendingIndex
            ((sendMessagePre st (trimJS v) now).st,
              (sendMessagePre st (trimJS v) now).generatingHistory, "") cs) := by
      unfold sendMessage
      rw [if_neg (by simp [hgen]), if_neg hv]
    rw [hstep, hcid, hidx]
    exact errorPath_entry cid (conv.history.length + 1) conv.history.length hk
      (sentUserMsg (trimJS v) now) false _ _ hrun

theorem sendMessage_user_message_durable_witness :
    ∃ conv2,
      (sendMessage stIdle "Hi" [("ok", true)] Outcome.success 5).conversations.find?
        (fun c => c.id == "c") = some conv2 ∧
      conv2.history[convB.history.length]? = some (sentUserMsg (trimJS "Hi") 5) :=
  sendMessage_user_message_durable.2 stIdle "c" convB "Hi" [("ok", true)]
    Outcome.success 5 rfl rfl (by decide) (by decide)

/-! ### Content renderer (`renderContentToHtml`, lines 806-921)

Implemented on `List Char`; the regular expressions of the source are
translated with JavaScript matching semantics (leftmost match, ordered
alternation, greedy/lazy quantifiers) as noted per definition. -/

/-- The backtick character (kept out of character-literal syntax). -/
def btick : Char := (("`").toList).headD ' '

/-- JS `String.prototype.trim` on a character list. -/
def trimChars (s : List Char) : List Char :=
  ((s.dropWhile (fun c => c.isWhitespace)).reverse.dropWhile
    (fun c => c.isWhitespace)).reverse

/-- One global single-character replacement, `s.replace(/c/g, r)`. -/
def replAllChar (c : Char) (r : List Char) : List Char → List Char
  | [] => []
  | x :: xs => (if x = c then r else [x]) ++ replAllChar c r xs

/-- Lines 809-812: escape `&`, then `<`, then `>`. -/
def escapeHtml (s : List Char) : List Char :=
  replAllChar '>' (("&gt;").toList)
    (replAllChar '<' (("&lt;").toList)
      (replAllChar '&' (("&amp;").toList) s))

/-- Fuel-driven body of `replSub`; every step consumes at least one input
character, so fuel `|s| + 1` never runs out. -/
def replSubF (pat rep : List Char) : Nat → List Char → List Char
  | 0, s => s
  | _ + 1, [] => []
  | fuel + 1, c :: rest =>
    if pat ≠ [] ∧ hasPre pat (c :: rest) then
      rep ++ replSubF pat rep fuel (rest.drop (pat.length - 1))
    else c :: replSubF pat rep fuel rest

/-- Global substring replacement, `s.replace(/pat/g, rep)` for a literal
pattern: leftmost, non-overlapping. -/
def replSub (pat rep : List Char) (s : List Char) : List Char :=
  replSubF pat rep (s.length + 1) s

/-- Index of the first occurrence of a pattern. -/
def findSub (p : List Char) : List Char → Option Nat
  | [] => if hasPre p [] then some 0 else none
  | c :: rest => if hasPre p (c :: rest) then some 0 else (findSub p rest).map (· + 1)

/-- Line 816: entities inside a fenced block are restored to raw text. -/
def unescapeCode (s : List Char) : List Char :=
  replSub (("&gt;").toList) ((">").toList)
    (replSub (("&lt;").toList) (("<").toList)
      (replSub (("&amp;").toList) (("&").toList) s))

/-- Fuel-driven body of `codeBlockPass`; each fenced pair consumes at
least six characters of the input. -/
def codeBlockPassF : Nat → List Char → List Char
  | 0, s => s
  | _ + 1, [] => []
  | fuel + 1, c :: rest0 =>
    match findSub [btick, btick, btick] (c :: rest0) with
    | none => c :: rest0
    | some i =>
      let s := c :: rest0
      let before := s.take i
      let after := s.drop (i + 3)
      match findSub [btick, btick, btick] after with
      | none => s
      | some j =>
        before ++ ("<pre><code>").toList ++ unescapeCode (after.take j) ++
          ("</code></pre>").toList ++ codeBlockPassF fuel (after.drop (j + 3))

/-- Lines 815-818: `/```([\s\S]*?)```/g` — each fenced pair becomes a
`<pre><code>` block whose content is restored (unescaped); lazy content,
leftmost pairs. -/
def codeBlockPass (s : List Char) : List Char :=
  codeBlockPassF (s.length + 1) s

/-- Fuel-driven body of `inlineCodePass`. -/
def inlineCodePassF : Nat → List Char → List Char
  | 0, s => s
  | _ + 1, [] => []
  | fuel + 1, c :: rest =>
    if c = btick then
      let run := rest.takeWhile (fun x => x ≠ btick)
      if run ≠ [] ∧ hasPre [btick] (rest.drop run.length) then
        ("<code>").toList ++ run ++ ("</code>").toList ++
          inlineCodePassF fuel (rest.drop (run.length + 1))
      else c :: inlineCodePassF fuel rest
    else c :: inlineCodePassF fuel rest

/-- Line 821: `/`([^`]+)`/g` — inline code spans. -/
def inlineCodePass (s : List Char) : List Char :=
  inlineCodePassF (s.length + 1) s

/-- Fuel-driven body of `replaceStrong`. -/
def replaceStrongF : Nat → List Char → List Char
  | 0, s => s
  | _ + 1, [] => []
  | fuel + 1, c :: rest =>
    if c = '*' ∧ hasPre ['*'] rest then
      let run := (rest.drop 1).takeWhile (fun x => x ≠ '*')
      if run ≠ [] ∧ hasPre ['*', '*'] ((rest.drop 1).drop run.length) then
        ("<strong>").toList ++ run ++ ("</strong>").toList ++
          replaceStrongF fuel (((rest.drop 1).drop run.length).drop 2)
      else c :: replaceStrongF fuel rest
    else c :: replaceStrongF fuel rest

/-- `/\*\*([^*]+)\*\*/g` (bold, applied per line). -/
def replaceStrong (s : List Char) : List Char :=
  replaceStrongF (s.length + 1) s

/-- Fuel-driven body of `replaceEm`. -/
def replaceEmF : Nat → List Char → List Char
  | 0, s => s
  | _ + 1, [] => []
  | fuel + 1, c :: rest =>
    if c = '*' then
      let run := rest.takeWhile (fun x => x ≠ '*')
      if run ≠ [] ∧ hasPre ['*'] (rest.drop run.length) then
        ("<em>").toList ++ run ++ ("</em>").toList ++
          replaceEmF fuel (rest.drop (run.length + 1))
      else c :: replaceEmF fuel rest
    else c :: replaceEmF fuel rest

/-- `/\*([^*]+)\*/g` (italic, applied after bold). -/
def replaceEm (s : List Char) : List Char :=
  replaceEmF (s.length + 1) s

/-- The bold-then-italic emphasis formatting applied to list items,
headings and paragraphs. -/
def fmtEmphasis (s : List Char) : List Char := replaceEm (replaceStrong s)

/-- `/^\|.*\|$/` (line 833). -/
def isMdTableRow (l : List Char) : Bool :=
  decide (2 ≤ l.length) && (l.head? == some '|') && (l.getLast? == some '|')

/-- `/^:?-{2,}:?$/` on one trimmed cell (line 834). -/
def isAlignCell (cell : List Char) : Bool :=
  let c1 := if hasPre [':'] cell then cell.drop 1 else cell
  let dashes := c1.takeWhile (fun x => x = '-')
  let rest := c1.drop dashes.length
  decide (2 ≤ dashes.length) && (rest == [] || rest == [':'])

def isAlignRow (cells : List (List Char)) : Bool := cells.all isAlignCell

/-- Line 837: `l.slice(1, -1).split('|').map(c => c.trim())`. -/
def tableCells (l : List Char) : List (List Char) :=
  (splitChar '|' ((l.drop 1).dropLast)).map trimChars

def thCell (c : List Char) : List Char :=
  ("<th>").toList ++ c ++ ("</th>").toList

def tdRow (cells : List (List Char)) : List Char :=
  ("<tr>").toList ++ cells.flatMap (fun c => ("<td>").toList ++ c ++ ("</td>").toList) ++
    ("</tr>").toList

/-- `flushTable` (lines 835-850). -/
def flushTableHtml (tb : List (List Char)) : List Char :=
  match tb with
  | [] => []
  | _ =>
    let rows := tb.map tableCells
    match rows with
    | r0 :: r1 :: rbody =>
      if isAlignRow r1 then
        ("<table class=\"md-table\">").toList ++ ("<thead><tr>").toList ++
          r0.flatMap thCell ++ ("</tr></thead>").toList ++ ("<tbody>").toList ++
          rbody.flatMap tdRow ++ ("</tbody></table>").toList
      else
        ("<table class=\"md-table\">").toList ++ ("<tbody>").toList ++
          rows.flatMap tdRow ++ ("</tbody></table>").toList
    | _ =>
      ("<table class=\"md-table\">").toList ++ ("<tbody>").toList ++
        rows.flatMap tdRow ++ ("</tbody></table>").toList

/-- `/^(?:[-*•])\s+/` test (line 861). -/
def isULStart (l : List Char) : Bool :=
  match l with
  | c :: c2 :: _ => (c = '-' ∨ c = '*' ∨ c = '•') ∧ c2.isWhitespace
  | _ => false

/-- `line.replace(/^(?:[-*])\s+/, '')` (line 863) — note the bullet `•`
passes the test above but is not stripped here. -/
def stripUL (l : List Char) : List Char :=
  match l with
  | c :: c2 :: rest =>
    if (c = '-' ∨ c = '*') ∧ c2.isWhitespace then (c2 :: rest).dropWhile Char.isWhitespace
    else l
  | _ => l

/-- `/^\d+[.)]\s+/` test (line 869). -/
def isOLStart (l : List Char) : Bool :=
  let ds := l.takeWhile Char.isDigit
  decide (ds ≠ []) &&
    (match l.drop ds.length with
     | c :: c2 :: _ => (c = '.' ∨ c = ')') ∧ c2.isWhitespace
     | _ => false)

def stripOL (l : List Char) : List Char :=
  if isOLStart l then
    ((l.drop (l.takeWhile Char.isDigit).length).drop 1).dropWhile Char.isWhitespace
  else l

/-- Maximal run of leading `#` (heading detection, line 877). -/
def headingLevel (l : List Char) : Nat := (l.takeWhile (fun c => c = '#')).length

/-- `/^(#{1,6})\s+(.*)$/` matches iff the leading `#`-run has length 1-6
and is followed by whitespace. -/
def isHeading (l : List Char) : Bool :=
  let n := headingLevel l
  decide (1 ≤ n) && decide (n ≤ 6) &&
    ((l.drop n).head?.map Char.isWhitespace).getD false

def headingDigit : Nat → List Char
  | 1 => ("1").toList
  | 2 => ("2").toList
  | 3 => ("3").toList
  | 4 => ("4").toList
  | 5 => ("5").toList
  | 6 => ("6").toList
  | _ => ("0").toList

def containsSub (p : List Char) : List Char → Bool
  | [] => hasPre p []
  | c :: rest => hasPre p (c :: rest) || containsSub p rest

/-- Loop state of the per-line pass (lines 825-851). -/
structure RenderLoopState where
  out : List Char
  inUl : Bool
  inOl : Bool
  tableBuffer : List (List Char)
  inPre : Bool
deriving DecidableEq

/-- `closeLists` (lines 829-832). -/
def closeListsOut (st : RenderLoopState) : RenderLoopState :=
  let st1 := if st.inUl then { st with out := st.out ++ ("</ul>").toList, inUl := false }
    else st
  if st1.inOl then { st1 with out := st1.out ++ ("</ol>").toList, inOl := false } else st1

/-- The body of `for (let raw of lines)` (lines 852-890). -/
def procLine (st : RenderLoopState) (raw : List Char) : RenderLoopState :=
  let line := trimChars raw
  if line = [] then st
  else if containsSub (("<pre><code").toList) line then
    { st with out := st.out ++ line, inPre := true }
  else if st.inPre then
    { st with out := st.out ++ line, inPre := if containsSub (("</code></pre>").toList) line then false else st.inPre }
  else if isMdTableRow line then
    { st with tableBuffer := st.tableBuffer ++ [line] }
  else
    let st := if st.tableBuffer ≠ [] then
        { st with out := st.out ++ flushTableHtml st.tableBuffer, tableBuffer := [] }
      else st
    if isULStart line then
      let st := if ¬ st.inUl then
          let st1 := closeListsOut st
          { st1 with out := st1.out ++ ("<ul>").toList, inUl := true }
        else st
      { st with out := st.out ++ ("<li>").toList ++ fmtEmphasis (stripUL line) ++ ("</li>").toList }
    else if isOLStart line then
      let st := if ¬ st.inOl then
          let st1 := closeListsOut st
          { st1 with out := st1.out ++ ("<ol>").toList, inOl := true }
        else st
      { st with out := st.out ++ ("<li>").toList ++ fmtEmphasis (stripOL line) ++ ("</li>").toList }
    else if isHeading line then
      let st := closeListsOut st
      let n := headingLevel line
      let text := (line.drop n).dropWhile Char.isWhitespace
      { st with out := st.out ++ ("<h").toList ++ headingDigit n ++ (">").toList ++ fmtEmphasis text ++ ("</h").toList ++ headingDigit n ++ (">").toList }
    else
      let st := closeListsOut st
      { st with out := st.out ++ ("<p>").toList ++ fmtEmphasis line ++ ("</p>").toList }

/-- The main pipeline before the color-palette pass (lines 806-892). -/
def renderCore (text : List Char) : List Char :=
  let escaped := escapeHtml text
  let html := inlineCodePass (codeBlockPass escaped)
  let lines := splitChar '\n' html
  let stF := lines.foldl procLine ⟨[], false, false, [], false⟩
  let stF := if stF.tableBuffer ≠ [] then
      { stF with out := stF.out ++ flushTableHtml stF.tableBuffer, tableBuffer := [] }
    else stF
  (closeListsOut stF).out

/-! #### Color palette pass (lines 894-918) -/

def isHexDigit (c : Char) : Bool :=
  c.isDigit || ('a' ≤ c && c ≤ 'f') || ('A' ≤ c && c ≤ 'F')

/-- JS `\w`. -/
def isWordChar (c : Char) : Bool := c.isAlphanum || c = '_'

/-- Position after the whitespace run starting at `i`. -/
def skipWs (s : List Char) (i : Nat) : Nat :=
  i + ((s.drop i).takeWhile Char.isWhitespace).length

/-- One attempt of the first palette regex with the lazy `(.*?)` ending at
`i`: greedy `\s*`, one of `[:\-–]`, greedy `\s*`, then `#` and three hex
digits (the ordered alternation `{3}|{6}` always captures three when they
are available, and fails entirely otherwise).  Returns the index of the
`#`. -/
def paletteTryAt (s : List Char) (i : Nat) : Option Nat :=
  let j := skipWs s i
  match (s.drop j).head? with
  | some sep =>
    if sep = ':' ∨ sep = '-' ∨ sep = '–' then
      let h := skipWs s (j + 1)
      if hasPre ['#'] (s.drop h) ∧ ((s.drop (h + 1)).take 3).length = 3 ∧
          ((s.drop (h + 1)).take 3).all isHexDigit then
        some h
      else none
    else none
  | none => none

/-- Smallest end position of the lazy `(.*?)` from `p0` giving a match. -/
def paletteSearch (s : List Char) (i : Nat) : Nat → Option (Nat × Nat)
  | 0 => none
  | fuel + 1 =>
    match paletteTryAt s i with
    | some h => some (i, h)
    | none => if i < s.length then paletteSearch s (i + 1) fuel else none

/-- `/^\s*(?:[-*]\s*)?(.*?)\s*(?:[:\-–])\s*(#(?:[0-9a-fA-F]{3}|[0-9a-fA-F]{6}))/`
(line 899): leading whitespace, then the optional greedy bullet group
(dropped on backtracking when no match follows it), then as above.
Returns the raw first capture and the `#xxx` hex capture. -/
def paletteMatchLine (l : List Char) : Option (List Char × List Char) :=
  let ws0 := (l.takeWhile Char.isWhitespace).length
  let tryFrom := fun (p0 : Nat) =>
    match paletteSearch l p0 (l.length + 1 - p0) with
    | some (i, h) => some ((l.drop p0).take (i - p0), '#' :: (l.drop (h + 1)).take 3)
    | none => none
  let withBullet :=
    match (l.drop ws0).head? with
    | some c =>
      if c = '-' ∨ c = '*' then tryFrom (skipWs l (ws0 + 1)) else none
    | none => none
  match withBullet with
  | some r => some r
  | none => tryFrom ws0

/-- One attempt of `/\b#(?:[0-9a-fA-F]{3}|[0-9a-fA-F]{6})\b/` (line 900)
with the `#` at position `p`: the character before must be a word
character, and the ordered alternation takes three hex digits when a word
boundary follows them, else six. -/
def m2TryAt (s : List Char) (p : Nat) : Option (List Char) :=
  if p = 0 then none
  else
    match s[p - 1]?, s[p]? with
    | some cprev, some c =>
      if isWordChar cprev ∧ c = '#' then
        let rest := s.drop (p + 1)
        if (rest.take 3).length = 3 ∧ (rest.take 3).all isHexDigit ∧
            ¬ (((rest.drop 3).head?.map isWordChar).getD false) then
          some ('#' :: rest.take 3)
        else if (rest.take 6).length = 6 ∧ (rest.take 6).all isHexDigit ∧
            ¬ (((rest.drop 6).head?.map isWordChar).getD false) then
          some ('#' :: rest.take 6)
        else none
      else none
    | _, _ => none

def m2Search (s : List Char) (p : Nat) : Nat → Option (List Char)
  | 0 => none
  | fuel + 1 =>
    match m2TryAt s p with
    | some hex => some hex
    | none => if p < s.length then m2Search s (p + 1) fuel else none

/-- Lines 898-905: the palette row extracted from one raw line, if any —
the name is the trimmed first capture of the first regex when nonempty,
`Color` otherwise, and the hex capture is uppercased. -/
def paletteRowOfLine (l : List Char) : Option (List Char × List Char) :=
  match paletteMatchLine l with
  | some r =>
    some (if r.1 = [] then ("Color").toList else trimChars r.1, r.2.map Char.toUpper)
  | none =>
    match m2Search l 0 (l.length + 1) with
    | some hex => some (("Color").toList, hex.map Char.toUpper)
    | none => none

def paletteRows (text : List Char) : List (List Char × List Char) :=
  (splitChar '\n' text).filterMap paletteRowOfLine

/-- Lines 907-912: de-duplication by the `name + '|' + hex` key, keeping
first occurrences in order. -/
def dedupRows : List (List Char × List Char) → List (List Char) →
    List (List Char × List Char)
  | [], _ => []
  | r :: rs, seen =>
    let key := r.1 ++ ('|' :: r.2)
    if key ∈ seen then dedupRows rs seen
    else r :: dedupRows rs (key :: seen)

def uniqueRows (text : List Char) : List (List Char × List Char) :=
  dedupRows (paletteRows text) []

/-- One body row of the swatch table (line 915). -/
def swatchRow (r : List Char × List Char) : List Char :=
  ("<tr><td>").toList ++ r.1 ++ ("</td><td>").toList ++ r.2 ++
    ("</td><td><span class=\"swatch\" style=\"background:").toList ++ r.2 ++
    ("\"></span></td></tr>").toList

/-- Lines 913-917: the swatch table appended when at least two distinct
rows were found and no table was already produced. -/
def paletteSuffix (text out : List Char) : List Char :=
  if 2 ≤ (uniqueRows text).length ∧ ¬ (containsSub (("<table").toList) out) then
    ("<table class=\"md-table\"><thead><tr><th>Color</th><th>HEX</th><th>Preview</th></tr></thead><tbody>").toList ++
      (uniqueRows text).flatMap swatchRow ++ ("</tbody></table>").toList
  else []

/-- `renderContentToHtml` (lines 806-921). -/
def renderContentToHtml (text : List Char) : List Char :=
  if text = [] then []
  else renderCore text ++ paletteSuffix text (renderCore text)

/-! #### Occurrence counting

`cnt p s` counts the positions of `s` where the pattern `p` occurs.  The
escaping claims are phrased with it: a character is escaped exactly once
iff the output contains exactly as many occurrences of its entity as the
input has occurrences of the character. -/

def cnt (p : List Char) : List Char → Nat
  | [] => 0
  | c :: rest => (if hasPre p (c :: rest) then 1 else 0) + cnt p rest

theorem hasPre_nil_left (s : List Char) : hasPre [] s = true := by
  cases s <;> rfl

theorem hasPre_self_append (p b : List Char) : hasPre p (p ++ b) = true := by
  induction p with
  | nil => exact hasPre_nil_left b
  | cons x p ih => simp [hasPre, ih]

theorem hasPre_exists {p s : List Char} (h : hasPre p s = true) :
    s = p ++ s.drop p.length := by
  induction p generalizing s with
  | nil => simp
  | cons x p ih =>
    cases s with
    | nil => simp [hasPre] at h
    | cons c rest =>
      simp only [hasPre, Bool.and_eq_true, beq_iff_eq] at h
      obtain ⟨rfl, h2⟩ := h
      simpa using ih h2

theorem hasPre_length_le {p s : List Char} (h : hasPre p s = true) :
    p.length ≤ s.length := by
  induction p generalizing s with
  | nil => simp
  | cons x p ih =>
    cases s with
    | nil => simp [hasPre] at h
    | cons c rest =>
      simp only [hasPre, Bool.and_eq_true] at h
      have := ih h.2
      simp only [List.length_cons]
      omega

theorem hasPre_of_hasPre_append {p a b : List Char} (h : hasPre p a = true) :
    hasPre p (a ++ b) = true := by
  induction p generalizing a with
  | nil => exact hasPre_nil_left _
  | cons x p ih =>
    cases a with
    | nil => simp [hasPre] at h
    | cons c rest =>
      simp only [hasPre, Bool.and_eq_true] at h
      simp only [List.cons_append, hasPre, Bool.and_eq_true]
      exact ⟨h.1, ih h.2⟩

theorem hasPre_append_cases {p a b : List Char} (h : hasPre p (a ++ b) = true) :
    hasPre p a = true ∨
      (a.length < p.length ∧ p.take a.length = a ∧
        hasPre (p.drop a.length) b = true) := by
  induction p generalizing a with
  | nil => exact Or.inl (hasPre_nil_left a)
  | cons x p ih =>
    cases a with
    | nil =>
      exact Or.inr ⟨by simp, rfl, h⟩
    | cons c rest =>
      simp only [List.cons_append, hasPre, Bool.and_eq_true] at h
      rcases ih h.2 with h2 | ⟨hl, ht, hd⟩
      · exact Or.inl (by simp [hasPre, h.1, h2])
      · refine Or.inr ⟨by simpa using hl, ?_, hd⟩
        simp only [List.length_cons, List.take_succ_cons, ht]
        have := beq_iff_eq.mp h.1
        rw [this]

theorem hasPre_append_of_head_notin {p b : List Char} {c0 : Char}
    (hb : b.head? = some c0) (hc : c0 ∉ p) :
    ∀ a : List Char, hasPre p (a ++ b) = hasPre p a := by
  intro a
  induction p generalizing a with
  | nil => rw [hasPre_nil_left, hasPre_nil_left]
  | cons x p ih =>
    cases a with
    | nil =>
      cases b with
      | nil => simp at hb
      | cons c1 b1 =>
        have hb2 : c1 = c0 := by simpa using hb
        subst hb2
        have e1 : hasPre (x :: p) ([] ++ (c1 :: b1)) =
            ((x == c1) && hasPre p b1) := rfl
        have e2 : hasPre (x :: p) ([] : List Char) = false := rfl
        have hx : (x == c1) = false := by
          rw [beq_eq_false_iff_ne]
          intro hxe
          refine hc ?_
          rw [← hxe]
          exact List.mem_cons_self _ _
        rw [e1, e2, hx, Bool.false_and]
    | cons c rest =>
      have e1 : hasPre (x :: p) ((c :: rest) ++ b) =
          ((x == c) && hasPre p (rest ++ b)) := rfl
      have e2 : hasPre (x :: p) (c :: rest) = ((x == c) && hasPre p rest) := rfl
      rw [e1, e2, ih (fun hm => hc (List.mem_cons_of_mem _ hm)) rest]

theorem cnt_append_of_head_notin {p b : List Char} {c0 : Char}
    (hb : b.head? = some c0) (hc : c0 ∉ p) (a : List Char) :
    cnt p (a ++ b) = cnt p a + cnt p b := by
  induction a with
  | nil => simp [cnt]
  | cons c rest ih =>
    have hh : hasPre p ((c :: rest) ++ b) = hasPre p (c :: rest) :=
      hasPre_append_of_head_notin hb hc (c :: rest)
    have e1 : cnt p ((c :: rest) ++ b) =
        (if hasPre p ((c :: rest) ++ b) then 1 else 0) + cnt p (rest ++ b) := rfl
    have e2 : cnt p (c :: rest) =
        (if hasPre p (c :: rest) then 1 else 0) + cnt p rest := rfl
    rw [e1, e2, hh, ih]
    omega

theorem hasPre_cons_false_of_notin {p : List Char} {c : Char} {rest : List Char}
    (hne : p ≠ []) (hc : c ∉ p) : hasPre p (c :: rest) = false := by
  cases p with
  | nil => exact absurd rfl hne
  | cons h0 p0 =>
    have hb : (h0 == c) = false := by
      rw [beq_eq_false_iff_ne]
      intro he
      exact hc (he ▸ List.mem_cons_self h0 p0)
    simp [hasPre, hb]

theorem cnt_eq_zero_of_disjoint {p x : List Char}
    (hne : p ≠ []) (h : ∀ c ∈ x, c ∉ p) : cnt p x = 0 := by
  induction x with
  | nil => rfl
  | cons c rest ih =>
    have h1 : hasPre p (c :: rest) = false :=
      hasPre_cons_false_of_notin hne (h c (List.mem_cons_self c rest))
    simp only [cnt, h1, Bool.false_eq_true, if_false, Nat.zero_add]
    exact ih fun c2 hm => h c2 (List.mem_cons_of_mem _ hm)

theorem cnt_append_left_disjoint {p a : List Char} (b : List Char)
    (hne : p ≠ []) (h : ∀ c ∈ a, c ∉ p) : cnt p (a ++ b) = cnt p b := by
  induction a with
  | nil => rfl
  | cons c rest ih =>
    have h1 : hasPre p ((c :: rest) ++ b) = false := by
      have e0 : (c :: rest) ++ b = c :: (rest ++ b) := rfl
      rw [e0]
      exact hasPre_cons_false_of_notin hne (h c (List.mem_cons_self c rest))
    have e1 : cnt p ((c :: rest) ++ b) =
        (if hasPre p ((c :: rest) ++ b) then 1 else 0) + cnt p (rest ++ b) := rfl
    rw [e1, h1]
    simp only [Bool.false_eq_true, if_false, Nat.zero_add]
    exact ih fun c2 hm => h c2 (List.mem_cons_of_mem _ hm)

theorem containsSub_eq_false_iff_cnt {p s : List Char} (hne : p ≠ []) :
    containsSub p s = false ↔ cnt p s = 0 := by
  induction s with
  | nil =>
    cases p with
    | nil => exact absurd rfl hne
    | cons h0 p0 => simp [containsSub, hasPre, cnt]
  | cons c rest ih =>
    simp only [containsSub, cnt, Bool.or_eq_false_iff]
    constructor
    · rintro ⟨h1, h2⟩
      simp [h1, ih.mp h2]
    · intro h
      have h1 : hasPre p (c :: rest) = false := by
        by_contra hb
        have hb2 : hasPre p (c :: rest) = true := by
          cases hq : hasPre p (c :: rest)
          · exact absurd hq hb
          · rfl
        rw [hb2] at h
        simp at h
      rw [h1] at h
      simp only [Bool.false_eq_true, if_false, Nat.zero_add] at h
      exact ⟨h1, ih.mpr h⟩

theorem cnt_cons_notin {p : List Char} {c : Char} (x : List Char)
    (hne : p ≠ []) (hc : c ∉ p) : cnt p (c :: x) = cnt p x := by
  have h1 : hasPre p (c :: x) = false := hasPre_cons_false_of_notin hne hc
  have e1 : cnt p (c :: x) = (if hasPre p (c :: x) then 1 else 0) + cnt p x := rfl
  rw [e1, h1]
  simp

/-- An occurrence of a pattern starting with `h0` cannot start inside a
block that does not contain `h0`. -/
theorem cnt_append_amp {p a : List Char} {h0 : Char} (b : List Char)
    (hh : p.head? = some h0) (ha : h0 ∉ a) : cnt p (a ++ b) = cnt p b := by
  induction a with
  | nil => rfl
  | cons c rest ih =>
    have hp : p ≠ [] := by
      intro h
      rw [h] at hh
      exact Option.noConfusion hh
    have h1 : hasPre p ((c :: rest) ++ b) = false := by
      cases p with
      | nil => exact absurd rfl hp
      | cons x p0 =>
        have hx : (x == c) = false := by
          rw [beq_eq_false_iff_ne]
          intro hxe
          have hx0 : x = h0 := by
            have := hh
            simp only [List.head?_cons, Option.some.injEq] at this
            exact this
          exact ha (by rw [← hx0, hxe]; exact List.mem_cons_self _ _)
        have e0 : hasPre (x :: p0) ((c :: rest) ++ b) =
            ((x == c) && hasPre p0 (rest ++ b)) := rfl
        rw [e0, hx, Bool.false_and]
    have e1 : cnt p ((c :: rest) ++ b) =
        (if hasPre p ((c :: rest) ++ b) then 1 else 0) + cnt p (rest ++ b) := rfl
    rw [e1, h1]
    simp only [Bool.false_eq_true, if_false, Nat.zero_add]
    exact ih fun hm => ha (List.mem_cons_of_mem _ hm)

theorem cnt_eq_zero_of_head_notin {p x : List Char} {h0 : Char}
    (hh : p.head? = some h0) (hx : h0 ∉ x) : cnt p x = 0 := by
  have := cnt_append_amp ([] : List Char) hh hx
  simpa using this

theorem containsSub_eq_false_of_head_notin {p0 s : List Char} {h0 : Char}
    (hh : p0.head? = some h0) (hx : h0 ∉ s) : containsSub p0 s = false := by
  have hp : p0 ≠ [] := by
    intro h
    rw [h] at hh
    exact Option.noConfusion hh
  rw [containsSub_eq_false_iff_cnt hp]
  exact cnt_eq_zero_of_head_notin hh hx

theorem hasPre_append_left {p : List Char} :
    ∀ (a b : List Char), p.length ≤ a.length → hasPre p (a ++ b) = hasPre p a := by
  induction p with
  | nil => intro a b _; rw [hasPre_nil_left, hasPre_nil_left]
  | cons x p ih =>
    intro a b hlen
    cases a with
    | nil => simp at hlen
    | cons c rest =>
      have e1 : hasPre (x :: p) ((c :: rest) ++ b) =
          ((x == c) && hasPre p (rest ++ b)) := rfl
      have e2 : hasPre (x :: p) (c :: rest) = ((x == c) && hasPre p rest) := rfl
      rw [e1, e2, ih rest b (by simp at hlen; omega)]

/-- Counting distributes over an append when no occurrence can straddle
the boundary. -/
theorem cnt_append_no_span {p : List Char} (a b : List Char)
    (h : ∀ k pre, 0 < k → k < p.length → a = pre ++ p.take k →
      hasPre (p.drop k) b = false) :
    cnt p (a ++ b) = cnt p a + cnt p b := by
  suffices haux : ∀ s pre, a = pre ++ s → cnt p (s ++ b) = cnt p s + cnt p b by
    exact haux a [] rfl
  intro s
  induction s with
  | nil => intro pre _; simp [cnt]
  | cons c s ih =>
    intro pre hpre
    have e1 : cnt p ((c :: s) ++ b) =
        (if hasPre p ((c :: s) ++ b) then 1 else 0) + cnt p (s ++ b) := rfl
    have e2 : cnt p (c :: s) =
        (if hasPre p (c :: s) then 1 else 0) + cnt p s := rfl
    have hrec := ih (pre ++ [c]) (by rw [hpre, List.append_cons])
    have hind : hasPre p ((c :: s) ++ b) = hasPre p (c :: s) := by
      by_cases hlen : p.length ≤ (c :: s).length
      · exact hasPre_append_left (c :: s) b hlen
      · have hr : hasPre p (c :: s) = false := by
          cases hq : hasPre p (c :: s)
          · rfl
          · exact absurd (hasPre_length_le hq) (by omega)
        have hlft : hasPre p ((c :: s) ++ b) = false := by
          cases hq : hasPre p ((c :: s) ++ b)
          · rfl
          · rcases hasPre_append_cases hq with h2 | ⟨hl, ht, hd⟩
            · rw [h2] at hr; exact Bool.noConfusion hr
            · have hfalse := h (c :: s).length pre (by simp) hl
                (by rw [hpre, ht])
              rw [hfalse] at hd
              exact Bool.noConfusion hd
        rw [hlft, hr]
    rw [e1, e2, hind, hrec]
    omega

/-! #### Counting through the escaping pass -/

/-- What `escapeHtml` emits for one input character. -/
def escChar (c : Char) : List Char :=
  if c = '&' then ("&amp;").toList
  else if c = '<' then ("&lt;").toList
  else if c = '>' then ("&gt;").toList
  else [c]

theorem replAllChar_append (c : Char) (r : List Char) (a b : List Char) :
    replAllChar c r (a ++ b) = replAllChar c r a ++ replAllChar c r b := by
  induction a with
  | nil => rfl
  | cons x xs ih => simp [replAllChar, ih, List.append_assoc]

theorem escapeHtml_cons (c : Char) (s : List Char) :
    escapeHtml (c :: s) = escChar c ++ escapeHtml s := by
  unfold escapeHtml escChar
  by_cases h1 : c = '&'
  · subst h1
    rw [if_pos rfl]
    rw [show replAllChar '&' (("&amp;").toList) ('&' :: s) =
        ("&amp;").toList ++ replAllChar '&' (("&amp;").toList) s from by
      simp [replAllChar]]
    rw [replAllChar_append, replAllChar_append]
    rw [show replAllChar '<' (("&lt;").toList) (("&amp;").toList) =
        ("&amp;").toList from by decide]
    rw [show replAllChar '>' (("&gt;").toList) (("&amp;").toList) =
        ("&amp;").toList from by decide]
  · rw [if_neg h1]
    rw [show replAllChar '&' (("&amp;").toList) (c :: s) =
        [c] ++ replAllChar '&' (("&amp;").toList) s from by
      simp [replAllChar, h1]]
    rw [replAllChar_append]
    by_cases h2 : c = '<'
    · subst h2
      rw [if_pos rfl]
      rw [show replAllChar '<' (("&lt;").toList) ['<'] = ("&lt;").toList from by
        decide]
      rw [replAllChar_append]
      rw [show replAllChar '>' (("&gt;").toList) (("&lt;").toList) =
          ("&lt;").toList from by decide]
    · rw [if_neg h2]
      rw [show replAllChar '<' (("&lt;").toList) [c] = [c] from by
        simp [replAllChar, h2]]
      rw [replAllChar_append]
      by_cases h3 : c = '>'
      · subst h3
        rw [if_pos rfl]
        rw [show replAllChar '>' (("&gt;").toList) ['>'] = ("&gt;").toList from by
          decide]
      · rw [if_neg h3]
        rw [show replAllChar '>' (("&gt;").toList) [c] = [c] from by
          simp [replAllChar, h3]]

/-- No nonempty proper prefix of an entity can end an `escChar` block, so
no entity occurrence straddles a block boundary in escaped text. -/
theorem escChar_ne_append_take (c : Char) (k : Nat) (pre p0 : List Char)
    (hp : p0 = ("&amp;").toList ∨ p0 = ("&lt;").toList ∨ p0 = ("&gt;").toList)
    (hk : 0 < k) (hkl : k < p0.length) : escChar c ≠ pre ++ p0.take k := by
  intro h
  have hsuf : p0.take k <:+ escChar c := ⟨pre, h.symm⟩
  by_cases h1 : c = '&'
  · subst h1
    rcases hp with rfl | rfl | rfl
    · have hb : k < 5 := by
        rw [show (("&amp;").toList).length = 5 from rfl] at hkl; exact hkl
      interval_cases k <;> exact absurd hsuf (by decide)
    · have hb : k < 4 := by
        rw [show (("&lt;").toList).length = 4 from rfl] at hkl; exact hkl
      interval_cases k <;> exact absurd hsuf (by decide)
    · have hb : k < 4 := by
        rw [show (("&gt;").toList).length = 4 from rfl] at hkl; exact hkl
      interval_cases k <;> exact absurd hsuf (by decide)
  · by_cases h2 : c = '<'
    · subst h2
      rcases hp with rfl | rfl | rfl
      · have hb : k < 5 := by
          rw [show (("&amp;").toList).length = 5 from rfl] at hkl; exact hkl
        interval_cases k <;> exact absurd hsuf (by decide)
      · have hb : k < 4 := by
          rw [show (("&lt;").toList).length = 4 from rfl] at hkl; exact hkl
        interval_cases k <;> exact absurd hsuf (by decide)
      · have hb : k < 4 := by
          rw [show (("&gt;").toList).length = 4 from rfl] at hkl; exact hkl
        interval_cases k <;> exact absurd hsuf (by decide)
    · by_cases h3 : c = '>'
      · subst h3
        rcases hp with rfl | rfl | rfl
        · have hb : k < 5 := by
            rw [show (("&amp;").toList).length = 5 from rfl] at hkl; exact hkl
          interval_cases k <;> exact absurd hsuf (by decide)
        · have hb : k < 4 := by
            rw [show (("&lt;").toList).length = 4 from rfl] at hkl; exact hkl
          interval_cases k <;> exact absurd hsuf (by decide)
        · have hb : k < 4 := by
            rw [show (("&gt;").toList).length = 4 from rfl] at hkl; exact hkl
          interval_cases k <;> exact absurd hsuf (by decide)
      · have he : escChar c = [c] := by simp [escChar, h1, h2, h3]
        rw [he] at hsuf
        have hlen : (p0.take k).length ≤ 1 := by
          have := List.IsSuffix.length_le hsuf
          simpa using this
        have hkk : (p0.take k).length = k := by
          rw [List.length_take]; omega
        have hk1 : k = 1 := by omega
        subst hk1
        obtain ⟨t, ht⟩ := hsuf
        have htl : t = [] := by
          have hlt := congrArg List.length ht
          simp only [List.length_append, hkk, List.length_cons,
            List.length_nil] at hlt
          exact List.length_eq_zero.mp (by omega)
        subst htl
        rw [List.nil_append] at ht
        rcases hp with rfl | rfl | rfl
        all_goals
          have e : [('&' : Char)] = [c] := by rw [← ht]; decide
        all_goals
          injection e with e1
          exact h1 e1.symm

theorem cnt_escChar_append {p0 : List Char}
    (hp : p0 = ("&amp;").toList ∨ p0 = ("&lt;").toList ∨ p0 = ("&gt;").toList)
    (c : Char) (e : List Char) :
    cnt p0 (escChar c ++ e) = cnt p0 (escChar c) + cnt p0 e :=
  cnt_append_no_span _ _ fun k pre hk hkl habs =>
    absurd habs (escChar_ne_append_take c k pre p0 hp hk hkl)

theorem cnt_singleton_eq_zero {p0 : List Char} (hlen : 2 ≤ p0.length)
    (c : Char) : cnt p0 [c] = 0 := by
  have h1 : hasPre p0 [c] = false := by
    cases hq : hasPre p0 [c]
    · rfl
    · have := hasPre_length_le hq
      simp at this
      omega
  show (if hasPre p0 [c] then 1 else 0) + cnt p0 [] = 0
  rw [h1]
  simp [cnt]

/-- Escaping turns each `&`, `<`, `>` into exactly one occurrence of its
entity, and creates no other entity occurrences. -/
theorem cnt_escapeHtml (t : List Char) :
    cnt (("&amp;").toList) (escapeHtml t) = t.count '&' ∧
    cnt (("&lt;").toList) (escapeHtml t) = t.count '<' ∧
    cnt (("&gt;").toList) (escapeHtml t) = t.count '>' := by
  induction t with
  | nil => exact ⟨rfl, rfl, rfl⟩
  | cons c t ih =>
    obtain ⟨ih1, ih2, ih3⟩ := ih
    rw [escapeHtml_cons]
    refine ⟨?_, ?_, ?_⟩
    · rw [cnt_escChar_append (Or.inl rfl) c _, ih1, List.count_cons]
      by_cases h1 : c = '&'
      · subst h1
        rw [show cnt (("&amp;").toList) (escChar '&') = 1 from by decide]
        split
        · omega
        · rename_i hfalse
          exact absurd (by decide) hfalse
      · have hz : cnt (("&amp;").toList) (escChar c) = 0 := by
          by_cases h2 : c = '<'
          · subst h2; decide
          · by_cases h3 : c = '>'
            · subst h3; decide
            · rw [show escChar c = [c] from by simp [escChar, h1, h2, h3]]
              exact cnt_singleton_eq_zero (by decide) c
        rw [hz]
        have : (c == '&') = false := by rw [beq_eq_false_iff_ne]; exact h1
        simp [this]
    · rw [cnt_escChar_append (Or.inr (Or.inl rfl)) c _, ih2, List.count_cons]
      by_cases h1 : c = '<'
      · subst h1
        rw [show cnt (("&lt;").toList) (escChar '<') = 1 from by decide]
        split
        · omega
        · rename_i hfalse
          exact absurd (by decide) hfalse
      · have hz : cnt (("&lt;").toList) (escChar c) = 0 := by
          by_cases h2 : c = '&'
          · subst h2; decide
          · by_cases h3 : c = '>'
            · subst h3; decide
            · rw [show escChar c = [c] from by simp [escChar, h1, h2, h3]]
              exact cnt_singleton_eq_zero (by decide) c
        rw [hz]
        have : (c == '<') = false := by rw [beq_eq_false_iff_ne]; exact h1
        simp [this]
    · rw [cnt_escChar_append (Or.inr (Or.inr rfl)) c _, ih3, List.count_cons]
      by_cases h1 : c = '>'
      · subst h1
        rw [show cnt (("&gt;").toList) (escChar '>') = 1 from by decide]
        split
        · omega
        · rename_i hfalse
          exact absurd (by decide) hfalse
      · have hz : cnt (("&gt;").toList) (escChar c) = 0 := by
          by_cases h2 : c = '&'
          · subst h2; decide
          · by_cases h3 : c = '<'
            · subst h3; decide
            · rw [show escChar c = [c] from by simp [escChar, h1, h2, h3]]
              exact cnt_singleton_eq_zero (by decide) c
        rw [hz]
        have : (c == '>') = false := by rw [beq_eq_false_iff_ne]; exact h1
        simp [this]

theorem mem_escChar {c0 c : Char} (h : c0 ∈ escChar c) :
    c0 ∈ ("&amp;ltg").toList ∨ (c0 = c ∧ c ≠ '&' ∧ c ≠ '<' ∧ c ≠ '>') := by
  unfold escChar at h
  by_cases h1 : c = '&'
  · rw [if_pos h1] at h
    refine Or.inl ?_
    have hsub : ∀ x ∈ ("&amp;").toList, x ∈ ("&amp;ltg").toList := by decide
    exact hsub c0 h
  · rw [if_neg h1] at h
    by_cases h2 : c = '<'
    · rw [if_pos h2] at h
      refine Or.inl ?_
      have hsub : ∀ x ∈ ("&lt;").toList, x ∈ ("&amp;ltg").toList := by decide
      exact hsub c0 h
    · rw [if_neg h2] at h
      by_cases h3 : c = '>'
      · rw [if_pos h3] at h
        refine Or.inl ?_
        have hsub : ∀ x ∈ ("&gt;").toList, x ∈ ("&amp;ltg").toList := by decide
        exact hsub c0 h
      · rw [if_neg h3] at h
        exact Or.inr ⟨List.mem_singleton.mp h, h1, h2, h3⟩

theorem lt_notin_escapeHtml (t : List Char) : '<' ∉ escapeHtml t := by
  induction t with
  | nil => intro h; exact absurd h (List.not_mem_nil _)
  | cons c t ih =>
    rw [escapeHtml_cons]
    intro h
    rcases List.mem_append.mp h with h | h
    · rcases mem_escChar h with h | ⟨rfl, _, h2, _⟩
      · exact absurd h (by decide)
      · exact h2 rfl
    · exact ih h

theorem btick_notin_escapeHtml (t : List Char) (hb : btick ∉ t) :
    btick ∉ escapeHtml t := by
  induction t with
  | nil => intro h; exact absurd h (List.not_mem_nil _)
  | cons c t ih =>
    rw [escapeHtml_cons]
    intro h
    rcases List.mem_append.mp h with h | h
    · rcases mem_escChar h with h | ⟨rfl, _, _, _⟩
      · exact absurd h (by decide)
      · exact hb (List.mem_cons_self _ _)
    · exact ih (fun hm => hb (List.mem_cons_of_mem _ hm)) h

/-! #### Counting through the line split -/

/-- `List.intercalate [sep]`, structurally. -/
def intercalateChar (sep : Char) : List (List Char) → List Char
  | [] => []
  | [l] => l
  | l :: l2 :: ls => l ++ sep :: intercalateChar sep (l2 :: ls)

theorem splitChar_ne_nil (sep : Char) (s : List Char) :
    splitChar sep s ≠ [] := by
  cases s with
  | nil => simp [splitChar]
  | cons c rest =>
    rw [splitChar]
    by_cases h : c = sep
    · rw [if_pos h]; simp
    · rw [if_neg h]
      cases splitChar sep rest <;> simp

theorem intercalate_consHead (sep c : Char) (ps : List (List Char))
    (h : ps ≠ []) :
    intercalateChar sep (consHead c ps) = c :: intercalateChar sep ps := by
  cases ps with
  | nil => exact absurd rfl h
  | cons q qs =>
    cases qs with
    | nil => rfl
    | cons q2 qs2 => rfl

theorem splitChar_intercalate (sep : Char) (s : List Char) :
    intercalateChar sep (splitChar sep s) = s := by
  induction s with
  | nil => rfl
  | cons c rest ih =>
    by_cases h : c = sep
    · subst h
      have e : splitChar c (c :: rest) = [] :: splitChar c rest := by
        rw [splitChar, if_pos rfl]
      rw [e]
      cases hps : splitChar c rest with
      | nil => exact absurd hps (splitChar_ne_nil c rest)
      | cons q qs =>
        rw [hps] at ih
        show intercalateChar c ([] :: q :: qs) = c :: rest
        rw [show intercalateChar c ([] :: q :: qs) =
            [] ++ c :: intercalateChar c (q :: qs) from rfl]
        rw [List.nil_append, ih]
    · have e : splitChar sep (c :: rest) = consHead c (splitChar sep rest) := by
        rw [splitChar, if_neg h]
        cases splitChar sep rest <;> rfl
      rw [e, intercalate_consHead sep c _ (splitChar_ne_nil sep rest), ih]

theorem cnt_intercalate {p : List Char} (sep : Char) (hne : p ≠ [])
    (hsep : sep ∉ p) (parts : List (List Char)) :
    cnt p (intercalateChar sep parts) = (parts.map (cnt p)).sum := by
  induction parts with
  | nil => rfl
  | cons l ls ih =>
    cases ls with
    | nil => simp [intercalateChar]
    | cons l2 ls2 =>
      rw [show intercalateChar sep (l :: l2 :: ls2) =
          l ++ sep :: intercalateChar sep (l2 :: ls2) from rfl]
      rw [cnt_append_of_head_notin List.head?_cons hsep l,
        cnt_cons_notin _ hne hsep, ih]
      simp

theorem cnt_splitChar {p : List Char} (sep : Char) (hne : p ≠ [])
    (hsep : sep ∉ p) (s : List Char) :
    ((splitChar sep s).map (cnt p)).sum = cnt p s := by
  conv_rhs => rw [← splitChar_intercalate sep s]
  rw [cnt_intercalate sep hne hsep]

theorem mem_of_mem_splitChar {sep : Char} {s l : List Char} {c : Char}
    (hl : l ∈ splitChar sep s) (hc : c ∈ l) : c ∈ s := by
  induction s generalizing l with
  | nil =>
    have : l = [] := by simpa [splitChar] using hl
    subst this
    exact absurd hc (List.not_mem_nil _)
  | cons a rest ih =>
    by_cases h : a = sep
    · subst h
      rw [splitChar, if_pos rfl] at hl
      rcases List.mem_cons.mp hl with rfl | hl
      · exact absurd hc (List.not_mem_nil _)
      · exact List.mem_cons_of_mem _ (ih hl hc)
    · rw [splitChar, if_neg h] at hl
      cases hps : splitChar sep rest with
      | nil => exact absurd hps (splitChar_ne_nil sep rest)
      | cons q qs =>
        rw [hps] at hl
        rcases List.mem_cons.mp hl with rfl | hl
        · rcases List.mem_cons.mp hc with rfl | hc
          · exact List.mem_cons_self _ _
          · refine List.mem_cons_of_mem _ (ih (l := q) ?_ hc)
            rw [hps]
            exact List.mem_cons_self _ _
        · refine List.mem_cons_of_mem _ (ih (l := l) ?_ hc)
          rw [hps]
          exact List.mem_cons_of_mem _ hl

/-! #### Counting through trimming -/

theorem mem_trimChars {c : Char} {l : List Char} (h : c ∈ trimChars l) :
    c ∈ l := by
  unfold trimChars at h
  have h1 := List.mem_reverse.mp h
  have h2 : c ∈ (l.dropWhile (fun c => c.isWhitespace)).reverse :=
    (List.dropWhile_sublist _).subset h1
  have h3 := List.mem_reverse.mp h2
  exact (List.dropWhile_sublist _).subset h3

theorem cnt_trimChars {p : List Char} (hne : p ≠ [])
    (hws : ∀ c ∈ p, c.isWhitespace = false) (l : List Char) :
    cnt p (trimChars l) = cnt p l := by
  obtain ⟨h0, p', hp0⟩ : ∃ h0 p', p = h0 :: p' := by
    cases p with
    | nil => exact absurd rfl hne
    | cons x xs => exact ⟨x, xs, rfl⟩
  have hhead : p.head? = some h0 := by rw [hp0]; rfl
  have hh0 : h0 ∈ p := by rw [hp0]; exact List.mem_cons_self _ _
  set m := l.dropWhile (fun c => c.isWhitespace) with hm
  set r := m.reverse.dropWhile (fun c => c.isWhitespace) with hr
  set t2 := m.reverse.takeWhile (fun c => c.isWhitespace) with ht2
  have f1 : l.takeWhile (fun c => c.isWhitespace) ++ m = l :=
    List.takeWhile_append_dropWhile (fun c => c.isWhitespace) l
  have f2 : t2 ++ r = m.reverse :=
    List.takeWhile_append_dropWhile (fun c => c.isWhitespace) m.reverse
  have f3 : m = r.reverse ++ t2.reverse := by
    have := congrArg List.reverse f2
    rw [List.reverse_reverse, List.reverse_append] at this
    exact this.symm
  have htrim : trimChars l = r.reverse := rfl
  have hc1 : cnt p l = cnt p m := by
    conv_lhs => rw [← f1]
    refine cnt_append_amp m hhead ?_
    intro hmem
    have := List.mem_takeWhile_imp hmem
    rw [hws h0 hh0] at this
    exact Bool.noConfusion this
  have hc2 : cnt p m = cnt p r.reverse := by
    rw [f3]
    cases hrev : t2.reverse with
    | nil => simp
    | cons c0 tl =>
      have hc0t2 : c0 ∈ t2 := by
        rw [← List.mem_reverse, hrev]
        exact List.mem_cons_self _ _
      have hc0ws : c0.isWhitespace = true := List.mem_takeWhile_imp hc0t2
      have hc0p : c0 ∉ p := by
        intro hin
        rw [hws c0 hin] at hc0ws
        exact Bool.noConfusion hc0ws
      have hz : cnt p (c0 :: tl) = 0 := by
        refine cnt_eq_zero_of_disjoint hne ?_
        intro c2 hc2 hin
        have hc2t2 : c2 ∈ t2 := by
          rw [← List.mem_reverse, hrev]
          exact hc2
        have := List.mem_takeWhile_imp hc2t2
        rw [hws c2 hin] at this
        exact Bool.noConfusion this
      rw [cnt_append_of_head_notin List.head?_cons hc0p r.reverse, hz]
      omega
  rw [htrim, hc1, hc2]

/-! #### Patterns tracked through the line loop

The three entity patterns start with `&`, contain no whitespace, digits,
or markdown-structural characters; these are the only facts the loop
analysis needs. -/

structure CntPat (p : List Char) : Prop where
  head_amp : p.head? = some '&'
  no_ws : ∀ c ∈ p, c.isWhitespace = false
  no_digit : ∀ c ∈ p, c.isDigit = false
  no_special : ∀ c ∈ p, c ∉ (("<|*-:#.)•").toList)

theorem CntPat.ne_nil {p : List Char} (hP : CntPat p) : p ≠ [] := by
  intro h
  rw [h] at hP
  exact Option.noConfusion hP.head_amp

theorem CntPat.lt_notin {p : List Char} (hP : CntPat p) : '<' ∉ p :=
  fun hin => hP.no_special '<' hin (by decide)

theorem CntPat.star_notin {p : List Char} (hP : CntPat p) : '*' ∉ p :=
  fun hin => hP.no_special '*' hin (by decide)

theorem CntPat.pipe_notin {p : List Char} (hP : CntPat p) : '|' ∉ p :=
  fun hin => hP.no_special '|' hin (by decide)

theorem CntPat.dash_notin {p : List Char} (hP : CntPat p) : '-' ∉ p :=
  fun hin => hP.no_special '-' hin (by decide)

theorem CntPat.colon_notin {p : List Char} (hP : CntPat p) : ':' ∉ p :=
  fun hin => hP.no_special ':' hin (by decide)

theorem CntPat.hash_notin {p : List Char} (hP : CntPat p) : '#' ∉ p :=
  fun hin => hP.no_special '#' hin (by decide)

theorem CntPat.dot_notin {p : List Char} (hP : CntPat p) : '.' ∉ p :=
  fun hin => hP.no_special '.' hin (by decide)

theorem CntPat.rpar_notin {p : List Char} (hP : CntPat p) : ')' ∉ p :=
  fun hin => hP.no_special ')' hin (by decide)

theorem CntPat.bullet_notin {p : List Char} (hP : CntPat p) : '•' ∉ p :=
  fun hin => hP.no_special '•' hin (by decide)

theorem CntPat.nl_notin {p : List Char} (hP : CntPat p) : '\n' ∉ p := by
  intro hin
  have h := hP.no_ws '\n' hin
  rw [show ('\n').isWhitespace = true from by decide] at h
  exact Bool.noConfusion h

theorem cntPat_amp : CntPat (("&amp;").toList) :=
  ⟨by decide, by decide, by decide, by decide⟩

theorem cntPat_lt : CntPat (("&lt;").toList) :=
  ⟨by decide, by decide, by decide, by decide⟩

theorem cntPat_gt : CntPat (("&gt;").toList) :=
  ⟨by decide, by decide, by decide, by decide⟩

theorem drop_takeWhile_length (q : Char → Bool) (l : List Char) :
    l.drop (l.takeWhile q).length = l.dropWhile q := by
  induction l with
  | nil => rfl
  | cons c rest ih =>
    by_cases h : q c
    · rw [List.takeWhile_cons_of_pos h, List.dropWhile_cons_of_pos h]
      simp only [List.length_cons, List.drop_succ_cons]
      exact ih
    · rw [List.takeWhile_cons_of_neg h, List.dropWhile_cons_of_neg h]
      rfl

/-! #### Counting through the emphasis passes -/

theorem hasPre_replaceStrongF (fuel : Nat) :
    ∀ (s q : List Char), '*' ∉ q → '<' ∉ q →
      hasPre q (replaceStrongF fuel s) = hasPre q s := by
  induction fuel with
  | zero => intro s _ _ _; rfl
  | succ fuel ih =>
    intro s q hstar hlt
    cases s with
    | nil => rfl
    | cons c rest =>
      rw [replaceStrongF]
      dsimp only
      have hcons : ∀ c2 : Char, hasPre q (c2 :: replaceStrongF fuel rest) =
          hasPre q (c2 :: rest) := by
        intro c2
        cases q with
        | nil => rw [hasPre_nil_left, hasPre_nil_left]
        | cons qh qt =>
          have e1 : hasPre (qh :: qt) (c2 :: replaceStrongF fuel rest) =
              ((qh == c2) && hasPre qt (replaceStrongF fuel rest)) := rfl
          have e2 : hasPre (qh :: qt) (c2 :: rest) =
              ((qh == c2) && hasPre qt rest) := rfl
          rw [e1, e2, ih rest qt (fun hm => hstar (List.mem_cons_of_mem _ hm))
            (fun hm => hlt (List.mem_cons_of_mem _ hm))]
      by_cases h1 : c = '*' ∧ hasPre ['*'] rest
      · rw [if_pos h1]
        by_cases h2 : (rest.drop 1).takeWhile (fun x => x ≠ '*') ≠ [] ∧
            hasPre ['*', '*'] ((rest.drop 1).drop
              ((rest.drop 1).takeWhile (fun x => x ≠ '*')).length)
        · rw [if_pos h2]
          obtain ⟨h1a, _⟩ := h1
          subst h1a
          cases q with
          | nil => rw [hasPre_nil_left, hasPre_nil_left]
          | cons qh qt =>
            have hq1 : (qh == '<') = false := by
              rw [beq_eq_false_iff_ne]
              intro he
              exact hlt (he ▸ List.mem_cons_self _ _)
            have hq2 : (qh == '*') = false := by
              rw [beq_eq_false_iff_ne]
              intro he
              exact hstar (he ▸ List.mem_cons_self _ _)
            have hL : ∀ y : List Char,
                hasPre (qh :: qt) (("<strong>").toList ++ y) = false := by
              intro y
              rw [show ("<strong>").toList ++ y =
                  '<' :: (("strong>").toList ++ y) from rfl]
              rw [show hasPre (qh :: qt) ('<' :: (("strong>").toList ++ y)) =
                  ((qh == '<') && hasPre qt (("strong>").toList ++ y)) from rfl]
              rw [hq1, Bool.false_and]
            have hR : hasPre (qh :: qt) ('*' :: rest) = false := by
              rw [show hasPre (qh :: qt) ('*' :: rest) =
                  ((qh == '*') && hasPre qt rest) from rfl, hq2, Bool.false_and]
            rw [List.append_assoc, List.append_assoc, hL, hR]
        · rw [if_neg h2]
          exact hcons c
      · rw [if_neg h1]
        exact hcons c

theorem cnt_replaceStrongF {p : List Char} (hP : CntPat p) (fuel : Nat) :
    ∀ s, cnt p (replaceStrongF fuel s) = cnt p s := by
  induction fuel with
  | zero => intro s; rfl
  | succ fuel ih =>
    intro s
    cases s with
    | nil => rfl
    | cons c rest =>
      obtain ⟨qh, qt, hq⟩ : ∃ qh qt, p = qh :: qt := by
        cases p with
        | nil => exact absurd rfl hP.ne_nil
        | cons x xs => exact ⟨x, xs, rfl⟩
      have hqt_star : '*' ∉ qt := fun hm =>
        hP.star_notin (by rw [hq]; exact List.mem_cons_of_mem _ hm)
      have hqt_lt : '<' ∉ qt := fun hm =>
        hP.lt_notin (by rw [hq]; exact List.mem_cons_of_mem _ hm)
      rw [replaceStrongF]
      dsimp only
      have hcons : ∀ c2 : Char, cnt p (c2 :: replaceStrongF fuel rest) =
          cnt p (c2 :: rest) := by
        intro c2
        have e1 : cnt p (c2 :: replaceStrongF fuel rest) =
            (if hasPre p (c2 :: replaceStrongF fuel rest) then 1 else 0) +
              cnt p (replaceStrongF fuel rest) := rfl
        have e2 : cnt p (c2 :: rest) =
            (if hasPre p (c2 :: rest) then 1 else 0) + cnt p rest := rfl
        have hind : hasPre p (c2 :: replaceStrongF fuel rest) =
            hasPre p (c2 :: rest) := by
          rw [hq]
          have f1 : hasPre (qh :: qt) (c2 :: replaceStrongF fuel rest) =
              ((qh == c2) && hasPre qt (replaceStrongF fuel rest)) := rfl
          have f2 : hasPre (qh :: qt) (c2 :: rest) =
              ((qh == c2) && hasPre qt rest) := rfl
          rw [f1, f2, hasPre_replaceStrongF fuel rest qt hqt_star hqt_lt]
        rw [e1, e2, hind, ih rest]
      by_cases h1 : c = '*' ∧ hasPre ['*'] rest
      · by_cases h2 : (rest.drop 1).takeWhile (fun x => x ≠ '*') ≠ [] ∧
            hasPre ['*', '*'] ((rest.drop 1).drop
              ((rest.drop 1).takeWhile (fun x => x ≠ '*')).length)
        · rw [if_pos h1, if_pos h2]
          obtain ⟨h1a, h1b⟩ := h1
          obtain ⟨_, h2b⟩ := h2
          subst h1a
          have hrest : rest = '*' :: rest.drop 1 := by
            have := hasPre_exists h1b
            simpa using this
          have hsplit : rest.drop 1 =
              (rest.drop 1).takeWhile (fun x => x ≠ '*') ++
                (rest.drop 1).drop
                  ((rest.drop 1).takeWhile (fun x => x ≠ '*')).length := by
            rw [drop_takeWhile_length]
            exact (List.takeWhile_append_dropWhile _ _).symm
          have hsplit2 : (rest.drop 1).drop
              ((rest.drop 1).takeWhile (fun x => x ≠ '*')).length =
              '*' :: '*' :: ((rest.drop 1).drop
                ((rest.drop 1).takeWhile (fun x => x ≠ '*')).length).drop 2 := by
            have := hasPre_exists h2b
            simpa using this
          rw [List.append_assoc, List.append_assoc]
          rw [cnt_append_amp _ hP.head_amp (by decide :
            '&' ∉ ("<strong>").toList)]
          have hb : ((("</strong>").toList ++ replaceStrongF fuel
              (((rest.drop 1).drop
                ((rest.drop 1).takeWhile (fun x => x ≠ '*')).length).drop 2)) :
              List Char).head? = some '<' := rfl
          rw [cnt_append_of_head_notin hb hP.lt_notin]
          rw [cnt_append_amp _ hP.head_amp (by decide :
            '&' ∉ ("</strong>").toList)]
          rw [ih]
          conv_rhs => rw [hrest, hsplit, hsplit2]
          rw [cnt_cons_notin _ hP.ne_nil hP.star_notin,
            cnt_cons_notin _ hP.ne_nil hP.star_notin]
          rw [cnt_append_of_head_notin List.head?_cons hP.star_notin]
          rw [cnt_cons_notin _ hP.ne_nil hP.star_notin,
            cnt_cons_notin _ hP.ne_nil hP.star_notin]
        · rw [if_pos h1, if_neg h2]
          exact hcons c
      · rw [if_neg h1]
        exact hcons c

theorem hasPre_replaceEmF (fuel : Nat) :
    ∀ (s q : List Char), '*' ∉ q → '<' ∉ q →
      hasPre q (replaceEmF fuel s) = hasPre q s := by
  induction fuel with
  | zero => intro s _ _ _; rfl
  | succ fuel ih =>
    intro s q hstar hlt
    cases s with
    | nil => rfl
    | cons c rest =>
      rw [replaceEmF]
      dsimp only
      have hcons : ∀ c2 : Char, hasPre q (c2 :: replaceEmF fuel rest) =
          hasPre q (c2 :: rest) := by
        intro c2
        cases q with
        | nil => rw [hasPre_nil_left, hasPre_nil_left]
        | cons qh qt =>
          have e1 : hasPre (qh :: qt) (c2 :: replaceEmF fuel rest) =
              ((qh == c2) && hasPre qt (replaceEmF fuel rest)) := rfl
          have e2 : hasPre (qh :: qt) (c2 :: rest) =
              ((qh == c2) && hasPre qt rest) := rfl
          rw [e1, e2, ih rest qt (fun hm => hstar (List.mem_cons_of_mem _ hm))
            (fun hm => hlt (List.mem_cons_of_mem _ hm))]
      by_cases h1 : c = '*'
      · rw [if_pos h1]
        by_cases h2 : rest.takeWhile (fun x => x ≠ '*') ≠ [] ∧
            hasPre ['*'] (rest.drop (rest.takeWhile (fun x => x ≠ '*')).length)
        · rw [if_pos h2]
          subst h1
          cases q with
          | nil => rw [hasPre_nil_left, hasPre_nil_left]
          | cons qh qt =>
            have hq1 : (qh == '<') = false := by
              rw [beq_eq_false_iff_ne]
              intro he
              exact hlt (he ▸ List.mem_cons_self _ _)
            have hq2 : (qh == '*') = false := by
              rw [beq_eq_false_iff_ne]
              intro he
              exact hstar (he ▸ List.mem_cons_self _ _)
            have hL : ∀ y : List Char,
                hasPre (qh :: qt) (("<em>").toList ++ y) = false := by
              intro y
              rw [show ("<em>").toList ++ y =
                  '<' :: (("em>").toList ++ y) from rfl]
              rw [show hasPre (qh :: qt) ('<' :: (("em>").toList ++ y)) =
                  ((qh == '<') && hasPre qt (("em>").toList ++ y)) from rfl]
              rw [hq1, Bool.false_and]
            have hR : hasPre (qh :: qt) ('*' :: rest) = false := by
              rw [show hasPre (qh :: qt) ('*' :: rest) =
                  ((qh == '*') && hasPre qt rest) from rfl, hq2, Bool.false_and]
            rw [List.append_assoc, List.append_assoc, hL, hR]
        · rw [if_neg h2]
          exact hcons c
      · rw [if_neg h1]
        exact hcons c

theorem cnt_replaceEmF {p : List Char} (hP : CntPat p) (fuel : Nat) :
    ∀ s, cnt p (replaceEmF fuel s) = cnt p s := by
  induction fuel with
  | zero => intro s; rfl
  | succ fuel ih =>
    intro s
    cases s with
    | nil => rfl
    | cons c rest =>
      obtain ⟨qh, qt, hq⟩ : ∃ qh qt, p = qh :: qt := by
        cases p with
        | nil => exact absurd rfl hP.ne_nil
        | cons x xs => exact ⟨x, xs, rfl⟩
      have hqt_star : '*' ∉ qt := fun hm =>
        hP.star_notin (by rw [hq]; exact List.mem_cons_of_mem _ hm)
      have hqt_lt : '<' ∉ qt := fun hm =>
        hP.lt_notin (by rw [hq]; exact List.mem_cons_of_mem _ hm)
      rw [replaceEmF]
      dsimp only
      have hcons : ∀ c2 : Char, cnt p (c2 :: replaceEmF fuel rest) =
          cnt p (c2 :: rest) := by
        intro c2
        have e1 : cnt p (c2 :: replaceEmF fuel rest) =
            (if hasPre p (c2 :: replaceEmF fuel rest) then 1 else 0) +
              cnt p (replaceEmF fuel rest) := rfl
        have e2 : cnt p (c2 :: rest) =
            (if hasPre p (c2 :: rest) then 1 else 0) + cnt p rest := rfl
        have hind : hasPre p (c2 :: replaceEmF fuel rest) =
            hasPre p (c2 :: rest) := by
          rw [hq]
          have f1 : hasPre (qh :: qt) (c2 :: replaceEmF fuel rest) =
              ((qh == c2) && hasPre qt (replaceEmF fuel rest)) := rfl
          have f2 : hasPre (qh :: qt) (c2 :: rest) =
              ((qh == c2) && hasPre qt rest) := rfl
          rw [f1, f2, hasPre_replaceEmF fuel rest qt hqt_star hqt_lt]
        rw [e1, e2, hind, ih rest]
      by_cases h1 : c = '*'
      · by_cases h2 : rest.takeWhile (fun x => x ≠ '*') ≠ [] ∧
            hasPre ['*'] (rest.drop (rest.takeWhile (fun x => x ≠ '*')).length)
        · rw [if_pos h1, if_pos h2]
          obtain ⟨_, h2b⟩ := h2
          subst h1
          have hsplit : rest =
              rest.takeWhile (fun x => x ≠ '*') ++
                rest.drop (rest.takeWhile (fun x => x ≠ '*')).length := by
            rw [drop_takeWhile_length]
            exact (List.takeWhile_append_dropWhile _ _).symm
          have hsplit2 : rest.drop (rest.takeWhile (fun x => x ≠ '*')).length =
              '*' :: (rest.drop (rest.takeWhile (fun x => x ≠ '*')).length).drop 1 := by
            have := hasPre_exists h2b
            simpa using this
          have hDD : rest.drop ((rest.takeWhile (fun x => x ≠ '*')).length + 1) =
              (rest.drop (rest.takeWhile (fun x => x ≠ '*')).length).drop 1 := by
            rw [List.drop_drop, Nat.add_comm]
          rw [List.append_assoc, List.append_assoc]
          rw [cnt_append_amp _ hP.head_amp (by decide : '&' ∉ ("<em>").toList)]
          have hb : ((("</em>").toList ++ replaceEmF fuel
              (rest.drop ((rest.takeWhile (fun x => x ≠ '*')).length + 1))) :
              List Char).head? = some '<' := rfl
          rw [cnt_append_of_head_notin hb hP.lt_notin]
          rw [cnt_append_amp _ hP.head_amp (by decide : '&' ∉ ("</em>").toList)]
          rw [ih, hDD]
          conv_rhs => rw [cnt_cons_notin _ hP.ne_nil hP.star_notin]
          conv_rhs => rw [hsplit]
          have hb2 : (rest.drop (rest.takeWhile (fun x => x ≠ '*')).length).head? =
              some '*' := by
            rw [hsplit2]
            rfl
          rw [cnt_append_of_head_notin hb2 hP.star_notin]
          conv_rhs => rw [hsplit2]
          rw [cnt_cons_notin _ hP.ne_nil hP.star_notin]
        · rw [if_pos h1, if_neg h2]
          exact hcons c
      · rw [if_neg h1]
        exact hcons c

theorem cnt_fmtEmphasis {p : List Char} (hP : CntPat p) (s : List Char) :
    cnt p (fmtEmphasis s) = cnt p s := by
  unfold fmtEmphasis replaceEm replaceStrong
  rw [cnt_replaceEmF hP, cnt_replaceStrongF hP]

/-! #### Counting through the per-line branches -/

theorem cnt_content_prepend {p : List Char} (hP : CntPat p) (a b : List Char)
    (hb : b.head? = some '<') : cnt p (a ++ b) = cnt p a + cnt p b :=
  cnt_append_of_head_notin hb hP.lt_notin a

theorem cnt_tag_prepend {p : List Char} (hP : CntPat p) (a b : List Char)
    (ha : '&' ∉ a) : cnt p (a ++ b) = cnt p b :=
  cnt_append_amp b hP.head_amp ha

theorem cnt_tag_zero {p x : List Char} (hP : CntPat p) (hx : '&' ∉ x) :
    cnt p x = 0 :=
  cnt_eq_zero_of_head_notin hP.head_amp hx

theorem cnt_dropWhile_ws {p : List Char} (hP : CntPat p) (l : List Char) :
    cnt p (l.dropWhile Char.isWhitespace) = cnt p l := by
  conv_rhs => rw [← List.takeWhile_append_dropWhile Char.isWhitespace l]
  refine (cnt_append_amp _ hP.head_amp ?_).symm
  intro hmem
  have hws := List.mem_takeWhile_imp hmem
  rw [show ('&').isWhitespace = false from by decide] at hws
  exact Bool.noConfusion hws

theorem cnt_stripUL {p : List Char} (hP : CntPat p) (l : List Char) :
    cnt p (stripUL l) = cnt p l := by
  cases l with
  | nil => rfl
  | cons c rest =>
    cases rest with
    | nil => rfl
    | cons c2 rest2 =>
      show cnt p (if (c = '-' ∨ c = '*') ∧ c2.isWhitespace then
          (c2 :: rest2).dropWhile Char.isWhitespace else c :: c2 :: rest2) =
        cnt p (c :: c2 :: rest2)
      by_cases h : (c = '-' ∨ c = '*') ∧ c2.isWhitespace
      · rw [if_pos h, cnt_dropWhile_ws hP]
        have hc : c ∉ p := by
          rcases h.1 with rfl | rfl
          · exact hP.dash_notin
          · exact hP.star_notin
        rw [cnt_cons_notin _ hP.ne_nil hc]
      · rw [if_neg h]

theorem cnt_stripOL {p : List Char} (hP : CntPat p) (l : List Char) :
    cnt p (stripOL l) = cnt p l := by
  unfold stripOL
  by_cases h : isOLStart l = true
  · rw [if_pos h]
    have hsplit : l = l.takeWhile Char.isDigit ++
        l.drop (l.takeWhile Char.isDigit).length := by
      rw [drop_takeWhile_length]
      exact (List.takeWhile_append_dropWhile _ _).symm
    unfold isOLStart at h
    dsimp only at h
    rw [Bool.and_eq_true] at h
    obtain ⟨-, hmatch⟩ := h
    cases hdrop : l.drop (l.takeWhile Char.isDigit).length with
    | nil => rw [hdrop] at hmatch; exact Bool.noConfusion hmatch
    | cons s1 t1 =>
      cases t1 with
      | nil => rw [hdrop] at hmatch; exact Bool.noConfusion hmatch
      | cons s2 t2 =>
        rw [hdrop] at hmatch
        rw [decide_eq_true_eq] at hmatch
        obtain ⟨hs1, -⟩ := hmatch
        have hds : '&' ∉ l.takeWhile Char.isDigit := by
          intro hmem
          have hd := List.mem_takeWhile_imp hmem
          rw [show ('&').isDigit = false from by decide] at hd
          exact Bool.noConfusion hd
        have hs1p : s1 ∉ p := by
          rcases hs1 with rfl | rfl
          · exact hP.dot_notin
          · exact hP.rpar_notin
        have hl2 : cnt p l = cnt p (s2 :: t2) := by
          nth_rewrite 1 [hsplit]
          rw [cnt_append_amp _ hP.head_amp hds, hdrop,
            cnt_cons_notin _ hP.ne_nil hs1p]
        rw [show ((s1 :: s2 :: t2).drop 1) = s2 :: t2 from rfl]
        rw [cnt_dropWhile_ws hP]
        exact hl2.symm
  · rw [if_neg h]

theorem cnt_headingText {p : List Char} (hP : CntPat p) (line : List Char) :
    cnt p ((line.drop (headingLevel line)).dropWhile Char.isWhitespace) =
      cnt p line := by
  rw [cnt_dropWhile_ws hP]
  have hsplit : line = line.takeWhile (fun c => c = '#') ++
      line.drop (headingLevel line) := by
    unfold headingLevel
    rw [drop_takeWhile_length]
    exact (List.takeWhile_append_dropWhile _ _).symm
  conv_rhs => rw [hsplit]
  refine (cnt_append_amp _ hP.head_amp ?_).symm
  intro hmem
  have hh := List.mem_takeWhile_imp hmem
  simp at hh

theorem mem_trimChars_of_not_ws {c : Char} {l : List Char} (hc : c ∈ l)
    (hws : c.isWhitespace = false) : c ∈ trimChars l := by
  unfold trimChars
  rw [List.mem_reverse]
  have h1 : c ∈ l.dropWhile (fun c => c.isWhitespace) := by
    have hsp := List.takeWhile_append_dropWhile
      (fun c : Char => c.isWhitespace) l
    rcases List.mem_append.mp (hsp.symm ▸ hc) with h | h
    · have hx := List.mem_takeWhile_imp h
      rw [hws] at hx
      exact Bool.noConfusion hx
    · exact h
  have h2 : c ∈ (l.dropWhile (fun c => c.isWhitespace)).reverse :=
    List.mem_reverse.mpr h1
  have hsp2 := List.takeWhile_append_dropWhile (fun c : Char => c.isWhitespace)
    (l.dropWhile (fun c => c.isWhitespace)).reverse
  rcases List.mem_append.mp (hsp2.symm ▸ h2) with h | h
  · have hx := List.mem_takeWhile_imp h
    rw [hws] at hx
    exact Bool.noConfusion hx
  · exact h

theorem exists_part_of_mem_splitChar {sep c : Char} (hne : c ≠ sep) :
    ∀ {s : List Char}, c ∈ s → ∃ l ∈ splitChar sep s, c ∈ l := by
  intro s hc
  induction s with
  | nil => exact absurd hc (List.not_mem_nil _)
  | cons a rest ih =>
    by_cases ha : a = sep
    · subst ha
      rcases List.mem_cons.mp hc with rfl | hc2
      · exact absurd rfl hne
      · obtain ⟨l, hl, hcl⟩ := ih hc2
        refine ⟨l, ?_, hcl⟩
        rw [splitChar, if_pos rfl]
        exact List.mem_cons_of_mem _ hl
    · rw [splitChar, if_neg ha]
      cases hps : splitChar sep rest with
      | nil => exact absurd hps (splitChar_ne_nil sep rest)
      | cons q qs =>
        rcases List.mem_cons.mp hc with rfl | hc2
        · exact ⟨c :: q, List.mem_cons_self _ _, List.mem_cons_self _ _⟩
        · obtain ⟨l, hl, hcl⟩ := ih hc2
          rw [hps] at hl
          rcases List.mem_cons.mp hl with rfl | hl2
          · exact ⟨a :: l, List.mem_cons_self _ _, List.mem_cons_of_mem _ hcl⟩
          · exact ⟨l, List.mem_cons_of_mem _ hl2, hcl⟩

theorem mem_isAlignCell {cell : List Char} (h : isAlignCell cell = true) :
    ∀ c ∈ cell, c = ':' ∨ c = '-' := by
  unfold isAlignCell at h
  dsimp only at h
  rw [Bool.and_eq_true] at h
  obtain ⟨-, hrest⟩ := h
  intro c hc
  by_cases hpre : hasPre [':'] cell = true
  · rw [if_pos hpre] at hrest
    have hcell : cell = ':' :: cell.drop 1 := by
      have hx := hasPre_exists hpre
      simpa using hx
    have hc2 : c = ':' ∨ c ∈ cell.drop 1 := by
      rw [hcell] at hc
      exact List.mem_cons.mp hc
    rcases hc2 with rfl | hc2
    · exact Or.inl rfl
    · have hsplit : cell.drop 1 = (cell.drop 1).takeWhile (fun x => x = '-') ++
          (cell.drop 1).drop ((cell.drop 1).takeWhile (fun x => x = '-')).length := by
        rw [drop_takeWhile_length]
        exact (List.takeWhile_append_dropWhile _ _).symm
      rcases List.mem_append.mp (hsplit ▸ hc2) with hA | hB
      · have hx := List.mem_takeWhile_imp hA
        exact Or.inr (by simpa using hx)
      · rw [Bool.or_eq_true, beq_iff_eq, beq_iff_eq] at hrest
        rcases hrest with hr | hr
        · rw [hr] at hB
          exact absurd hB (List.not_mem_nil _)
        · rw [hr] at hB
          exact Or.inl (List.mem_singleton.mp hB)
  · rw [if_neg hpre] at hrest
    have hsplit : cell = cell.takeWhile (fun x => x = '-') ++
        cell.drop (cell.takeWhile (fun x => x = '-')).length := by
      rw [drop_takeWhile_length]
      exact (List.takeWhile_append_dropWhile _ _).symm
    rcases List.mem_append.mp (hsplit ▸ hc) with hA | hB
    · have hx := List.mem_takeWhile_imp hA
      exact Or.inr (by simpa using hx)
    · rw [Bool.or_eq_true, beq_iff_eq, beq_iff_eq] at hrest
      rcases hrest with hr | hr
      · rw [hr] at hB
        exact absurd hB (List.not_mem_nil _)
      · rw [hr] at hB
        exact Or.inl (List.mem_singleton.mp hB)

theorem mdRow_decomp {row : List Char} (hrow : isMdTableRow row = true) :
    ∃ mid, row = '|' :: mid ++ ['|'] ∧ (row.drop 1).dropLast = mid := by
  unfold isMdTableRow at hrow
  rw [Bool.and_eq_true, Bool.and_eq_true] at hrow
  obtain ⟨⟨hlen, hhead⟩, hlast⟩ := hrow
  rw [decide_eq_true_eq] at hlen
  rw [beq_iff_eq] at hhead hlast
  cases row with
  | nil => exact Option.noConfusion hhead
  | cons c rest =>
    have hc : c = '|' := by simpa using hhead
    subst hc
    have hrne : rest ≠ [] := by
      intro h
      subst h
      simp at hlen
    have hlast2 : rest.getLast? = some '|' := by
      cases rest with
      | nil => exact absurd rfl hrne
      | cons r1 rs =>
        rw [List.getLast?_cons_cons] at hlast
        exact hlast
    have h4 : rest.getLast hrne = '|' := by
      rw [List.getLast?_eq_getLast rest hrne] at hlast2
      simpa using hlast2
    have hdecomp : rest = rest.dropLast ++ ['|'] := by
      conv_lhs => rw [← List.dropLast_append_getLast hrne]
      rw [h4]
    refine ⟨rest.dropLast, ?_, rfl⟩
    conv_lhs => rw [hdecomp]
    rw [List.cons_append]

theorem sum_cnt_tableCells {p : List Char} (hP : CntPat p) (row : List Char)
    (hrow : isMdTableRow row = true) :
    ((tableCells row).map (cnt p)).sum = cnt p row := by
  obtain ⟨mid, hdecomp, hmid⟩ := mdRow_decomp hrow
  unfold tableCells
  rw [hmid, List.map_map]
  have hmaps : ((splitChar '|' mid).map (cnt p ∘ trimChars)) =
      (splitChar '|' mid).map (cnt p) := by
    refine List.map_congr_left ?_
    intro a _
    show cnt p (trimChars a) = cnt p a
    exact cnt_trimChars hP.ne_nil hP.no_ws a
  rw [hmaps, cnt_splitChar '|' hP.ne_nil hP.pipe_notin]
  rw [hdecomp, List.cons_append]
  rw [cnt_cons_notin _ hP.ne_nil hP.pipe_notin]
  rw [cnt_append_of_head_notin List.head?_cons hP.pipe_notin]
  rw [show cnt p ['|'] = 0 from
    cnt_eq_zero_of_head_notin hP.head_amp (by decide)]
  omega

theorem amp_notin_alignRow {row : List Char} (hrow : isMdTableRow row = true)
    (halign : isAlignRow (tableCells row) = true) : '&' ∉ row := by
  intro hamp
  obtain ⟨mid, hdecomp, hmid⟩ := mdRow_decomp hrow
  rw [hdecomp, List.cons_append] at hamp
  rcases List.mem_cons.mp hamp with he | hamp2
  · exact absurd he (by decide)
  rcases List.mem_append.mp hamp2 with hm | he
  · obtain ⟨part, hpart, hcp⟩ :=
      exists_part_of_mem_splitChar (by decide : ('&' : Char) ≠ '|') hm
    have htrim : '&' ∈ trimChars part :=
      mem_trimChars_of_not_ws hcp (by decide)
    have hcell : trimChars part ∈ tableCells row := by
      unfold tableCells
      rw [hmid]
      exact List.mem_map_of_mem _ hpart
    unfold isAlignRow at halign
    rw [List.all_eq_true] at halign
    rcases mem_isAlignCell (halign _ hcell) '&' htrim with h | h <;>
      exact absurd h (by decide)
  · exact absurd (List.mem_singleton.mp he) (by decide)

theorem cnt_tdCells {p : List Char} (hP : CntPat p) (cs : List (List Char)) :
    cnt p (cs.flatMap (fun c => ("<td>").toList ++ c ++ ("</td>").toList) ++
      ("</tr>").toList) = (cs.map (cnt p)).sum := by
  induction cs with
  | nil =>
    rw [show (([] : List (List Char)).flatMap
        (fun c => ("<td>").toList ++ c ++ ("</td>").toList)) = [] from rfl]
    rw [List.nil_append]
    exact cnt_tag_zero hP (by decide)
  | cons c rest ihc =>
    rw [List.flatMap_cons]
    have e1 : ((("<td>").toList ++ c ++ ("</td>").toList) ++
        rest.flatMap (fun c => ("<td>").toList ++ c ++ ("</td>").toList)) ++
        ("</tr>").toList =
        ("<td>").toList ++ (c ++ (("</td>").toList ++
          (rest.flatMap (fun c => ("<td>").toList ++ c ++ ("</td>").toList) ++
            ("</tr>").toList))) := by
      simp only [List.append_assoc]
    rw [e1]
    rw [cnt_tag_prepend hP _ _ (by decide)]
    rw [cnt_content_prepend hP]
    case hb => rfl
    rw [cnt_tag_prepend hP _ _ (by decide)]
    rw [ihc]
    simp

theorem cnt_tdRow {p : List Char} (hP : CntPat p) (cs : List (List Char)) :
    cnt p (tdRow cs) = (cs.map (cnt p)).sum := by
  unfold tdRow
  rw [List.append_assoc]
  rw [cnt_tag_prepend hP _ _ (by decide)]
  exact cnt_tdCells hP cs

theorem cnt_flatMap_thCell {p : List Char} (hP : CntPat p)
    (r0 : List (List Char)) (tail : List Char) :
    cnt p (r0.flatMap thCell ++ tail) = (r0.map (cnt p)).sum + cnt p tail := by
  induction r0 with
  | nil =>
    rw [show (([] : List (List Char)).flatMap thCell) = [] from rfl]
    rw [List.nil_append]
    simp
  | cons c rest ihc =>
    rw [List.flatMap_cons]
    have e1 : (thCell c ++ rest.flatMap thCell) ++ tail =
        ("<th>").toList ++ (c ++ (("</th>").toList ++
          (rest.flatMap thCell ++ tail))) := by
      rw [show thCell c = ("<th>").toList ++ c ++ ("</th>").toList from rfl]
      simp only [List.append_assoc]
    rw [e1]
    rw [cnt_tag_prepend hP _ _ (by decide)]
    rw [cnt_content_prepend hP]
    case hb => rfl
    rw [cnt_tag_prepend hP _ _ (by decide)]
    rw [ihc]
    simp only [List.map_cons, List.sum_cons]
    omega

theorem cnt_flatMap_tdRow {p : List Char} (hP : CntPat p) (tail : List Char)
    (htail : tail.head? = some '<') (rcs : List (List (List Char))) :
    cnt p (rcs.flatMap tdRow ++ tail) =
      (rcs.map (fun cs => (cs.map (cnt p)).sum)).sum + cnt p tail := by
  induction rcs with
  | nil =>
    rw [show (([] : List (List (List Char))).flatMap tdRow) = [] from rfl]
    rw [List.nil_append]
    simp
  | cons cs rest ihc =>
    rw [List.flatMap_cons, List.append_assoc]
    rw [cnt_content_prepend hP]
    case hb =>
      cases rest with
      | nil =>
        rw [show (([] : List (List (List Char))).flatMap tdRow) = [] from rfl]
        rw [List.nil_append]
        exact htail
      | cons cs2 rest2 =>
        rw [List.flatMap_cons]
        rfl
    rw [cnt_tdRow hP, ihc]
    simp only [List.map_cons, List.sum_cons]
    omega

theorem flushTableHtml_head {tb : List (List Char)} (h : tb ≠ []) :
    (flushTableHtml tb).head? = some '<' := by
  cases tb with
  | nil => exact absurd rfl h
  | cons r rs =>
    cases rs with
    | nil => rfl
    | cons r2 rs2 =>
      unfold flushTableHtml
      simp only [List.map_cons]
      split <;> rfl

theorem cnt_flushTableHtml {p : List Char} (hP : CntPat p)
    (tb : List (List Char)) (htb : ∀ l ∈ tb, isMdTableRow l = true) :
    cnt p (flushTableHtml tb) = (tb.map (cnt p)).sum := by
  cases tb with
  | nil => rfl
  | cons row0 tbrest =>
    cases tbrest with
    | nil =>
      have e : flushTableHtml [row0] =
          ("<table class=\"md-table\">").toList ++ ("<tbody>").toList ++
            ([tableCells row0].flatMap tdRow) ++ ("</tbody></table>").toList := rfl
      rw [e]
      simp only [List.append_assoc]
      rw [cnt_tag_prepend hP _ _ (by decide)]
      rw [cnt_tag_prepend hP _ _ (by decide)]
      rw [cnt_flatMap_tdRow hP (("</tbody></table>").toList) rfl]
      rw [show cnt p (("</tbody></table>").toList) = 0 from
        cnt_tag_zero hP (by decide)]
      simp only [List.map_cons, List.map_nil, List.sum_cons, List.sum_nil]
      rw [sum_cnt_tableCells hP row0 (htb row0 (List.mem_cons_self _ _))]
      omega
    | cons row1 tbrest2 =>
      have hrow0 : isMdTableRow row0 = true := htb row0 (List.mem_cons_self _ _)
      have hrow1 : isMdTableRow row1 = true :=
        htb row1 (List.mem_cons_of_mem _ (List.mem_cons_self _ _))
      have htb2 : ∀ l ∈ tbrest2, isMdTableRow l = true := fun l hl =>
        htb l (List.mem_cons_of_mem _ (List.mem_cons_of_mem _ hl))
      have hsum2 : ((tbrest2.map tableCells).map
          (fun cs => (cs.map (cnt p)).sum)).sum =
          (tbrest2.map (cnt p)).sum := by
        rw [List.map_map]
        congr 1
        refine List.map_congr_left ?_
        intro a ha
        show ((tableCells a).map (cnt p)).sum = cnt p a
        exact sum_cnt_tableCells hP a (htb2 a ha)
      by_cases halign : isAlignRow (tableCells row1) = true
      · have e : flushTableHtml (row0 :: row1 :: tbrest2) =
            ("<table class=\"md-table\">").toList ++ ("<thead><tr>").toList ++
              (tableCells row0).flatMap thCell ++ ("</tr></thead>").toList ++
              ("<tbody>").toList ++
              ((tbrest2.map tableCells).flatMap tdRow) ++
              ("</tbody></table>").toList := by
          unfold flushTableHtml
          simp only [List.map_cons]
          rw [if_pos halign]
        rw [e]
        simp only [List.append_assoc]
        rw [cnt_tag_prepend hP _ _ (by decide)]
        rw [cnt_tag_prepend hP _ _ (by decide)]
        rw [cnt_flatMap_thCell hP (tableCells row0)
          ((("</tr></thead>").toList ++ (("<tbody>").toList ++
            ((tbrest2.map tableCells).flatMap tdRow ++
              ("</tbody></table>").toList))))]
        rw [cnt_tag_prepend hP _ _ (by decide)]
        rw [cnt_tag_prepend hP _ _ (by decide)]
        rw [cnt_flatMap_tdRow hP (("</tbody></table>").toList) rfl]
        rw [show cnt p (("</tbody></table>").toList) = 0 from
          cnt_tag_zero hP (by decide)]
        rw [hsum2]
        rw [sum_cnt_tableCells hP row0 hrow0]
        have hz1 : cnt p row1 = 0 :=
          cnt_tag_zero hP (amp_notin_alignRow hrow1 halign)
        simp only [List.map_cons, List.sum_cons]
        rw [hz1]
        omega
      · have e : flushTableHtml (row0 :: row1 :: tbrest2) =
            ("<table class=\"md-table\">").toList ++ ("<tbody>").toList ++
              (((row0 :: row1 :: tbrest2).map tableCells).flatMap tdRow) ++
              ("</tbody></table>").toList := by
          unfold flushTableHtml
          simp only [List.map_cons]
          rw [if_neg halign]
        rw [e]
        simp only [List.map_cons, List.append_assoc]
        rw [cnt_tag_prepend hP _ _ (by decide)]
        rw [cnt_tag_prepend hP _ _ (by decide)]
        rw [cnt_flatMap_tdRow hP (("</tbody></table>").toList) rfl]
        rw [show cnt p (("</tbody></table>").toList) = 0 from
          cnt_tag_zero hP (by decide)]
        simp only [List.map_cons, List.sum_cons]
        rw [hsum2]
        rw [sum_cnt_tableCells hP row0 hrow0,
          sum_cnt_tableCells hP row1 hrow1]
        omega

/-! #### The line loop preserves entity counts -/

theorem findSub_none_of_head_notin {p0 s : List Char} {h0 : Char}
    (hh : p0.head? = some h0) (hx : h0 ∉ s) : findSub p0 s = none := by
  induction s with
  | nil =>
    cases p0 with
    | nil => exact Option.noConfusion hh
    | cons a b => rfl
  | cons c rest ih =>
    rw [findSub]
    have h1 : hasPre p0 (c :: rest) = false := by
      cases p0 with
      | nil => exact Option.noConfusion hh
      | cons a b =>
        have ha : a = h0 := by simpa using hh
        have hbeq : (a == c) = false := by
          rw [beq_eq_false_iff_ne]
          intro he
          refine hx ?_
          rw [← ha, ← he]
          exact List.mem_cons_self _ _
        show ((a == c) && hasPre b rest) = false
        rw [hbeq, Bool.false_and]
    rw [h1]
    simp only [Bool.false_eq_true, if_false]
    rw [ih (fun hm => hx (List.mem_cons_of_mem _ hm))]
    rfl

theorem codeBlockPass_id {s : List Char} (hb : btick ∉ s) :
    codeBlockPass s = s := by
  unfold codeBlockPass
  cases s with
  | nil => rfl
  | cons c rest =>
    rw [codeBlockPassF]
    have hfind : findSub [btick, btick, btick] (c :: rest) = none :=
      findSub_none_of_head_notin rfl hb
    rw [hfind]

theorem inlineCodePass_id {s : List Char} (hb : btick ∉ s) :
    inlineCodePass s = s := by
  unfold inlineCodePass
  suffices h : ∀ fuel s2, btick ∉ s2 → inlineCodePassF fuel s2 = s2 by
    exact h _ s hb
  intro fuel
  induction fuel with
  | zero => intro s2 _; rfl
  | succ fuel ih =>
    intro s2 hb2
    cases s2 with
    | nil => rfl
    | cons c rest =>
      rw [inlineCodePassF]
      dsimp only
      rw [if_neg (show ¬ (c = btick) from
        fun he => hb2 (he ▸ List.mem_cons_self _ _))]
      rw [ih rest (fun hm => hb2 (List.mem_cons_of_mem _ hm))]

/-- The potential of the loop state: occurrences already emitted plus
occurrences parked in the table buffer. -/
def mu (p : List Char) (st : RenderLoopState) : Nat :=
  cnt p st.out + (st.tableBuffer.map (cnt p)).sum

theorem closeListsOut_spec {p : List Char} (hP : CntPat p)
    (st : RenderLoopState) :
    mu p (closeListsOut st) = mu p st ∧
      (closeListsOut st).tableBuffer = st.tableBuffer ∧
      (closeListsOut st).inPre = st.inPre := by
  obtain ⟨o, u, ol, tb, pre⟩ := st
  cases u <;> cases ol
  · exact ⟨rfl, rfl, rfl⟩
  · refine ⟨?_, rfl, rfl⟩
    show mu p ⟨o ++ ("</ol>").toList, false, false, tb, pre⟩ =
      mu p ⟨o, false, true, tb, pre⟩
    unfold mu
    dsimp only
    rw [cnt_content_prepend hP _ _ (by rfl)]
    rw [show cnt p (("</ol>").toList) = 0 from cnt_tag_zero hP (by decide)]
    omega
  · refine ⟨?_, rfl, rfl⟩
    show mu p ⟨o ++ ("</ul>").toList, false, false, tb, pre⟩ =
      mu p ⟨o, true, false, tb, pre⟩
    unfold mu
    dsimp only
    rw [cnt_content_prepend hP _ _ (by rfl)]
    rw [show cnt p (("</ul>").toList) = 0 from cnt_tag_zero hP (by decide)]
    omega
  · refine ⟨?_, rfl, rfl⟩
    show mu p ⟨(o ++ ("</ul>").toList) ++ ("</ol>").toList, false, false, tb, pre⟩ =
      mu p ⟨o, true, true, tb, pre⟩
    unfold mu
    dsimp only
    rw [List.append_assoc]
    rw [cnt_content_prepend hP _ _ (by rfl)]
    rw [show cnt p (("</ul>").toList ++ ("</ol>").toList) = 0 from
      cnt_tag_zero hP (by decide)]
    omega

theorem flushStep_spec {p : List Char} (hP : CntPat p)
    (st s2 : RenderLoopState)
    (htb : ∀ l ∈ st.tableBuffer, isMdTableRow l = true)
    (hs2 : s2 = if st.tableBuffer ≠ [] then { st with out := st.out ++ flushTableHtml st.tableBuffer, tableBuffer := [] } else st) :
    mu p s2 = mu p st ∧ s2.tableBuffer = [] ∧ s2.inPre = st.inPre ∧
      s2.inUl = st.inUl ∧ s2.inOl = st.inOl := by
  by_cases htbne : st.tableBuffer ≠ []
  · rw [if_pos htbne] at hs2
    subst hs2
    refine ⟨?_, rfl, rfl, rfl, rfl⟩
    unfold mu
    dsimp only
    rw [cnt_content_prepend hP _ _ (flushTableHtml_head htbne),
      cnt_flushTableHtml hP _ htb]
    simp
  · rw [if_neg htbne] at hs2
    subst hs2
    exact ⟨rfl, not_not.mp htbne, rfl, rfl, rfl⟩

theorem amp_notin_headingDigit (n : Nat) : '&' ∉ headingDigit n := by
  rcases n with _ | _ | _ | _ | _ | _ | _ | m
  · decide
  · decide
  · decide
  · decide
  · decide
  · decide
  · decide
  · show '&' ∉ ("0").toList
    decide

theorem procLine_mu {p : List Char} (hP : CntPat p) (st : RenderLoopState)
    (raw : List Char) (hlt : '<' ∉ raw) (hpre : st.inPre = false)
    (htb : ∀ l ∈ st.tableBuffer, isMdTableRow l = true) :
    mu p (procLine st raw) = mu p st + cnt p raw ∧
      (procLine st raw).inPre = false ∧
      ∀ l ∈ (procLine st raw).tableBuffer, isMdTableRow l = true := by
  have hline_lt : '<' ∉ trimChars raw := fun hm => hlt (mem_trimChars hm)
  have hcnt_line : cnt p (trimChars raw) = cnt p raw :=
    cnt_trimChars hP.ne_nil hP.no_ws raw
  unfold procLine
  dsimp only
  by_cases h1 : trimChars raw = []
  · rw [if_pos h1]
    refine ⟨?_, hpre, htb⟩
    rw [← hcnt_line, h1]
    simp [cnt]
  rw [if_neg h1]
  have hcs : containsSub (("<pre><code").toList) (trimChars raw) = false :=
    containsSub_eq_false_of_head_notin (by rfl) hline_lt
  rw [if_neg (show ¬ (containsSub (("<pre><code").toList) (trimChars raw) = true)
    from by rw [hcs]; simp)]
  rw [if_neg (show ¬ (st.inPre = true) from by rw [hpre]; simp)]
  by_cases h4 : isMdTableRow (trimChars raw) = true
  · rw [if_pos h4]
    refine ⟨?_, hpre, ?_⟩
    · unfold mu
      dsimp only
      rw [List.map_append, List.sum_append]
      simp only [List.map_cons, List.map_nil, List.sum_cons, List.sum_nil]
      rw [hcnt_line]
      omega
    · intro l hl
      rcases List.mem_append.mp hl with hl | hl
      · exact htb l hl
      · rw [List.mem_singleton.mp hl]
        exact h4
  rw [if_neg h4]
  set s2 := if st.tableBuffer ≠ [] then { st with out := st.out ++ flushTableHtml st.tableBuffer, tableBuffer := [] } else st with hs2
  obtain ⟨f1, f2, f3, -, -⟩ := flushStep_spec hP st s2 htb hs2
  have hs2pre : s2.inPre = false := by rw [f3]; exact hpre
  have hmuout : ∀ s3 : RenderLoopState, s3.tableBuffer = [] →
      cnt p s3.out = mu p s3 := by
    intro s3 h3
    unfold mu
    rw [h3]
    simp
  have hcntfmtUL : cnt p (fmtEmphasis (stripUL (trimChars raw))) = cnt p raw := by
    rw [cnt_fmtEmphasis hP, cnt_stripUL hP, hcnt_line]
  have hcntfmtOL : cnt p (fmtEmphasis (stripOL (trimChars raw))) = cnt p raw := by
    rw [cnt_fmtEmphasis hP, cnt_stripOL hP, hcnt_line]
  have hcntfmtP : cnt p (fmtEmphasis (trimChars raw)) = cnt p raw := by
    rw [cnt_fmtEmphasis hP, hcnt_line]
  by_cases h5 : isULStart (trimChars raw) = true
  · rw [if_pos h5]
    by_cases h6 : ¬ (s2.inUl = true)
    · rw [if_pos h6]
      obtain ⟨hcmu, hctb, hcpre⟩ := closeListsOut_spec hP s2
      have htbc : (closeListsOut s2).tableBuffer = [] := by rw [hctb, f2]
      refine ⟨?_, by exact hcpre.trans hs2pre, ?_⟩
      · unfold mu
        dsimp only
        simp only [List.append_assoc]
        rw [cnt_content_prepend hP _ _ (by rfl)]
        rw [cnt_tag_prepend hP _ _ (by decide)]
        rw [cnt_tag_prepend hP _ _ (by decide)]
        rw [cnt_content_prepend hP _ _ (by rfl)]
        rw [show cnt p (("</li>").toList) = 0 from cnt_tag_zero hP (by decide)]
        rw [hcntfmtUL, htbc]
        have := hmuout (closeListsOut s2) htbc
        rw [this, hcmu, f1]
        simp
        rfl
      · intro l hl
        rw [htbc] at hl
        exact absurd hl (List.not_mem_nil _)
    · rw [if_neg h6]
      refine ⟨?_, by exact hs2pre, ?_⟩
      · unfold mu
        dsimp only
        simp only [List.append_assoc]
        rw [cnt_content_prepend hP _ _ (by rfl)]
        rw [cnt_tag_prepend hP _ _ (by decide)]
        rw [cnt_content_prepend hP _ _ (by rfl)]
        rw [show cnt p (("</li>").toList) = 0 from cnt_tag_zero hP (by decide)]
        rw [hcntfmtUL, f2]
        have := hmuout s2 f2
        rw [this, f1]
        simp
        rfl
      · intro l hl
        rw [f2] at hl
        exact absurd hl (List.not_mem_nil _)
  rw [if_neg h5]
  by_cases h7 : isOLStart (trimChars raw) = true
  · rw [if_pos h7]
    by_cases h8 : ¬ (s2.inOl = true)
    · rw [if_pos h8]
      obtain ⟨hcmu, hctb, hcpre⟩ := closeListsOut_spec hP s2
      have htbc : (closeListsOut s2).tableBuffer = [] := by rw [hctb, f2]
      refine ⟨?_, by exact hcpre.trans hs2pre, ?_⟩
      · unfold mu
        dsimp only
        simp only [List.append_assoc]
        rw [cnt_content_prepend hP _ _ (by rfl)]
        rw [cnt_tag_prepend hP _ _ (by decide)]
        rw [cnt_tag_prepend hP _ _ (by decide)]
        rw [cnt_content_prepend hP _ _ (by rfl)]
        rw [show cnt p (("</li>").toList) = 0 from cnt_tag_zero hP (by decide)]
        rw [hcntfmtOL, htbc]
        have := hmuout (closeListsOut s2) htbc
        rw [this, hcmu, f1]
        simp
        rfl
      · intro l hl
        rw [htbc] at hl
        exact absurd hl (List.not_mem_nil _)
    · rw [if_neg h8]
      refine ⟨?_, by exact hs2pre, ?_⟩
      · unfold mu
        dsimp only
        simp only [List.append_assoc]
        rw [cnt_content_prepend hP _ _ (by rfl)]
        rw [cnt_tag_prepend hP _ _ (by decide)]
        rw [cnt_content_prepend hP _ _ (by rfl)]
        rw [show cnt p (("</li>").toList) = 0 from cnt_tag_zero hP (by decide)]
        rw [hcntfmtOL, f2]
        have := hmuout s2 f2
        rw [this, f1]
        simp
        rfl
      · intro l hl
        rw [f2] at hl
        exact absurd hl (List.not_mem_nil _)
  rw [if_neg h7]
  by_cases h9 : isHeading (trimChars raw) = true
  · rw [if_pos h9]
    obtain ⟨hcmu, hctb, hcpre⟩ := closeListsOut_spec hP s2
    have htbc : (closeListsOut s2).tableBuffer = [] := by rw [hctb, f2]
    refine ⟨?_, by exact hcpre.trans hs2pre, ?_⟩
    · unfold mu
      dsimp only
      simp only [List.append_assoc]
      rw [cnt_content_prepend hP _ _ (by rfl)]
      rw [cnt_tag_prepend hP _ _ (by decide)]
      rw [cnt_tag_prepend hP _ _ (amp_notin_headingDigit _)]
      rw [cnt_tag_prepend hP _ _ (by decide)]
      rw [cnt_content_prepend hP _ _ (by rfl)]
      rw [cnt_tag_prepend hP _ _ (by decide)]
      rw [cnt_tag_prepend hP _ _ (amp_notin_headingDigit _)]
      rw [show cnt p ((">").toList) = 0 from cnt_tag_zero hP (by decide)]
      rw [cnt_fmtEmphasis hP, cnt_headingText hP, hcnt_line, htbc]
      have := hmuout (closeListsOut s2) htbc
      rw [this, hcmu, f1]
      simp
      rfl
    · intro l hl
      rw [htbc] at hl
      exact absurd hl (List.not_mem_nil _)
  · rw [if_neg h9]
    obtain ⟨hcmu, hctb, hcpre⟩ := closeListsOut_spec hP s2
    have htbc : (closeListsOut s2).tableBuffer = [] := by rw [hctb, f2]
    refine ⟨?_, by exact hcpre.trans hs2pre, ?_⟩
    · unfold mu
      dsimp only
      simp only [List.append_assoc]
      rw [cnt_content_prepend hP _ _ (by rfl)]
      rw [cnt_tag_prepend hP _ _ (by decide)]
      rw [cnt_content_prepend hP _ _ (by rfl)]
      rw [show cnt p (("</p>").toList) = 0 from cnt_tag_zero hP (by decide)]
      rw [hcntfmtP, htbc]
      have := hmuout (closeListsOut s2) htbc
      rw [this, hcmu, f1]
      simp
      rfl
    · intro l hl
      rw [htbc] at hl
      exact absurd hl (List.not_mem_nil _)

theorem foldl_procLine_mu {p : List Char} (hP : CntPat p) :
    ∀ (lns : List (List Char)) (st : RenderLoopState),
      (∀ l ∈ lns, '<' ∉ l) → st.inPre = false →
      (∀ l ∈ st.tableBuffer, isMdTableRow l = true) →
      mu p (lns.foldl procLine st) = mu p st + (lns.map (cnt p)).sum ∧
        (lns.foldl procLine st).inPre = false ∧
        ∀ l ∈ (lns.foldl procLine st).tableBuffer, isMdTableRow l = true := by
  intro lns
  induction lns with
  | nil =>
    intro st _ hpre htb
    exact ⟨by simp, hpre, htb⟩
  | cons l ls ih =>
    intro st hlt hpre htb
    rw [List.foldl_cons]
    obtain ⟨hmu1, hpre1, htb1⟩ :=
      procLine_mu hP st l (hlt l (List.mem_cons_self _ _)) hpre htb
    obtain ⟨hmu2, hpre2, htb2⟩ := ih (procLine st l)
      (fun l2 hl2 => hlt l2 (List.mem_cons_of_mem _ hl2)) hpre1 htb1
    refine ⟨?_, hpre2, htb2⟩
    rw [hmu2, hmu1]
    simp only [List.map_cons, List.sum_cons]
    omega

/-- The whole pre-palette pipeline creates and destroys no entity
occurrences when the input has no code fences. -/
theorem cnt_renderCore {p : List Char} (hP : CntPat p) (t : List Char)
    (hb : btick ∉ t) : cnt p (renderCore t) = cnt p (escapeHtml t) := by
  unfold renderCore
  dsimp only
  rw [codeBlockPass_id (btick_notin_escapeHtml t hb)]
  rw [inlineCodePass_id (btick_notin_escapeHtml t hb)]
  have hlines : ∀ l ∈ splitChar '\n' (escapeHtml t), '<' ∉ l := by
    intro l hl hmem
    exact lt_notin_escapeHtml t (mem_of_mem_splitChar hl hmem)
  obtain ⟨hmu, hpreF, htbF⟩ := foldl_procLine_mu hP
    (splitChar '\n' (escapeHtml t)) ⟨[], false, false, [], false⟩ hlines rfl
    (by intro l hl; exact absurd hl (List.not_mem_nil _))
  set stF := (splitChar '\n' (escapeHtml t)).foldl procLine
    ⟨[], false, false, [], false⟩ with hstF
  set s2 := if stF.tableBuffer ≠ [] then { stF with out := stF.out ++ flushTableHtml stF.tableBuffer, tableBuffer := [] } else stF with hs2
  obtain ⟨f1, f2, -, -, -⟩ := flushStep_spec hP stF s2 htbF hs2
  obtain ⟨hcmu, hctb, -⟩ := closeListsOut_spec hP s2
  have hout : cnt p (closeListsOut s2).out = mu p (closeListsOut s2) := by
    unfold mu
    rw [hctb, f2]
    simp
  rw [hout, hcmu, f1, hmu]
  rw [show mu p (⟨[], false, false, [], false⟩ : RenderLoopState) = 0 from rfl]
  rw [cnt_splitChar '\n' hP.ne_nil hP.nl_notin]
  omega

/-! ### C7: escaping exactly once -/

/-- A fenced code block restores (unescapes) its content (line 816): the
`<` inside the fences reaches the output raw, with no `&lt;` at all, so
unsafe characters are not escaped under every markdown construct. -/
theorem renderContentToHtml_escape_counterexample :
    ((("```<```").toList).count '<' = 1 ∧
      cnt (("&lt;").toList) (renderContentToHtml (("```<```").toList)) = 0) ∧
    renderContentToHtml (("```<```").toList) =
      ("<pre><code><</code></pre>").toList := by
  decide

/-- C7 (amended): for input without code fences (backticks) and on which
the palette pass appends nothing, every `&`, `<`, `>` of the raw text
appears exactly once as its entity in the rendered output — across
paragraphs, lists, headings, emphasis and tables. -/
theorem renderContentToHtml_escapes_exactly_once (t : List Char)
    (hb : btick ∉ t)
    (hpal : paletteSuffix t (renderCore t) = []) :
    cnt (("&amp;").toList) (renderContentToHtml t) = t.count '&' ∧
    cnt (("&lt;").toList) (renderContentToHtml t) = t.count '<' ∧
    cnt (("&gt;").toList) (renderContentToHtml t) = t.count '>' := by
  have hren : renderContentToHtml t = renderCore t := by
    unfold renderContentToHtml
    by_cases ht : t = []
    · rw [if_pos ht, ht]
      decide
    · rw [if_neg ht, hpal, List.append_nil]
  obtain ⟨e1, e2, e3⟩ := cnt_escapeHtml t
  rw [hren]
  exact ⟨(cnt_renderCore cntPat_amp t hb).trans e1,
    (cnt_renderCore cntPat_lt t hb).trans e2,
    (cnt_renderCore cntPat_gt t hb).trans e3⟩

theorem renderContentToHtml_escapes_exactly_once_witness :
    (btick ∉ (("a < b & **c** > d\n# T2\n- x\n1. y\n|a|b|\n|--|--|\n|1&|2|").toList) ∧
      paletteSuffix (("a < b & **c** > d\n# T2\n- x\n1. y\n|a|b|\n|--|--|\n|1&|2|").toList)
        (renderCore (("a < b & **c** > d\n# T2\n- x\n1. y\n|a|b|\n|--|--|\n|1&|2|").toList)) = []) ∧
    cnt (("&lt;").toList)
      (renderContentToHtml (("a < b & **c** > d\n# T2\n- x\n1. y\n|a|b|\n|--|--|\n|1&|2|").toList)) =
      (("a < b & **c** > d\n# T2\n- x\n1. y\n|a|b|\n|--|--|\n|1&|2|").toList).count '<' :=
  ⟨⟨by decide, by decide⟩,
    (renderContentToHtml_escapes_exactly_once
      (("a < b & **c** > d\n# T2\n- x\n1. y\n|a|b|\n|--|--|\n|1&|2|").toList)
      (by decide) (by decide)).2.1⟩

/-! ### C8: the color-swatch table -/

theorem splitChar_eq_single {sep : Char} : ∀ {l : List Char}, sep ∉ l →
    splitChar sep l = [l] := by
  intro l
  induction l with
  | nil => intro _; rfl
  | cons c rest ih =>
    intro h
    rw [splitChar, if_neg (show ¬ (c = sep) from
      fun he => h (by rw [← he]; exact List.mem_cons_self _ _))]
    rw [ih (fun hm => h (List.mem_cons_of_mem _ hm))]

theorem splitChar_append_sep {sep : Char} :
    ∀ {l : List Char}, sep ∉ l → ∀ x : List Char,
      splitChar sep (l ++ sep :: x) = l :: splitChar sep x := by
  intro l
  induction l with
  | nil =>
    intro _ x
    rw [List.nil_append, splitChar, if_pos rfl]
  | cons c rest ih =>
    intro h x
    rw [List.cons_append, splitChar, if_neg (show ¬ (c = sep) from
      fun he => h (by rw [← he]; exact List.mem_cons_self _ _))]
    rw [ih (fun hm => h (List.mem_cons_of_mem _ hm)) x]

theorem splitChar_intercalate_inv {sep : Char} :
    ∀ parts : List (List Char), parts ≠ [] → (∀ l ∈ parts, sep ∉ l) →
      splitChar sep (intercalateChar sep parts) = parts := by
  intro parts
  induction parts with
  | nil => intro h _; exact absurd rfl h
  | cons l ls ih =>
    intro _ hall
    cases ls with
    | nil =>
      show splitChar sep l = [l]
      exact splitChar_eq_single (hall l (List.mem_cons_self _ _))
    | cons l2 ls2 =>
      rw [show intercalateChar sep (l :: l2 :: ls2) =
          l ++ sep :: intercalateChar sep (l2 :: ls2) from rfl]
      rw [splitChar_append_sep (hall l (List.mem_cons_self _ _))]
      rw [ih (by simp) (fun l3 hl3 => hall l3 (List.mem_cons_of_mem _ hl3))]

theorem mem_intercalateChar {sep : Char} {c : Char} :
    ∀ {parts : List (List Char)}, c ∈ intercalateChar sep parts →
      c = sep ∨ ∃ l ∈ parts, c ∈ l := by
  intro parts
  induction parts with
  | nil => intro h; exact absurd h (List.not_mem_nil _)
  | cons l ls ih =>
    intro h
    cases ls with
    | nil =>
      exact Or.inr ⟨l, List.mem_cons_self _ _, h⟩
    | cons l2 ls2 =>
      rw [show intercalateChar sep (l :: l2 :: ls2) =
          l ++ sep :: intercalateChar sep (l2 :: ls2) from rfl] at h
      rcases List.mem_append.mp h with h | h
      · exact Or.inr ⟨l, List.mem_cons_self _ _, h⟩
      · rcases List.mem_cons.mp h with rfl | h
        · exact Or.inl rfl
        · rcases ih h with h | ⟨l3, hl3, hc3⟩
          · exact Or.inl h
          · exact Or.inr ⟨l3, List.mem_cons_of_mem _ hl3, hc3⟩

/-- Characters allowed in a palette label for the amended swatch claim:
anything (whitespace and digits included) except the separator characters
of the extraction regex, the table / dedup-key separator `|`, the
markdown and HTML-escaped specials, and the line separator.  Edge
conditions (no leading/trailing whitespace, no ordered-list shape) are
stated separately in `goodName` and `goodPalettePair`. -/
def goodNameChar (c : Char) : Bool :=
  !(c == ':') && !(c == '-') && !(c == '–') && !(c == '|') && !(c == '&') &&
  !(c == '<') && !(c == '>') && !(c == '*') && !(c == '•') && !(c == '#') &&
  !(c == btick) && !(c == '\n')

/-- A palette label: nonempty, made of `goodNameChar`s, and neither
beginning nor ending with whitespace (interior whitespace is allowed, as
in `Sky Blue`). -/
def goodName (n : List Char) : Bool :=
  decide (n ≠ []) && n.all goodNameChar &&
    !((n.head?.map Char.isWhitespace).getD true) &&
    !((n.getLast?.map Char.isWhitespace).getD true)

def goodHex (h : List Char) : Bool := decide (h.length = 6) && h.all isHexDigit

/-- One `name: #RRGGBB` input line. -/
def paletteLine (pr : List Char × List Char) : List Char :=
  pr.1 ++ (": #").toList ++ pr.2

/-- A well-formed palette pair: good label and hex, and the line it forms
does not look like an ordered-list item (a label such as `12. x` would be
list-stripped by the renderer instead of forming a paragraph). -/
def goodPalettePair (pr : List Char × List Char) : Bool :=
  goodName pr.1 && goodHex pr.2 && !(isOLStart (paletteLine pr))

/-- The row the code actually extracts from `name: #RRGGBB`: the name and
`#` followed by the first THREE hex digits, uppercased (the `{3}|{6}`
alternation never reaches the six-digit branch). -/
def paletteExpectedRow (pr : List Char × List Char) : List Char × List Char :=
  (pr.1, '#' :: ((pr.2.take 3).map Char.toUpper))

theorem goodNameChar_spec {c : Char} (h : goodNameChar c = true) :
    c ≠ ':' ∧ c ≠ '-' ∧ c ≠ '–' ∧ c ≠ '|' ∧ c ≠ '&' ∧ c ≠ '<' ∧ c ≠ '>' ∧
      c ≠ '*' ∧ c ≠ '•' ∧ c ≠ '#' ∧ c ≠ btick ∧ c ≠ '\n' := by
  unfold goodNameChar at h
  simp only [Bool.and_eq_true, Bool.not_eq_true', beq_eq_false_iff_ne] at h
  refine ⟨?_, ?_, ?_, ?_, ?_, ?_, ?_, ?_, ?_, ?_, ?_, ?_⟩ <;> tauto

theorem goodName_spec {n : List Char} (h : goodName n = true) :
    n ≠ [] ∧ (∀ c ∈ n, goodNameChar c = true) ∧
      (∀ c, n.head? = some c → c.isWhitespace = false) ∧
      (∀ c, n.getLast? = some c → c.isWhitespace = false) := by
  unfold goodName at h
  rw [Bool.and_eq_true, Bool.and_eq_true, Bool.and_eq_true,
    decide_eq_true_eq, List.all_eq_true] at h
  obtain ⟨⟨⟨h1, h2⟩, h3⟩, h4⟩ := h
  refine ⟨h1, h2, ?_, ?_⟩
  · intro c hc
    rw [hc] at h3
    simpa using h3
  · intro c hc
    rw [hc] at h4
    simpa using h4

theorem goodPalettePair_spec {pr : List Char × List Char}
    (h : goodPalettePair pr = true) :
    goodName pr.1 = true ∧ goodHex pr.2 = true ∧
      isOLStart (paletteLine pr) = false := by
  unfold goodPalettePair at h
  rw [Bool.and_eq_true, Bool.and_eq_true] at h
  exact ⟨h.1.1, h.1.2, by simpa using h.2⟩

/-- One source line of the swatch input: either a palette pair rendered
as `name: #RRGGBB`, or an ordinary prose line kept as is. -/
def swatchSrcLine : (List Char × List Char) ⊕ List Char → List Char
  | Sum.inl pr => paletteLine pr
  | Sum.inr l => l

/-- The whole input: the source lines joined by newlines. -/
def swatchText (items : List ((List Char × List Char) ⊕ List Char)) :
    List Char :=
  intercalateChar '\n' (items.map swatchSrcLine)

/-- The palette pairs of the input, in order. -/
def palettePairs : List ((List Char × List Char) ⊕ List Char) →
    List (List Char × List Char)
  | [] => []
  | Sum.inl pr :: rest => pr :: palettePairs rest
  | Sum.inr _ :: rest => palettePairs rest

theorem isHexDigit_spec {c : Char} (h : isHexDigit c = true) :
    c.isWhitespace = false ∧ c ≠ '|' ∧ c ≠ '<' ∧ c ≠ '&' ∧ c ≠ '>' ∧
      c ≠ '*' ∧ c ≠ '\n' ∧ c ≠ btick := by
  refine ⟨?_, ?_, ?_, ?_, ?_, ?_, ?_, ?_⟩
  · by_contra hws
    have hws2 : c.isWhitespace = true := by
      cases hq : c.isWhitespace
      · exact absurd hq hws
      · rfl
    simp only [Char.isWhitespace, Bool.or_eq_true, decide_eq_true_eq] at hws2
    rcases hws2 with ((rfl | rfl) | rfl) | rfl <;> exact absurd h (by decide)
  · intro rfl2
    rw [rfl2] at h
    exact absurd h (by decide)
  · intro rfl2
    rw [rfl2] at h
    exact absurd h (by decide)
  · intro rfl2
    rw [rfl2] at h
    exact absurd h (by decide)
  · intro rfl2
    rw [rfl2] at h
    exact absurd h (by decide)
  · intro rfl2
    rw [rfl2] at h
    exact absurd h (by decide)
  · intro rfl2
    rw [rfl2] at h
    exact absurd h (by decide)
  · intro rfl2
    rw [rfl2] at h
    exact absurd h (by decide)

theorem dropWhile_eq_self_of_head {l : List Char} {q : Char → Bool}
    (h : ∀ c, l.head? = some c → q c = false) : l.dropWhile q = l := by
  cases l with
  | nil => rfl
  | cons c rest =>
    refine List.dropWhile_cons_of_neg ?_
    rw [h c rfl]
    exact Bool.false_ne_true

theorem getLast?_append_right {x y : List Char} (h : y ≠ []) :
    (x ++ y).getLast? = y.getLast? := by
  induction x with
  | nil => rfl
  | cons c x2 ih =>
    rw [List.cons_append]
    cases hxy : x2 ++ y with
    | nil =>
      rcases List.append_eq_nil.mp hxy with ⟨-, h2⟩
      exact absurd h2 h
    | cons a b =>
      rw [List.getLast?_cons_cons, ← hxy, ih]

theorem trimChars_eq_self_of_ends {l : List Char}
    (h1 : ∀ c, l.head? = some c → c.isWhitespace = false)
    (h2 : ∀ c, l.getLast? = some c → c.isWhitespace = false) :
    trimChars l = l := by
  unfold trimChars
  rw [dropWhile_eq_self_of_head h1]
  rw [dropWhile_eq_self_of_head (by
    intro c hc
    refine h2 c ?_
    rw [← List.head?_reverse]
    exact hc)]
  exact List.reverse_reverse l

theorem escapeHtml_id {s : List Char}
    (h : ∀ c ∈ s, c ≠ '&' ∧ c ≠ '<' ∧ c ≠ '>') : escapeHtml s = s := by
  induction s with
  | nil => rfl
  | cons c rest ih =>
    obtain ⟨h1, h2, h3⟩ := h c (List.mem_cons_self _ _)
    rw [escapeHtml_cons, show escChar c = [c] from by simp [escChar, h1, h2, h3]]
    rw [ih (fun c2 hc2 => h c2 (List.mem_cons_of_mem _ hc2))]
    rfl

theorem replaceStrongF_id : ∀ (fuel : Nat) {s : List Char}, '*' ∉ s →
    replaceStrongF fuel s = s := by
  intro fuel
  induction fuel with
  | zero => intro s _; rfl
  | succ fuel ih =>
    intro s hs
    cases s with
    | nil => rfl
    | cons c rest =>
      rw [replaceStrongF]
      dsimp only
      rw [if_neg (show ¬ (c = '*' ∧ hasPre ['*'] rest = true) from
        fun hcond => hs (by rw [← hcond.1]; exact List.mem_cons_self _ _))]
      rw [ih (fun hm => hs (List.mem_cons_of_mem _ hm))]

theorem replaceEmF_id : ∀ (fuel : Nat) {s : List Char}, '*' ∉ s →
    replaceEmF fuel s = s := by
  intro fuel
  induction fuel with
  | zero => intro s _; rfl
  | succ fuel ih =>
    intro s hs
    cases s with
    | nil => rfl
    | cons c rest =>
      rw [replaceEmF]
      dsimp only
      rw [if_neg (show ¬ (c = '*') from
        fun hcond => hs (by rw [← hcond]; exact List.mem_cons_self _ _))]
      rw [ih (fun hm => hs (List.mem_cons_of_mem _ hm))]

theorem fmtEmphasis_id {s : List Char} (hs : '*' ∉ s) : fmtEmphasis s = s := by
  unfold fmtEmphasis replaceStrong replaceEm
  rw [replaceStrongF_id _ hs, replaceEmF_id _ hs]

/-- A line that every markdown branch of the loop leaves as a plain
paragraph. -/
def PlainLine (line : List Char) : Prop :=
  trimChars line = line ∧ line ≠ [] ∧ '<' ∉ line ∧ '&' ∉ line ∧ '>' ∉ line ∧
  btick ∉ line ∧ '\n' ∉ line ∧ '*' ∉ line ∧ isMdTableRow line = false ∧
  isULStart line = false ∧ isOLStart line = false ∧ isHeading line = false

/-- Well-formedness of one input item: a palette item is a good pair; a
prose item is a plain paragraph line containing no `#` (so the color
scan extracts nothing from it). -/
def SwatchItemOk : (List Char × List Char) ⊕ List Char → Prop
  | Sum.inl pr => goodPalettePair pr = true
  | Sum.inr l => PlainLine l ∧ '#' ∉ l

instance (it : (List Char × List Char) ⊕ List Char) :
    Decidable (SwatchItemOk it) := by
  cases it with
  | inl pr => exact inferInstanceAs (Decidable (goodPalettePair pr = true))
  | inr l =>
    exact inferInstanceAs (Decidable ((trimChars l = l ∧ l ≠ [] ∧
      '<' ∉ l ∧ '&' ∉ l ∧ '>' ∉ l ∧ btick ∉ l ∧ '\n' ∉ l ∧ '*' ∉ l ∧
      isMdTableRow l = false ∧ isULStart l = false ∧ isOLStart l = false ∧
      isHeading l = false) ∧ '#' ∉ l))

theorem procLine_plain (o : List Char) (line : List Char)
    (htrim : trimChars line = line) (hne : line ≠ []) (hlt : '<' ∉ line)
    (hrow : isMdTableRow line = false) (hul : isULStart line = false)
    (hol : isOLStart line = false) (hhd : isHeading line = false) :
    procLine ⟨o, false, false, [], false⟩ line =
      ⟨o ++ ("<p>").toList ++ fmtEmphasis line ++ ("</p>").toList,
        false, false, [], false⟩ := by
  unfold procLine
  dsimp only
  rw [htrim]
  rw [if_neg hne]
  have hcs : containsSub (("<pre><code").toList) line = false :=
    containsSub_eq_false_of_head_notin (by rfl) hlt
  rw [if_neg (show ¬ (containsSub (("<pre><code").toList) line = true) from by
    rw [hcs]; simp)]
  rw [if_neg (show ¬ ((⟨o, false, false, [], false⟩ :
    RenderLoopState).inPre = true) from by simp)]
  rw [if_neg (show ¬ (isMdTableRow line = true) from by rw [hrow]; simp)]
  rw [if_neg (show ¬ ((⟨o, false, false, [], false⟩ :
    RenderLoopState).tableBuffer ≠ []) from by simp)]
  rw [if_neg (show ¬ (isULStart line = true) from by rw [hul]; simp)]
  rw [if_neg (show ¬ (isOLStart line = true) from by rw [hol]; simp)]
  rw [if_neg (show ¬ (isHeading line = true) from by rw [hhd]; simp)]
  rfl

theorem foldl_procLine_plain :
    ∀ (lns : List (List Char)) (o : List Char), (∀ l ∈ lns, PlainLine l) →
      lns.foldl procLine ⟨o, false, false, [], false⟩ =
        ⟨o ++ lns.flatMap (fun l => ("<p>").toList ++ l ++ ("</p>").toList),
          false, false, [], false⟩ := by
  intro lns
  induction lns with
  | nil =>
    intro o _
    simp
  | cons l ls ih =>
    intro o hall
    rw [List.foldl_cons]
    obtain ⟨htrim, hne, hlt, hamp, hgt, hbt, hnl, hstar, hrow, hul, hol, hhd⟩ :=
      hall l (List.mem_cons_self _ _)
    rw [procLine_plain o l htrim hne hlt hrow hul hol hhd]
    rw [fmtEmphasis_id hstar]
    rw [ih _ (fun l2 h2 => hall l2 (List.mem_cons_of_mem _ h2))]
    simp [List.append_assoc]

theorem renderCore_paragraphs (lns : List (List Char)) (hne : lns ≠ [])
    (hall : ∀ l ∈ lns, PlainLine l) :
    renderCore (intercalateChar '\n' lns) =
      lns.flatMap (fun l => ("<p>").toList ++ l ++ ("</p>").toList) := by
  have hchars : ∀ c ∈ intercalateChar '\n' lns,
      c = '\n' ∨ ∃ l ∈ lns, c ∈ l := fun c hc => mem_intercalateChar hc
  have hesc : escapeHtml (intercalateChar '\n' lns) =
      intercalateChar '\n' lns := by
    refine escapeHtml_id ?_
    intro c hc
    rcases hchars c hc with rfl | ⟨l, hl, hcl⟩
    · exact ⟨by decide, by decide, by decide⟩
    · obtain ⟨-, -, h3, h4, h5, -⟩ := hall l hl
      refine ⟨fun he => h4 (by rw [← he]; exact hcl),
        fun he => h3 (by rw [← he]; exact hcl),
        fun he => h5 (by rw [← he]; exact hcl)⟩
  have hbtick : btick ∉ intercalateChar '\n' lns := by
    intro hb
    rcases hchars btick hb with he | ⟨l, hl, hcl⟩
    · exact absurd he (by decide)
    · obtain ⟨-, -, -, -, -, h6, -⟩ := hall l hl
      exact h6 hcl
  unfold renderCore
  dsimp only
  rw [hesc, codeBlockPass_id hbtick, inlineCodePass_id hbtick]
  rw [splitChar_intercalate_inv lns hne (fun l hl => by
    obtain ⟨-, -, -, -, -, -, h7, -⟩ := hall l hl
    exact h7)]
  rw [foldl_procLine_plain lns [] hall]
  rw [if_neg (show ¬ ((⟨[] ++ lns.flatMap
    (fun l => ("<p>").toList ++ l ++ ("</p>").toList),
    false, false, [], false⟩ : RenderLoopState).tableBuffer ≠ []) from by simp)]
  exact List.nil_append _

theorem cnt_table_paragraphs :
    ∀ (lns : List (List Char)), (∀ l ∈ lns, '<' ∉ l) →
      cnt (("<table").toList)
        (lns.flatMap (fun l => ("<p>").toList ++ l ++ ("</p>").toList)) = 0 := by
  intro lns
  induction lns with
  | nil => intro _; rfl
  | cons l ls ih =>
    intro hall
    rw [List.flatMap_cons]
    have e1 : (("<p>").toList ++ l ++ ("</p>").toList) ++
        ls.flatMap (fun l => ("<p>").toList ++ l ++ ("</p>").toList) =
        '<' :: 'p' :: '>' :: (l ++ ('<' :: '/' :: 'p' :: '>' ::
          ls.flatMap (fun l => ("<p>").toList ++ l ++ ("</p>").toList))) := by
      rw [show ("<p>").toList = ['<', 'p', '>'] from rfl,
        show ("</p>").toList = ['<', '/', 'p', '>'] from rfl]
      simp [List.append_assoc]
    rw [e1]
    have hp1 : ∀ Y : List Char,
        hasPre (("<table").toList) ('<' :: 'p' :: Y) = false := by
      intro Y
      rw [show hasPre (("<table").toList) ('<' :: 'p' :: Y) =
          (('<' == '<') && (('t' == 'p') && hasPre (("able").toList) Y)) from rfl]
      rw [show (('t' : Char) == 'p') = false from by decide]
      simp
    have hp2 : ∀ Y : List Char,
        hasPre (("<table").toList) ('<' :: '/' :: Y) = false := by
      intro Y
      rw [show hasPre (("<table").toList) ('<' :: '/' :: Y) =
          (('<' == '<') && (('t' == '/') && hasPre (("able").toList) Y)) from rfl]
      rw [show (('t' : Char) == '/') = false from by decide]
      simp
    have hcons : ∀ (c : Char) (x : List Char), c ∉ (("<table").toList) →
        cnt (("<table").toList) (c :: x) = cnt (("<table").toList) x :=
      fun c x hc => cnt_cons_notin x (by decide) hc
    have e2 : ∀ Y, cnt (("<table").toList) ('<' :: 'p' :: Y) =
        cnt (("<table").toList) ('p' :: Y) := by
      intro Y
      rw [show cnt (("<table").toList) ('<' :: 'p' :: Y) =
          (if hasPre (("<table").toList) ('<' :: 'p' :: Y) then 1 else 0) +
            cnt (("<table").toList) ('p' :: Y) from rfl]
      rw [hp1 Y]
      simp
    have e3 : ∀ Y, cnt (("<table").toList) ('<' :: '/' :: Y) =
        cnt (("<table").toList) ('/' :: Y) := by
      intro Y
      rw [show cnt (("<table").toList) ('<' :: '/' :: Y) =
          (if hasPre (("<table").toList) ('<' :: '/' :: Y) then 1 else 0) +
            cnt (("<table").toList) ('/' :: Y) from rfl]
      rw [hp2 Y]
      simp
    rw [e2, hcons 'p' _ (by decide), hcons '>' _ (by decide)]
    rw [cnt_append_amp _ (by rfl) (hall l (List.mem_cons_self _ _))]
    rw [e3, hcons '/' _ (by decide), hcons 'p' _ (by decide),
      hcons '>' _ (by decide)]
    exact ih (fun l2 h2 => hall l2 (List.mem_cons_of_mem _ h2))

theorem containsSub_table_paragraphs (lns : List (List Char))
    (h : ∀ l ∈ lns, '<' ∉ l) :
    containsSub (("<table").toList)
      (lns.flatMap (fun l => ("<p>").toList ++ l ++ ("</p>").toList)) = false :=
  (containsSub_eq_false_iff_cnt (by decide)).mpr (cnt_table_paragraphs lns h)

theorem mem_of_getLast?_eq {l : List Char} {c : Char}
    (h : l.getLast? = some c) : c ∈ l := by
  cases l with
  | nil => exact Option.noConfusion h
  | cons a rest =>
    have hne : a :: rest ≠ [] := by simp
    rw [List.getLast?_eq_getLast _ hne] at h
    have h2 : (a :: rest).getLast hne = c := by simpa using h
    rw [← h2]
    exact List.getLast_mem hne

theorem paletteSearch_spec (s : List Char) (j0 h0 : Nat)
    (hnone : ∀ k, k < j0 → paletteTryAt s k = none)
    (hsome : paletteTryAt s j0 = some h0) :
    ∀ fuel i, i ≤ j0 → j0 - i < fuel → j0 ≤ s.length →
      paletteSearch s i fuel = some (j0, h0) := by
  intro fuel
  induction fuel with
  | zero => intro i _ h _; omega
  | succ fuel ih =>
    intro i hi hlt hj0
    rw [paletteSearch]
    by_cases he : i = j0
    · subst he
      rw [hsome]
    · rw [hnone i (by omega)]
      rw [if_pos (show i < s.length from by omega)]
      exact ih (i + 1) (by omega) (by omega) hj0

theorem skipWs_eq_self {s : List Char} {k : Nat} {c : Char} {t : List Char}
    (hd : s.drop k = c :: t) (hw : c.isWhitespace = false) :
    skipWs s k = k := by
  unfold skipWs
  rw [hd, List.takeWhile_cons_of_neg (by rw [hw]; exact Bool.false_ne_true)]
  rfl

theorem skipWs_cons_pos {s : List Char} {k : Nat} {c : Char} {t : List Char}
    (hd : s.drop k = c :: t) (hw : c.isWhitespace = true) :
    skipWs s k = skipWs s (k + 1) := by
  have hd1 : s.drop (k + 1) = t := by
    have h1 := congrArg (List.drop 1) hd
    rw [List.drop_drop] at h1
    simpa using h1
  unfold skipWs
  rw [hd, hd1, List.takeWhile_cons_of_pos (by rw [hw])]
  simp only [List.length_cons]
  omega

/-- Whitespace skipping started inside a label whose last character is
not whitespace lands on a non-whitespace character of the label. -/
theorem skipWs_in_name (n rest : List Char)
    (hlast : ∀ c, n.getLast? = some c → c.isWhitespace = false) :
    ∀ fuel k, n.length - k ≤ fuel → k < n.length →
      ∃ c t, (n ++ rest).drop (skipWs (n ++ rest) k) = c :: t ∧ c ∈ n ∧
        c.isWhitespace = false := by
  intro fuel
  induction fuel with
  | zero => intro k h1 h2; omega
  | succ fuel ih =>
    intro k h1 h2
    obtain ⟨c0, t0, hd⟩ : ∃ c0 t0, n.drop k = c0 :: t0 := by
      cases hdq : n.drop k with
      | nil =>
        have hlen := congrArg List.length hdq
        rw [List.length_drop] at hlen
        simp at hlen
        omega
      | cons c r2 => exact ⟨c, r2, rfl⟩
    have hc0 : c0 ∈ n := by
      have hm : c0 ∈ n.drop k := by
        rw [hd]
        exact List.mem_cons_self _ _
      exact List.mem_of_mem_drop hm
    have hdk : (n ++ rest).drop k = c0 :: (t0 ++ rest) := by
      rw [List.drop_append_of_le_length (by omega), hd, List.cons_append]
    cases hwc : c0.isWhitespace with
    | false =>
      refine ⟨c0, t0 ++ rest, ?_, hc0, hwc⟩
      rw [skipWs_eq_self hdk hwc, hdk]
    | true =>
      have hkne : k + 1 ≠ n.length := by
        intro he
        have ht0 : t0 = [] := by
          have hlen := congrArg List.length hd
          rw [List.length_drop] at hlen
          simp at hlen
          have : t0.length = 0 := by omega
          exact List.length_eq_zero.mp this
        have hgl : n.getLast? = some c0 := by
          have hsplit : n.take k ++ [c0] = n := by
            have := List.take_append_drop k n
            rw [hd, ht0] at this
            exact this
          rw [← hsplit, getLast?_append_right (by simp)]
          rfl
        rw [hlast c0 hgl] at hwc
        exact Bool.noConfusion hwc
      have hlt : k + 1 < n.length := by omega
      rw [skipWs_cons_pos hdk hwc]
      exact ih (k + 1) (by omega) hlt

theorem paletteTryAt_name_none (n rest : List Char) (k : Nat)
    (hall : ∀ c ∈ n, goodNameChar c = true)
    (hlast : ∀ c, n.getLast? = some c → c.isWhitespace = false)
    (hk : k < n.length) :
    paletteTryAt (n ++ rest) k = none := by
  obtain ⟨c0, t0, hdj, hc0, -⟩ :=
    skipWs_in_name n rest hlast (n.length - k) k (le_refl _) hk
  obtain ⟨hc1, hc2, hc3, -⟩ := goodNameChar_spec (hall c0 hc0)
  unfold paletteTryAt
  dsimp only
  rw [hdj, List.head?_cons]
  split
  · rename_i sep hsep
    have hsc : c0 = sep := by
      injection hsep with h2
    subst hsc
    rw [if_neg (show ¬ (c0 = ':' ∨ c0 = '-' ∨ c0 = '–') from by
      rintro (h | h | h)
      exacts [hc1 h, hc2 h, hc3 h])]
  · rfl

theorem paletteTryAt_name_some (n hx : List Char)
    (hhexlen : hx.length = 6) (hhexall : ∀ c ∈ hx, isHexDigit c = true) :
    paletteTryAt (n ++ ((": #").toList ++ hx)) n.length =
      some (n.length + 2) := by
  have hd0 : (n ++ ((": #").toList ++ hx)).drop n.length =
      ':' :: ' ' :: '#' :: hx := by
    rw [List.drop_append_of_le_length (le_refl _), List.drop_length,
      List.nil_append]
    rfl
  have hd1 : (n ++ ((": #").toList ++ hx)).drop (n.length + 1) =
      ' ' :: '#' :: hx := by
    have h1 := congrArg (List.drop 1) hd0
    rw [List.drop_drop] at h1
    exact h1
  have hd2 : (n ++ ((": #").toList ++ hx)).drop (n.length + 2) =
      '#' :: hx := by
    have h1 := congrArg (List.drop 2) hd0
    rw [List.drop_drop] at h1
    exact h1
  have hd3 : (n ++ ((": #").toList ++ hx)).drop (n.length + 2 + 1) = hx := by
    have h1 := congrArg (List.drop 3) hd0
    rw [List.drop_drop] at h1
    rw [show n.length + 2 + 1 = n.length + 3 from by omega]
    exact h1
  unfold paletteTryAt
  dsimp only
  have hskip0 : skipWs (n ++ ((": #").toList ++ hx)) n.length = n.length := by
    unfold skipWs
    rw [hd0]
    rw [List.takeWhile_cons_of_neg (by decide)]
    simp
  have hskip1 : skipWs (n ++ ((": #").toList ++ hx)) (n.length + 1) =
      n.length + 2 := by
    unfold skipWs
    rw [hd1]
    rw [List.takeWhile_cons_of_pos (by decide)]
    rw [List.takeWhile_cons_of_neg (by decide)]
    simp
  rw [hskip0, hd0, List.head?_cons]
  split
  · rename_i sep hsep
    have hsc : (':' : Char) = sep := by
      injection hsep with h2
    subst hsc
    rw [if_pos (show (':' : Char) = ':' ∨ (':' : Char) = '-' ∨
        (':' : Char) = '–' from Or.inl rfl)]
    rw [hskip1, hd2, hd3]
    rw [if_pos ?hcond]
    case hcond =>
      refine ⟨rfl, ?_, ?_⟩
      · rw [List.length_take, hhexlen]
        decide
      · rw [List.all_eq_true]
        intro c hc
        exact hhexall c ((List.take_sublist 3 hx).subset hc)
  · rename_i hsep
    exact Option.noConfusion hsep

theorem paletteMatchLine_spec (pr : List Char × List Char)
    (hn : goodName pr.1 = true) (hh : goodHex pr.2 = true) :
    paletteMatchLine (paletteLine pr) = some (pr.1, '#' :: pr.2.take 3) := by
  obtain ⟨n, hx⟩ := pr
  obtain ⟨hnne, hgood, hhead, hlastn⟩ := goodName_spec hn
  have hhex : hx.length = 6 ∧ ∀ c ∈ hx, isHexDigit c = true := by
    unfold goodHex at hh
    rw [Bool.and_eq_true, decide_eq_true_eq, List.all_eq_true] at hh
    exact hh
  obtain ⟨hxlen, hxall⟩ := hhex
  obtain ⟨n0, n2, rfl⟩ : ∃ n0 n2, n = n0 :: n2 := by
    cases n with
    | nil => exact absurd rfl hnne
    | cons a b => exact ⟨a, b, rfl⟩
  have hws0c : n0.isWhitespace = false := hhead n0 rfl
  obtain ⟨-, hcd, -, -, -, -, -, hcs, -, -, -, -⟩ :=
    goodNameChar_spec (hgood n0 (List.mem_cons_self _ _))
  have hline : paletteLine (n0 :: n2, hx) =
      (n0 :: n2) ++ ((": #").toList ++ hx) := by
    unfold paletteLine
    rw [List.append_assoc]
  have hlen : (((n0 :: n2) ++ ((": #").toList ++ hx))).length =
      (n0 :: n2).length + (3 + hx.length) := by
    simp
    omega
  unfold paletteMatchLine
  dsimp only
  rw [hline]
  have hws0 : (((n0 :: n2) ++ ((": #").toList ++ hx)).takeWhile
      (fun c => c.isWhitespace)).length = 0 := by
    rw [List.cons_append]
    rw [List.takeWhile_cons_of_neg (by rw [hws0c]; exact Bool.false_ne_true)]
    rfl
  rw [hws0]
  rw [List.drop_zero]
  rw [show (((n0 :: n2) ++ ((": #").toList ++ hx))).head? = some n0 from rfl]
  have hsearch : paletteSearch ((n0 :: n2) ++ ((": #").toList ++ hx)) 0
      ((((n0 :: n2) ++ ((": #").toList ++ hx))).length + 1 - 0) =
      some ((n0 :: n2).length, (n0 :: n2).length + 2) := by
    refine paletteSearch_spec _ _ _ ?_ ?_ _ 0 (by omega) ?_ ?_
    · intro k hk
      exact paletteTryAt_name_none (n0 :: n2) _ k hgood hlastn hk
    · exact paletteTryAt_name_some (n0 :: n2) hx hxlen hxall
    · rw [hlen]
      omega
    · rw [hlen]
      omega
  split
  · rename_i r hr
    split at hr
    · rename_i c hc
      have hnc : n0 = c := by injection hc with h2
      subst hnc
      rw [if_neg (show ¬ (n0 = '-' ∨ n0 = '*') from by
        rintro h2
        rcases h2 with h2 | h2
        exacts [hcd h2, hcs h2])] at hr
      exact Option.noConfusion hr
    · rename_i hc
      exact Option.noConfusion hc
  · rw [hsearch]
    split
    · rename_i i h hih
      simp only [Option.some.injEq, Prod.mk.injEq] at hih
      obtain ⟨h4, h5⟩ := hih
      subst h4
      subst h5
      rw [Nat.sub_zero]
      rw [show ((n0 :: n2) ++ ((": #").toList ++ hx)).take (n0 :: n2).length =
        n0 :: n2 from List.take_left _ _]
      rw [show ((n0 :: n2) ++ ((": #").toList ++ hx)).drop
          ((n0 :: n2).length + 2 + 1) = hx from by
        have h0 : ((n0 :: n2) ++ ((": #").toList ++ hx)).drop
            (n0 :: n2).length = ':' :: ' ' :: '#' :: hx := by
          rw [List.drop_append_of_le_length (le_refl _), List.drop_length,
            List.nil_append]
          rfl
        have h1 := congrArg (List.drop 3) h0
        rw [List.drop_drop] at h1
        rw [show (n0 :: n2).length + 2 + 1 =
          (n0 :: n2).length + 3 from by omega]
        exact h1]
    · rename_i hih
      exact Option.noConfusion hih

theorem trimChars_eq_self_of_all {l : List Char}
    (h : ∀ c ∈ l, c.isWhitespace = false) : trimChars l = l := by
  refine trimChars_eq_self_of_ends ?_ ?_
  · intro c hc
    refine h c ?_
    cases l with
    | nil => exact Option.noConfusion hc
    | cons a rest =>
      have : a = c := by simpa using hc
      rw [← this]
      exact List.mem_cons_self _ _
  · intro c hc
    exact h c (mem_of_getLast?_eq hc)

theorem paletteRowOfLine_spec (pr : List Char × List Char)
    (hn : goodName pr.1 = true) (hh : goodHex pr.2 = true) :
    paletteRowOfLine (paletteLine pr) = some (paletteExpectedRow pr) := by
  obtain ⟨hnne, -, hhead, hlastn⟩ := goodName_spec hn
  unfold paletteRowOfLine
  rw [paletteMatchLine_spec pr hn hh]
  dsimp only
  rw [if_neg hnne]
  rw [trimChars_eq_self_of_ends hhead hlastn]
  rw [List.map_cons, show ('#').toUpper = '#' from by decide]
  rfl

theorem mem_paletteLine {c : Char} {pr : List Char × List Char}
    (h : c ∈ paletteLine pr) :
    c ∈ pr.1 ∨ c = ':' ∨ c = ' ' ∨ c = '#' ∨ c ∈ pr.2 := by
  have h2 : c ∈ pr.1 ++ ([':', ' ', '#'] ++ pr.2) := by
    have e1 : paletteLine pr = pr.1 ++ ([':', ' ', '#'] ++ pr.2) := by
      show pr.1 ++ (": #").toList ++ pr.2 = _
      rw [show (": #").toList = [':', ' ', '#'] from rfl]
      simp only [List.append_assoc]
    rw [e1] at h
    exact h
  rcases List.mem_append.mp h2 with h3 | h3
  · exact Or.inl h3
  rcases List.mem_append.mp h3 with h4 | h4
  · simp only [List.mem_cons, List.not_mem_nil, or_false] at h4
    rcases h4 with rfl | rfl | rfl
    · exact Or.inr (Or.inl rfl)
    · exact Or.inr (Or.inr (Or.inl rfl))
    · exact Or.inr (Or.inr (Or.inr (Or.inl rfl)))
  · exact Or.inr (Or.inr (Or.inr (Or.inr h4)))

theorem isULStart_false_of_head {c : Char} {t : List Char}
    (h1 : c ≠ '-') (h2 : c ≠ '*') (h3 : c ≠ '•') :
    isULStart (c :: t) = false := by
  cases t with
  | nil => rfl
  | cons c2 t2 =>
    unfold isULStart
    refine decide_eq_false ?_
    rintro ⟨rfl | rfl | rfl, -⟩
    · exact h1 rfl
    · exact h2 rfl
    · exact h3 rfl

theorem isOLStart_false_of_head {c : Char} {t : List Char}
    (h : c.isDigit = false) : isOLStart (c :: t) = false := by
  unfold isOLStart
  rw [List.takeWhile_cons_of_neg (by rw [h]; exact Bool.false_ne_true)]
  rfl

theorem isHeading_false_of_head {c : Char} {t : List Char}
    (h : c ≠ '#') : isHeading (c :: t) = false := by
  unfold isHeading headingLevel
  rw [List.takeWhile_cons_of_neg (by simpa using h)]
  rfl

theorem paletteLine_plain (pr : List Char × List Char)
    (hn : goodName pr.1 = true) (hh : goodHex pr.2 = true)
    (hol : isOLStart (paletteLine pr) = false) :
    PlainLine (paletteLine pr) := by
  obtain ⟨n, hx⟩ := pr
  obtain ⟨hnne, hgood, hhead, -⟩ := goodName_spec hn
  have hhlen : hx.length = 6 := by
    unfold goodHex at hh
    rw [Bool.and_eq_true, decide_eq_true_eq] at hh
    exact hh.1
  have hhall : ∀ c ∈ hx, isHexDigit c = true := by
    unfold goodHex at hh
    rw [Bool.and_eq_true, List.all_eq_true] at hh
    exact fun c hc => hh.2 c hc
  have hxne : hx ≠ [] := by
    intro he
    rw [he] at hhlen
    exact absurd hhlen (by decide)
  obtain ⟨n0, n2, rfl⟩ : ∃ n0 n2, n = n0 :: n2 := by
    cases n with
    | nil => exact absurd rfl hnne
    | cons a b => exact ⟨a, b, rfl⟩
  have hws0 : n0.isWhitespace = false := hhead n0 rfl
  obtain ⟨hcol0, hdash0, hmdash0, hpipe0, hamp0, hlt0, hgt0,
    hstar0, hbul0, hhash0, hbt0, hnl0⟩ :=
    goodNameChar_spec (hgood n0 (List.mem_cons_self _ _))
  have hshape : paletteLine (n0 :: n2, hx) =
      n0 :: (n2 ++ ([':', ' ', '#'] ++ hx)) := by
    show (n0 :: n2) ++ (": #").toList ++ hx = _
    rw [show (": #").toList = [':', ' ', '#'] from rfl]
    simp only [List.cons_append, List.append_assoc]
  have habs : ∀ c : Char, goodNameChar c = false → isHexDigit c = false →
      c ≠ ':' → c ≠ ' ' → c ≠ '#' → c ∉ paletteLine (n0 :: n2, hx) := by
    intro c hg hhx h1 h2 h3 hm
    rcases mem_paletteLine hm with hcn | rfl | rfl | rfl | hch
    · rw [hgood c hcn] at hg
      exact Bool.noConfusion hg
    · exact h1 rfl
    · exact h2 rfl
    · exact h3 rfl
    · rw [hhall c hch] at hhx
      exact Bool.noConfusion hhx
  refine ⟨?_, ?_, ?_, ?_, ?_, ?_, ?_, ?_, ?_, ?_, ?_, ?_⟩
  · refine trimChars_eq_self_of_ends ?_ ?_
    · intro c hc
      rw [hshape, List.head?_cons] at hc
      injection hc with hc2
      rw [← hc2]
      exact hws0
    · intro c hc
      have hc2 : ((n0 :: n2) ++ (": #").toList ++ hx).getLast? = some c := hc
      rw [getLast?_append_right hxne] at hc2
      exact (isHexDigit_spec (hhall c (mem_of_getLast?_eq hc2))).1
  · rw [hshape]
    exact List.cons_ne_nil _ _
  · exact habs '<' (by decide) (by decide) (by decide) (by decide) (by decide)
  · exact habs '&' (by decide) (by decide) (by decide) (by decide) (by decide)
  · exact habs '>' (by decide) (by decide) (by decide) (by decide) (by decide)
  · exact habs btick (by decide) (by decide) (by decide) (by decide)
      (by decide)
  · exact habs '\n' (by decide) (by decide) (by decide) (by decide)
      (by decide)
  · exact habs '*' (by decide) (by decide) (by decide) (by decide) (by decide)
  · rw [hshape]
    unfold isMdTableRow
    have hpipe2 : (some n0 == some '|') = false := by
      rw [beq_eq_false_iff_ne]
      intro he
      injection he with he2
      exact hpipe0 he2
    rw [List.head?_cons, hpipe2, Bool.and_false, Bool.false_and]
  · rw [hshape]
    exact isULStart_false_of_head hdash0 hstar0 hbul0
  · exact hol
  · rw [hshape]
    exact isHeading_false_of_head hhash0

theorem hasPre_hash_false {s : List Char} (hs : '#' ∉ s) (h : Nat) :
    hasPre ['#'] (s.drop h) = false := by
  cases hd : s.drop h with
  | nil => rfl
  | cons c t =>
    unfold hasPre
    have hc : c ∈ s := by
      have hm : c ∈ s.drop h := by
        rw [hd]
        exact List.mem_cons_self _ _
      exact List.mem_of_mem_drop hm
    have hne2 : ('#' == c) = false := by
      rw [beq_eq_false_iff_ne]
      intro he
      exact hs (he ▸ hc)
    rw [hne2, Bool.false_and]

theorem paletteTryAt_none_of_no_hash (s : List Char) (hs : '#' ∉ s)
    (k : Nat) : paletteTryAt s k = none := by
  unfold paletteTryAt
  dsimp only
  split
  · split
    · split
      · rename_i hcond
        exfalso
        obtain ⟨h1, -⟩ := hcond
        rw [hasPre_hash_false hs] at h1
        exact Bool.noConfusion h1
      · rfl
    · rfl
  · rfl

theorem paletteSearch_none_of_no_hash (s : List Char) (hs : '#' ∉ s) :
    ∀ fuel i, paletteSearch s i fuel = none := by
  intro fuel
  induction fuel with
  | zero => intro i; rfl
  | succ fuel ih =>
    intro i
    rw [paletteSearch, paletteTryAt_none_of_no_hash s hs i]
    show (if i < s.length then paletteSearch s (i + 1) fuel else none) = none
    split
    · exact ih (i + 1)
    · rfl

theorem m2TryAt_none_of_no_hash (s : List Char) (hs : '#' ∉ s) (p : Nat) :
    m2TryAt s p = none := by
  unfold m2TryAt
  split
  · rfl
  · split
    · rename_i cprev c hprev hc
      rw [if_neg ?_]
      rintro ⟨-, rfl⟩
      have hcm : '#' ∈ s := by
        have h1 := List.getElem?_eq_some.mp hc
        obtain ⟨hlt, he⟩ := h1
        rw [← he]
        exact List.getElem_mem hlt
      exact hs hcm
    · rfl

theorem m2Search_none_of_no_hash (s : List Char) (hs : '#' ∉ s) :
    ∀ fuel p, m2Search s p fuel = none := by
  intro fuel
  induction fuel with
  | zero => intro p; rfl
  | succ fuel ih =>
    intro p
    rw [m2Search, m2TryAt_none_of_no_hash s hs p]
    show (if p < s.length then m2Search s (p + 1) fuel else none) = none
    split
    · exact ih (p + 1)
    · rfl

theorem paletteMatchLine_none_of_no_hash (l : List Char) (hs : '#' ∉ l) :
    paletteMatchLine l = none := by
  unfold paletteMatchLine
  dsimp only
  have htf : ∀ p0 : Nat,
      (match paletteSearch l p0 (l.length + 1 - p0) with
        | some (i, h) =>
          some ((l.drop p0).take (i - p0), '#' :: (l.drop (h + 1)).take 3)
        | none => none) = (none : Option (List Char × List Char)) := by
    intro p0
    rw [paletteSearch_none_of_no_hash l hs _ p0]
  split
  · rename_i r hr
    exfalso
    split at hr
    · split at hr
      · rw [htf] at hr
        exact Option.noConfusion hr
      · exact Option.noConfusion hr
    · exact Option.noConfusion hr
  · exact htf _

theorem paletteRowOfLine_none_of_no_hash (l : List Char) (hs : '#' ∉ l) :
    paletteRowOfLine l = none := by
  unfold paletteRowOfLine
  rw [paletteMatchLine_none_of_no_hash l hs]
  show (match m2Search l 0 (l.length + 1) with
    | some hex => some ((("Color").toList : List Char), hex.map Char.toUpper)
    | none => none) = none
  rw [m2Search_none_of_no_hash l hs]

/-- Every well-formed input item yields a plain paragraph line. -/
theorem swatchItem_plain (it : (List Char × List Char) ⊕ List Char)
    (hok : SwatchItemOk it) : PlainLine (swatchSrcLine it) := by
  cases it with
  | inl pr =>
    obtain ⟨hg1, hg2, hg3⟩ := goodPalettePair_spec hok
    exact paletteLine_plain pr hg1 hg2 hg3
  | inr l =>
    have hok2 : PlainLine l ∧ '#' ∉ l := hok
    exact hok2.1

theorem paletteRows_spec (items : List ((List Char × List Char) ⊕ List Char))
    (hne : items ≠ []) (hgood : ∀ it ∈ items, SwatchItemOk it) :
    paletteRows (swatchText items) =
      (palettePairs items).map paletteExpectedRow := by
  unfold paletteRows swatchText
  rw [splitChar_intercalate_inv (items.map swatchSrcLine)
    (by intro he; exact hne (List.map_eq_nil_iff.mp he))
    (by
      intro l hl hsub
      obtain ⟨it, hit, rfl⟩ := List.mem_map.mp hl
      exact (swatchItem_plain it (hgood it hit)).2.2.2.2.2.2.1 hsub)]
  clear hne
  induction items with
  | nil => rfl
  | cons it rest ih =>
    have hok := hgood it (List.mem_cons_self _ _)
    have htail := fun q hq => hgood q (List.mem_cons_of_mem it hq)
    cases it with
    | inl pr =>
      obtain ⟨hg1, hg2, -⟩ := goodPalettePair_spec hok
      rw [List.map_cons]
      simp only [swatchSrcLine]
      rw [List.filterMap_cons_some (paletteRowOfLine_spec pr hg1 hg2)]
      show _ = paletteExpectedRow pr ::
        (palettePairs rest).map paletteExpectedRow
      rw [ih htail]
    | inr l =>
      have hok2 : PlainLine l ∧ '#' ∉ l := hok
      rw [List.map_cons]
      simp only [swatchSrcLine]
      rw [List.filterMap_cons_none (paletteRowOfLine_none_of_no_hash l hok2.2)]
      show List.filterMap paletteRowOfLine (rest.map swatchSrcLine) =
        (palettePairs rest).map paletteExpectedRow
      exact ih htail

set_option maxRecDepth 8192 in
/-- C8 (counter-evidence): on two `name: #RRGGBB` lines the swatch
table's hex column does not hold the full uppercase six-digit codes — the
ordered alternation `{3}|{6}` of the extraction regex always takes the
three-digit branch when three hex digits are available, so the cell reads
`#AAB`, never `#AABBCC`.  Moreover two DISTINCT such lines do not suffice
to trigger the table: lines whose hex codes agree on the first three
digits collapse to one de-duplicated truncated row, and no table at all
is emitted. -/
theorem renderContentToHtml_swatch_counterexample :
    containsSub (("<td>#AABBCC</td>").toList)
      (renderContentToHtml (("Alpha: #AABBCC\nBeta: #DDEEFF").toList))
        = false ∧
    cnt (("<td>#AAB</td>").toList)
      (renderContentToHtml (("Alpha: #AABBCC\nBeta: #DDEEFF").toList))
        = 1 ∧
    containsSub (("<table").toList)
      (renderContentToHtml (("A: #AABBCC\nA: #AABBDD").toList)) = false := by
  refine ⟨by decide, by decide, by decide⟩

/-- C8 (amended): for any nonempty mix of `name: #RRGGBB` lines (labels
free of the separator / markdown / HTML-escaped characters, not starting
or ending with whitespace — interior spaces and digits allowed — and not
of ordered-list shape) and ordinary prose lines (nonempty, trimmed, free
of `#`, `<`, `&`, `>`, `*`, backticks, and not themselves list / heading
/ table markdown): whenever at least two distinct de-duplicated truncated
rows remain, the rendered output is the paragraphs followed by exactly
one swatch table whose body rows are the de-duplicated `(name, hex)`
pairs in first-occurrence order — with the hex truncated to its first
THREE digits (uppercased), not the full six-digit code of the spec's
wording; and whenever the markdown pass already produced a table, no
swatch table is appended at all. -/
theorem renderContentToHtml_swatch_table
    (items : List ((List Char × List Char) ⊕ List Char))
    (hne : items ≠ [])
    (hgood : ∀ it ∈ items, SwatchItemOk it)
    (h2 : 2 ≤ (dedupRows ((palettePairs items).map paletteExpectedRow)
      []).length) :
    (renderContentToHtml (swatchText items) =
      (items.map swatchSrcLine).flatMap
        (fun l => ("<p>").toList ++ l ++ ("</p>").toList) ++
      (("<table class=\"md-table\"><thead><tr><th>Color</th><th>HEX</th><th>Preview</th></tr></thead><tbody>").toList ++
        (dedupRows ((palettePairs items).map paletteExpectedRow)
          []).flatMap swatchRow ++
        ("</tbody></table>").toList)) ∧
    (∀ t, containsSub (("<table").toList) (renderCore t) = true →
      renderContentToHtml t = renderCore t) := by
  have hlines : ∀ l ∈ items.map swatchSrcLine, PlainLine l := by
    intro l hl
    obtain ⟨it, hit, rfl⟩ := List.mem_map.mp hl
    exact swatchItem_plain it (hgood it hit)
  have hlinene : ∀ it : (List Char × List Char) ⊕ List Char,
      SwatchItemOk it → swatchSrcLine it ≠ [] := by
    intro it hok
    exact (swatchItem_plain it hok).2.1
  have htne : swatchText items ≠ [] := by
    obtain ⟨it0, rest, rfl⟩ : ∃ it0 rest, items = it0 :: rest := by
      cases items with
      | nil => exact absurd rfl hne
      | cons a b => exact ⟨a, b, rfl⟩
    unfold swatchText
    rw [List.map_cons]
    have h0 : swatchSrcLine it0 ≠ [] :=
      hlinene it0 (hgood it0 (List.mem_cons_self _ _))
    cases hrest : rest.map swatchSrcLine with
    | nil => exact h0
    | cons l1 ls2 =>
      show swatchSrcLine it0 ++ '\n' :: intercalateChar '\n' (l1 :: ls2) ≠ []
      intro he
      rcases List.append_eq_nil.mp he with ⟨hh1, -⟩
      exact h0 hh1
  have hcore : renderCore (swatchText items) =
      (items.map swatchSrcLine).flatMap
        (fun l => ("<p>").toList ++ l ++ ("</p>").toList) :=
    renderCore_paragraphs (items.map swatchSrcLine)
      (by intro he; exact hne (List.map_eq_nil_iff.mp he)) hlines
  have huniq : uniqueRows (swatchText items) =
      dedupRows ((palettePairs items).map paletteExpectedRow) [] := by
    unfold uniqueRows
    rw [paletteRows_spec items hne hgood]
  have hnotab : containsSub (("<table").toList)
      (renderCore (swatchText items)) = false := by
    rw [hcore]
    refine containsSub_table_paragraphs _ ?_
    intro l hl
    exact (hlines l hl).2.2.1
  have hsuf : paletteSuffix (swatchText items)
      (renderCore (swatchText items)) =
      ("<table class=\"md-table\"><thead><tr><th>Color</th><th>HEX</th><th>Preview</th></tr></thead><tbody>").toList ++
        (dedupRows ((palettePairs items).map paletteExpectedRow)
          []).flatMap swatchRow ++
        ("</tbody></table>").toList := by
    unfold paletteSuffix
    rw [if_pos ⟨by rw [huniq]; exact h2,
      by rw [hnotab]; exact Bool.false_ne_true⟩]
    rw [huniq]
  refine ⟨?_, ?_⟩
  · unfold renderContentToHtml
    rw [if_neg htne, hsuf, hcore]
  · intro t ht
    by_cases hte : t = []
    · subst hte
      exact absurd ht (by decide)
    · unfold renderContentToHtml
      rw [if_neg hte]
      unfold paletteSuffix
      rw [if_neg (fun hc => hc.2 ht)]
      exact List.append_nil _

/-- A concrete mixed input: one prose line and two palette lines, one of
whose labels contains interior spaces and a digit. -/
def swatchItems0 : List ((List Char × List Char) ⊕ List Char) :=
  [Sum.inr (("Palette for the header").toList),
   Sum.inl ((("Sky Blue 2").toList), (("AABBCC").toList)),
   Sum.inl ((("Beta").toList), (("DDEEFF").toList))]

theorem renderContentToHtml_swatch_table_witness :
    renderContentToHtml (swatchText swatchItems0) =
      (swatchItems0.map swatchSrcLine).flatMap
        (fun l => ("<p>").toList ++ l ++ ("</p>").toList) ++
      (("<table class=\"md-table\"><thead><tr><th>Color</th><th>HEX</th><th>Preview</th></tr></thead><tbody>").toList ++
        (dedupRows ((palettePairs swatchItems0).map paletteExpectedRow)
          []).flatMap swatchRow ++
        ("</tbody></table>").toList) :=
  (renderContentToHtml_swatch_table swatchItems0 (by decide)
    (by
      intro it hit
      simp only [swatchItems0, List.mem_cons, List.not_mem_nil, or_false] at hit
      rcases hit with rfl | rfl | rfl <;> decide)
    (by decide)).1

end WpAgent
